import Mathlib

/-!
Verification of the weighted-graph algorithm toolkit: shallow embedding of
`dijkstra.py`, `bellmanford.py`, `kruskal.py` and `prim.py`, together with
proofs of the specification's claims about them.

Modelling conventions:
* Python node identifiers (dictionary keys, here strings) are modelled as
  natural numbers; the total order on `Nat` stands for the order on strings
  used by tuple comparison in the heap.
* The `graph` dictionary `{node: [(neighbor, weight), ...]}` is modelled as an
  association list with the dictionary's keys in insertion order.
* Edge weights are integers (`Int`); `float('inf')` distance sentinels are
  modelled by `Option Int` with `none` standing for infinity.
* Python `while` loops are modelled with explicit fuel; every algorithm is run
  with enough fuel, and fuel sufficiency is proved where a claim needs it.
-/

namespace AlgoSpec

/-- Node identifiers (the Python dictionaries' keys). -/
abbrev Node := Nat

/-- The `graph` argument of the Python functions: a dict
`{node: [(neighbor, weight), ...]}` as an association list. -/
abbrev Graph := List (Node × List (Node × Int))

/-- The keys of the graph dictionary (`for node in graph`). -/
def keysG (g : Graph) : List Node := g.map Prod.fst

/-- `graph[u]`: the adjacency list of `u`.  The Python code only ever
evaluates `graph[u]` on keys of the dictionary (otherwise it would raise
`KeyError`); the default `[]` branch is unreachable under the well-formedness
hypotheses used throughout. -/
def adj (g : Graph) (u : Node) : List (Node × Int) := (g.lookup u).getD []

/-- Well-formed graph dictionary: keys are distinct (they are dict keys) and
every neighbor mentioned in an adjacency list is itself a key. -/
def GraphWF (g : Graph) : Prop :=
  (keysG g).Nodup ∧ ∀ u ∈ keysG g, ∀ vw ∈ adj g u, vw.1 ∈ keysG g

/-- Strict comparison `d < dist[v]` against a possibly-infinite table entry. -/
def ltD (d : Int) : Option Int → Bool
  | none => true
  | some e => decide (d < e)

/-! ## Walks, paths and reachability (specification side)

A walk is a list of edges `(u, v, w)` taken from the adjacency structure; its
weight is the sum of the `w` components.  These notions come from the spec's
language ("simple paths", "reachable", "minimum total weight"). -/

/-- `IsWalk g s es t`: `es` is a walk from `s` to `t` following edges of `g`. -/
def IsWalk (g : Graph) : Node → List (Node × Node × Int) → Node → Prop
  | s, [], t => s = t
  | s, (u, v, w) :: rest, t => s = u ∧ (v, w) ∈ adj g u ∧ IsWalk g v rest t

/-- Total weight of a walk. -/
def wsum (es : List (Node × Node × Int)) : Int := (es.map (fun e => e.2.2)).sum

/-- The vertex sequence of a walk starting at `s`. -/
def verts (s : Node) (es : List (Node × Node × Int)) : List Node :=
  s :: es.map (fun e => e.2.1)

/-- A simple path: a walk visiting no vertex twice. -/
def IsSimple (s : Node) (es : List (Node × Node × Int)) : Prop := (verts s es).Nodup

/-- Reachability: some walk (equivalently some simple path) connects `s` to `t`. -/
def Reach (g : Graph) (s t : Node) : Prop := ∃ es, IsWalk g s es t

/-! ## bellmanford.py -/

/-- One relaxation attempt of the edge `(u, v, weight)`:
`if dist[u] != float('inf') and dist[u] + weight < dist[v]`, update `dist[v]`
and `prev[v]`.  The state is the pair of the distance and predecessor tables. -/
def relax (dp : (Node → Option Int) × (Node → Option Node)) (e : Node × Node × Int) :
    (Node → Option Int) × (Node → Option Node) :=
  match dp.1 e.1 with
  | none => dp
  | some du =>
    if ltD (du + e.2.2) (dp.1 e.2.1) then
      (fun x => if x = e.2.1 then some (du + e.2.2) else dp.1 x,
       fun x => if x = e.2.1 then some e.1 else dp.2 x)
    else dp

/-- One full pass of Bellman-Ford over the edge list. -/
def bfPass (edges : List (Node × Node × Int))
    (dp : (Node → Option Int) × (Node → Option Node)) :
    (Node → Option Int) × (Node → Option Node) :=
  edges.foldl relax dp

/-- Initial tables: every distance infinite except `dist[start] = 0`, every
predecessor `None`. -/
def dpInit (start : Node) : (Node → Option Int) × (Node → Option Node) :=
  (fun x => if x = start then some 0 else none, fun _ => none)

/-- The negative-cycle check: one additional pass looking for a still-relaxable
edge. -/
def negCheck (edges : List (Node × Node × Int)) (dist : Node → Option Int) : Bool :=
  edges.any fun e =>
    match dist e.1 with
    | none => false
    | some du => ltD (du + e.2.2) (dist e.2.1)

/-- `bellman_ford(graph, edges, start)`: `len(graph) - 1` relaxation passes
followed by the negative-cycle check.  Returns `(dist, prev, has_negative_cycle)`. -/
def bellman_ford (g : Graph) (edges : List (Node × Node × Int)) (start : Node) :
    (Node → Option Int) × (Node → Option Node) × Bool :=
  let dp := (bfPass edges)^[g.length - 1] (dpInit start)
  (dp.1, dp.2, negCheck edges dp.1)

/-! ## reconstruct_path (identical in dijkstra.py and bellmanford.py)

The predecessor table argument is a finite dictionary
(`Node` keys, `Option Node` values, `none` being Python's `None`); looking up
an absent key raises `KeyError`. -/

/-- Result of a `reconstruct_path` run: the reversed path, or a raised
`KeyError` naming the absent key. -/
inductive PathResult where
  | ok : List Node → PathResult
  | keyError : Node → PathResult
deriving DecidableEq, Repr

/-- `reconstruct_path(prev, target)` run for at most `fuel` iterations of
`while node is not None: path.append(node); node = prev[node]`; `none` means
the loop is still running after `fuel` iterations. -/
def reconstructAux (prev : List (Node × Option Node)) :
    Nat → Option Node → List Node → Option PathResult
  | _, none, path => some (.ok path.reverse)
  | 0, some _, _ => none
  | fuel+1, some u, path =>
    match prev.lookup u with
    | none => some (.keyError u)
    | some pu => reconstructAux prev fuel pu (u :: path)

/-- One step of the predecessor chain from the loop's point of view:
`none` after a `None` predecessor (loop exit) and also after an absent key
(where the real code would raise). -/
def chainStep (prev : List (Node × Option Node)) (o : Option Node) : Option Node :=
  o.bind fun u => ((prev.lookup u).getD none)

/-- The predecessor chain starting at `target`. -/
def chainIter (prev : List (Node × Option Node)) (target : Node) (k : Nat) : Option Node :=
  (chainStep prev)^[k] (some target)

/-! ### Claim C2: the negative-cycle flag -/

/-- The edge list of the negative-cycle scenario: nodes `{A, B}` as `{0, 1}`,
edges `(A,B,-1)` and `(B,A,-1)`. -/
def negGraph : Graph := [(0, [(1, -1)]), (1, [(0, -1)])]

/-- Its flat edge list. -/
def negEdges : List (Node × Node × Int) := [(0, 1, -1), (1, 0, -1)]

theorem negCheck_eq_true_iff (edges : List (Node × Node × Int)) (dist : Node → Option Int) :
    negCheck edges dist = true ↔
      ∃ e ∈ edges, ∃ du, dist e.1 = some du ∧ ltD (du + e.2.2) (dist e.2.1) = true := by
  unfold negCheck
  rw [List.any_eq_true]
  constructor
  · rintro ⟨e, he, hb⟩
    refine ⟨e, he, ?_⟩
    cases h : dist e.1 with
    | none => rw [h] at hb; exact absurd hb (by simp)
    | some du => rw [h] at hb; exact ⟨du, rfl, hb⟩
  · rintro ⟨e, he, du, hdu, hlt⟩
    exact ⟨e, he, by rw [hdu]; exact hlt⟩

/-- Claim C2: for every graph, edge list and source, the returned
`has_negative_cycle` flag is `true` exactly when, after the `|V| - 1`
relaxation passes, some edge `(u, v, w)` with finite `dist[u]` still satisfies
`dist[u] + w < dist[v]`; and on the two-node graph with edges `(A,B,-1)`,
`(B,A,-1)` run from `A`, the flag is `true`. -/
theorem bellman_ford_negative_cycle_flag :
    (∀ (g : Graph) (edges : List (Node × Node × Int)) (start : Node),
      (bellman_ford g edges start).2.2 = true ↔
        ∃ e ∈ edges, ∃ du,
          (bellman_ford g edges start).1 e.1 = some du ∧
          ltD (du + e.2.2) ((bellman_ford g edges start).1 e.2.1) = true) ∧
    (bellman_ford negGraph negEdges 0).2.2 = true := by
  constructor
  · intro g edges start
    exact negCheck_eq_true_iff edges _
  · decide

/-! ### Claim C4: reconstruct_path on bad predecessor tables -/

theorem chainIter_succ (prev : List (Node × Option Node)) (target : Node) (k : Nat) :
    chainIter prev target (k + 1) = chainStep prev (chainIter prev target k) := by
  unfold chainIter
  rw [Function.iterate_succ_apply']

theorem chainIter_none_absorb (prev : List (Node × Option Node)) (target : Node)
    {k : Nat} (h : chainIter prev target k = none) :
    ∀ m, k ≤ m → chainIter prev target m = none := by
  intro m hm
  obtain ⟨t, rfl⟩ := Nat.exists_eq_add_of_le hm
  induction t with
  | zero => exact h
  | succ t ih =>
    rw [← Nat.add_assoc, chainIter_succ, ih (by omega)]
    rfl

theorem chainIter_shift (prev : List (Node × Option Node)) (target : Node)
    {i j : Nat} (h : chainIter prev target i = chainIter prev target j) (t : Nat) :
    chainIter prev target (i + t) = chainIter prev target (j + t) := by
  unfold chainIter at h ⊢
  rw [Nat.add_comm i t, Nat.add_comm j t, Function.iterate_add_apply,
    Function.iterate_add_apply, h]

/-- A revisit in the predecessor chain forces the chain to be defined (a
non-`None`, present key) at every index. -/
theorem chainIter_isSome_of_revisit (prev : List (Node × Option Node)) (target : Node)
    {i j : Nat} {x : Node} (hij : i < j)
    (hi : chainIter prev target i = some x) (hj : chainIter prev target j = some x) :
    ∀ m, (chainIter prev target m).isSome := by
  intro m
  induction m using Nat.strong_induction_on with
  | _ m ih =>
    by_cases hm : m ≤ j
    · cases h : chainIter prev target m with
      | none => rw [chainIter_none_absorb prev target h j hm] at hj; exact absurd hj (by simp)
      | some y => rfl
    · push_neg at hm
      have hd : i + (m - j) < m := by omega
      have := chainIter_shift prev target (hi.trans hj.symm) (m - j)
      have hjm : j + (m - j) = m := by omega
      rw [hjm] at this
      rw [← this]
      exact ih _ hd

theorem chainStep_some (prev : List (Node × Option Node)) (u : Node) :
    chainStep prev (some u) = (prev.lookup u).getD none := by
  unfold chainStep
  rfl

/-- If the predecessor chain is defined at every index, the reconstruction loop
never terminates: it returns the still-running marker for every fuel. -/
theorem reconstructAux_none_of_allSome (prev : List (Node × Option Node)) :
    ∀ (fuel : Nat) (o : Option Node) (path : List Node),
      (∀ m, ((chainStep prev)^[m] o).isSome) →
      reconstructAux prev fuel o path = none := by
  intro fuel
  induction fuel with
  | zero =>
    intro o path h
    cases o with
    | none => exact absurd (h 0) (by simp)
    | some u => rfl
  | succ fuel ih =>
    intro o path h
    have h1 := h 1
    cases o with
    | none => exact absurd (h 0) (by simp)
    | some u =>
      rw [Function.iterate_one, chainStep_some] at h1
      cases hl : prev.lookup u with
      | none => rw [hl] at h1; exact absurd h1 (by simp)
      | some pu =>
        simp only [reconstructAux, hl]
        apply ih
        intro m
        have h2 := h (m + 1)
        rw [Function.iterate_add_apply, Function.iterate_one, chainStep_some, hl] at h2
        exact h2

/-- The cyclic predecessor table `{A: B, B: A}` (as `{0: some 1, 1: some 0}`). -/
def prevCyc : List (Node × Option Node) := [(0, some 1), (1, some 0)]

/-- Counterexample to claim C4: on the cyclic predecessor table
`{A: B, B: A}` with target `A`, the predecessor chain revisits a node without
reaching `None`, yet `reconstruct_path` does not fail with a defined error —
it loops forever (no amount of fuel makes the loop finish). -/
theorem reconstruct_path_cycle_diverges :
    (∃ i j x, i < j ∧ chainIter prevCyc 0 i = some x ∧ chainIter prevCyc 0 j = some x) ∧
    ¬ ∃ n r, reconstructAux prevCyc n (some 0) [] = some r := by
  constructor
  · refine ⟨0, 2, 0, ?_, ?_, ?_⟩ <;> decide
  · rintro ⟨n, r, hr⟩
    rw [reconstructAux_none_of_allSome prevCyc n (some 0) []
      (@chainIter_isSome_of_revisit prevCyc 0 0 2 0 (by decide) (by decide) (by decide))] at hr
    exact absurd hr (by simp)

/-- Amended claim C4: `reconstruct_path` does fail with a defined error
(`KeyError` on the first iteration) when the target is absent from the table;
but when the predecessor chain starting at the target revisits a node without
reaching `None`, it does not fail — the loop runs forever. -/
theorem reconstruct_path_missing_key_or_cycle (prev : List (Node × Option Node))
    (target : Node) :
    (prev.lookup target = none →
      reconstructAux prev 1 (some target) [] = some (.keyError target)) ∧
    ((∃ i j x, i < j ∧ chainIter prev target i = some x ∧ chainIter prev target j = some x) →
      ∀ n, reconstructAux prev n (some target) [] = none) := by
  constructor
  · intro h
    simp only [reconstructAux, h]
  · rintro ⟨i, j, x, hij, hi, hj⟩ n
    exact reconstructAux_none_of_allSome prev n (some target) []
      (chainIter_isSome_of_revisit prev target hij hi hj)

theorem reconstruct_path_missing_key_or_cycle_witness :
    reconstructAux [(5, some 3)] 1 (some 7) [] = some (.keyError 7) ∧
    reconstructAux prevCyc 5 (some 0) [] = none :=
  ⟨(reconstruct_path_missing_key_or_cycle [(5, some 3)] 7).1 (by decide),
   (reconstruct_path_missing_key_or_cycle prevCyc 0).2
     ⟨0, 2, 0, by decide, by decide, by decide⟩ 5⟩

/-! ## kruskal.py: the UnionFind class

The `parent` and `rank` dictionaries are modelled as total functions; only
their values on the element list ever matter.  The recursive `find` carries
explicit fuel bounding the recursion depth; on well-formed states fuel
`|elements| + 1` always suffices (proved below), so the `none` fuel-exhaustion
result never occurs on the states the algorithms build. -/

structure UnionFind where
  parent : Node → Node
  rank : Node → Nat

/-- `UnionFind(elements)`: `parent = {x: x}`, `rank = {x: 0}`. -/
def UnionFind.init : UnionFind := ⟨fun x => x, fun _ => 0⟩

/-- `find(x)` with path compression:
`if self.parent[x] != x: self.parent[x] = self.find(self.parent[x]); return self.parent[x]`. -/
def findAux : Nat → (Node → Node) → Node → Option ((Node → Node) × Node)
  | 0, _, _ => none
  | fuel+1, p, x =>
    if p x = x then some (p, x)
    else
      match findAux fuel p (p x) with
      | none => none
      | some (p', r) => some (fun y => if y = x then r else p' y, r)

def UnionFind.find (uf : UnionFind) (fuel : Nat) (x : Node) : Option (UnionFind × Node) :=
  match findAux fuel uf.parent x with
  | none => none
  | some (p', r) => some ({ parent := p', rank := uf.rank }, r)

/-- `union(x, y)`: union by rank, returning `True` when a merge happened and
`False` when `x` and `y` were already in the same set. -/
def UnionFind.union (uf : UnionFind) (fuel : Nat) (x y : Node) : Option (UnionFind × Bool) :=
  match uf.find fuel x with
  | none => none
  | some (uf₁, rootX) =>
    match uf₁.find fuel y with
    | none => none
    | some (uf₂, rootY) =>
      if rootX = rootY then some (uf₂, false)
      else if uf₂.rank rootX < uf₂.rank rootY then
        some ({ parent := fun z => if z = rootX then rootY else uf₂.parent z,
                rank := uf₂.rank }, true)
      else if uf₂.rank rootY < uf₂.rank rootX then
        some ({ parent := fun z => if z = rootY then rootX else uf₂.parent z,
                rank := uf₂.rank }, true)
      else
        some ({ parent := fun z => if z = rootY then rootX else uf₂.parent z,
                rank := fun z => if z = rootX then uf₂.rank rootX + 1 else uf₂.rank z },
              true)

/-- `connected(x, y)`: `self.find(x) == self.find(y)`. -/
def UnionFind.connected (uf : UnionFind) (fuel : Nat) (x y : Node) :
    Option (UnionFind × Bool) :=
  match uf.find fuel x with
  | none => none
  | some (uf₁, rootX) =>
    match uf₁.find fuel y with
    | none => none
    | some (uf₂, rootY) => some (uf₂, rootX == rootY)

/-! ### Root theory for parent maps -/

/-- `r` is the root of `x` in the parent map `p`: it is self-parented and the
parent chain from `x` reaches it. -/
def RootedTo (p : Node → Node) (x r : Node) : Prop := p r = r ∧ ∃ k, p^[k] x = r

theorem RootedTo.refl (p : Node → Node) {r : Node} (h : p r = r) : RootedTo p r r :=
  ⟨h, 0, rfl⟩

theorem RootedTo.of_parent {p : Node → Node} {x r : Node} (h : RootedTo p (p x) r) :
    RootedTo p x r := by
  obtain ⟨hr, k, hk⟩ := h
  exact ⟨hr, k + 1, by rw [Function.iterate_succ_apply]; exact hk⟩

theorem RootedTo.parent {p : Node → Node} {x r : Node} (h : RootedTo p x r) :
    RootedTo p (p x) r := by
  obtain ⟨hr, k, hk⟩ := h
  cases k with
  | zero =>
    subst hk
    exact ⟨hr, 0, hr⟩
  | succ k =>
    exact ⟨hr, k, by rw [← Function.iterate_succ_apply]; exact hk⟩

/-- A parent chain ends at a unique root. -/
theorem RootedTo.unique {p : Node → Node} {x r s : Node}
    (hr : RootedTo p x r) (hs : RootedTo p x s) : r = s := by
  obtain ⟨hrr, k, hk⟩ := hr
  obtain ⟨hss, l, hl⟩ := hs
  rcases Nat.le_total k l with h | h
  · obtain ⟨t, rfl⟩ := Nat.exists_eq_add_of_le h
    rw [Nat.add_comm, Function.iterate_add_apply, hk, Function.iterate_fixed hrr] at hl
    exact hl
  · obtain ⟨t, rfl⟩ := Nat.exists_eq_add_of_le h
    rw [Nat.add_comm, Function.iterate_add_apply, hl, Function.iterate_fixed hss] at hk
    exact hk.symm

/-- Characterization of a successful `findAux` call: the returned node is the
root of `x`, and the returned map agrees with `p` except on nodes that are
re-pointed directly at their own root. -/
theorem findAux_spec :
    ∀ (fuel : Nat) (p : Node → Node) (x : Node) (p' : Node → Node) (r : Node),
      findAux fuel p x = some (p', r) →
      RootedTo p x r ∧ ∀ y, p' y = p y ∨ (p' y = r ∧ RootedTo p y r) := by
  intro fuel
  induction fuel with
  | zero => intro p x p' r h; exact absurd h (by simp [findAux])
  | succ fuel ih =>
    intro p x p' r h
    unfold findAux at h
    by_cases hx : p x = x
    · rw [if_pos hx] at h
      have h' := Option.some.inj h
      rw [Prod.mk.injEq] at h'
      obtain ⟨rfl, rfl⟩ := h'
      exact ⟨⟨hx, 0, rfl⟩, fun y => Or.inl rfl⟩
    · rw [if_neg hx] at h
      cases hrec : findAux fuel p (p x) with
      | none => rw [hrec] at h; exact absurd h (by simp)
      | some pr =>
        obtain ⟨p'', r''⟩ := pr
        rw [hrec] at h
        obtain ⟨hroot, hshape⟩ := ih p (p x) p'' r'' hrec
        have h' := Option.some.inj h
        rw [Prod.mk.injEq] at h'
        obtain ⟨hp', rfl⟩ := h'
        have hps : ∀ y, p' y = if y = x then r'' else p'' y := fun y => (congrFun hp' y).symm
        refine ⟨hroot.of_parent, fun y => ?_⟩
        rw [hps y]
        by_cases hy : y = x
        · subst hy
          rw [if_pos rfl]
          exact Or.inr ⟨rfl, hroot.of_parent⟩
        · rw [if_neg hy]
          exact hshape y

/-- Path compression never unroots a root. -/
theorem compress_root {p p' : Node → Node} {r : Node}
    (hshape : ∀ y, p' y = p y ∨ (p' y = r ∧ RootedTo p y r)) {s : Node}
    (hs : p s = s) : p' s = s := by
  rcases hshape s with h | ⟨h1, h2⟩
  · rw [h, hs]
  · rw [h1]
    exact h2.unique (RootedTo.refl p hs)

/-- Path compression preserves every node's root (forward direction). -/
theorem compress_rootedTo {p p' : Node → Node} {r : Node}
    (hshape : ∀ y, p' y = p y ∨ (p' y = r ∧ RootedTo p y r)) :
    ∀ {y s : Node}, RootedTo p y s → RootedTo p' y s := by
  suffices h : ∀ (k : Nat) (y s : Node), p s = s → p^[k] y = s → RootedTo p' y s by
    rintro y s ⟨hs, k, hk⟩
    exact h k y s hs hk
  intro k
  induction k with
  | zero =>
    intro y s hs hk
    exact ⟨compress_root hshape hs, 0, hk⟩
  | succ k ih =>
    intro y s hs hk
    rw [Function.iterate_succ_apply] at hk
    rcases hshape y with h | ⟨h1, h2⟩
    · have hp := ih (p y) s hs hk
      rw [← h] at hp
      exact hp.of_parent
    · have hys : RootedTo p y s := ⟨hs, k + 1, by rw [Function.iterate_succ_apply]; exact hk⟩
      have hrs : r = s := h2.unique hys
      subst hrs
      have : RootedTo p' (p' y) r := by
        rw [h1]
        exact RootedTo.refl p' (compress_root hshape h2.1)
      exact this.of_parent

/-- Path compression preserves every node's root (backward direction). -/
theorem compress_rootedTo_rev {p p' : Node → Node} {r : Node}
    (hshape : ∀ y, p' y = p y ∨ (p' y = r ∧ RootedTo p y r)) :
    ∀ {y s : Node}, RootedTo p' y s → RootedTo p y s := by
  have hroot : ∀ s : Node, p' s = s → p s = s := by
    intro s hs
    rcases hshape s with h | ⟨h1, h2⟩
    · rw [← h, hs]
    · rw [hs] at h1
      subst h1
      exact h2.1
  suffices h : ∀ (k : Nat) (y s : Node), p' s = s → p'^[k] y = s → RootedTo p y s by
    rintro y s ⟨hs, k, hk⟩
    exact h k y s hs hk
  intro k
  induction k with
  | zero =>
    intro y s hs hk
    exact ⟨hroot s hs, 0, hk⟩
  | succ k ih =>
    intro y s hs hk
    rw [Function.iterate_succ_apply] at hk
    have htail : RootedTo p (p' y) s := ih (p' y) s hs hk
    rcases hshape y with h | ⟨h1, h2⟩
    · rw [h] at htail
      exact htail.of_parent
    · rw [h1] at htail
      have hsr : s = r := htail.unique (RootedTo.refl p h2.1)
      subst hsr
      exact h2

/-- With fuel exceeding the index at which the chain hits a root, `findAux`
succeeds. -/
theorem findAux_isSome :
    ∀ (k fuel : Nat) (p : Node → Node) (x : Node),
      p (p^[k] x) = p^[k] x → k < fuel → (findAux fuel p x).isSome := by
  intro k
  induction k with
  | zero =>
    intro fuel p x hk hf
    cases fuel with
    | zero => exact absurd hf (by omega)
    | succ f =>
      rw [Function.iterate_zero_apply] at hk
      unfold findAux
      rw [if_pos hk]
      rfl
  | succ k ih =>
    intro fuel p x hk hf
    cases fuel with
    | zero => exact absurd hf (by omega)
    | succ f =>
      unfold findAux
      by_cases hx : p x = x
      · rw [if_pos hx]; rfl
      · rw [if_neg hx]
        rw [Function.iterate_succ_apply] at hk
        have hrec := ih f p (p x) hk (by omega)
        cases hr : findAux f p (p x) with
        | none => rw [hr] at hrec; exact absurd hrec (by simp)
        | some pr => obtain ⟨p', r⟩ := pr; rfl

/-- The well-formedness invariant of a parent map over the element list:
every chain terminates at a root, and non-trivial parent links stay inside
the element list. -/
def PWF (elems : List Node) (p : Node → Node) : Prop :=
  (∀ x, ∃ r, RootedTo p x r) ∧ (∀ x, p x ≠ x → x ∈ elems ∧ p x ∈ elems)

/-- On a well-formed parent map, every chain hits a root within
`|elements|` steps (the nodes strictly before the first root are distinct
members of the element list). -/
theorem PWF.depth {elems : List Node} {p : Node → Node} (h : PWF elems p) (x : Node) :
    ∃ k, k ≤ elems.length ∧ p (p^[k] x) = p^[k] x := by
  obtain ⟨r, hr, m, hm⟩ := h.1 x
  have hex : ∃ k, p (p^[k] x) = p^[k] x := ⟨m, by rw [hm, hr]⟩
  set k₀ := Nat.find hex with hk₀
  refine ⟨k₀, ?_, Nat.find_spec hex⟩
  have hinj : ∀ i j, i < j → j < k₀ → p^[i] x ≠ p^[j] x := by
    intro i j hij hj heq
    have hsh : ∀ t, p^[i + t] x = p^[j + t] x := by
      intro t
      rw [Nat.add_comm i t, Nat.add_comm j t, Function.iterate_add_apply,
        Function.iterate_add_apply, heq]
    have hq : p (p^[i + (k₀ - j)] x) = p^[i + (k₀ - j)] x := by
      rw [hsh (k₀ - j)]
      have : j + (k₀ - j) = k₀ := by omega
      rw [this]
      exact Nat.find_spec hex
    exact Nat.find_min hex (by omega) hq
  have hmem : ∀ i, i < k₀ → p^[i] x ∈ elems := by
    intro i hi
    have : p (p^[i] x) ≠ p^[i] x := Nat.find_min hex hi
    exact (h.2 _ this).1
  have hnd : ((List.range k₀).map (fun i => p^[i] x)).Nodup := by
    refine List.Nodup.map_on ?_ (List.nodup_range k₀)
    intro i hi j hj hf
    rcases Nat.lt_trichotomy i j with hlt | heq | hgt
    · exact absurd hf (hinj i j hlt (List.mem_range.mp hj))
    · exact heq
    · exact absurd hf.symm (hinj j i hgt (List.mem_range.mp hi))
  have hsub : ((List.range k₀).map (fun i => p^[i] x)).toFinset ⊆ elems.toFinset := by
    intro a ha
    rw [List.mem_toFinset] at ha ⊢
    obtain ⟨i, hi, rfl⟩ := List.mem_map.mp ha
    exact hmem i (List.mem_range.mp hi)
  have := Finset.card_le_card hsub
  rw [List.toFinset_card_of_nodup hnd] at this
  simp only [List.length_map, List.length_range] at this
  exact this.trans (List.toFinset_card_le elems)

/-- On a well-formed state, a chain that leaves its start is confined to the
element list, root included. -/
theorem PWF.chain_mem {elems : List Node} {p : Node → Node} (h : PWF elems p) :
    ∀ (k : Nat) (y r : Node), p r = r → p^[k] y = r → y ≠ r → y ∈ elems ∧ r ∈ elems := by
  intro k
  induction k with
  | zero =>
    intro y r _ hk hne
    exact absurd hk hne
  | succ k ih =>
    intro y r hr hk hne
    rw [Function.iterate_succ_apply] at hk
    have hpy : p y ≠ y := by
      intro hyy
      rw [hyy, Function.iterate_fixed hyy] at hk
      exact hne hk
    obtain ⟨hy, hpy'⟩ := h.2 y hpy
    by_cases hpr : p y = r
    · exact ⟨hy, hpr ▸ hpy'⟩
    · exact ⟨hy, (ih (p y) r hr hk hpr).2⟩

/-- Attaching one root under another preserves well-formedness. -/
theorem PWF.attach {elems : List Node} {p : Node → Node} (h : PWF elems p)
    {ra rb : Node} (hra : p ra = ra) (hrb : p rb = rb) (hne : rb ≠ ra)
    (hma : ra ∈ elems) (hmb : rb ∈ elems) :
    PWF elems (fun z => if z = rb then ra else p z) := by
  set p' := fun z => if z = rb then ra else p z with hp'
  have hpa : p' ra = ra := by
    rw [hp']
    simp only [if_neg (Ne.symm hne)]
    exact hra
  have transfer1 : ∀ (k : Nat) (y s : Node), p s = s → p^[k] y = s → s ≠ rb →
      RootedTo p' y s := by
    intro k
    induction k with
    | zero =>
      intro y s hs hk hsb
      rw [Function.iterate_zero_apply] at hk
      subst hk
      refine RootedTo.refl p' ?_
      rw [hp']
      simp only [if_neg hsb]
      exact hs
    | succ k ih =>
      intro y s hs hk hsb
      rw [Function.iterate_succ_apply] at hk
      have hyb : y ≠ rb := by
        intro hyb
        subst hyb
        rw [hrb] at hk
        rw [Function.iterate_fixed hrb] at hk
        exact hsb hk.symm
      have hstep : p' y = p y := by rw [hp']; simp only [if_neg hyb]
      have := ih (p y) s hs hk hsb
      rw [← hstep] at this
      exact this.of_parent
  have hpb : p' rb = ra := by
    rw [hp']
    simp
  have hrootb : RootedTo p' rb ra := by
    refine ⟨hpa, 1, ?_⟩
    rw [Function.iterate_one]
    exact hpb
  have transfer2 : ∀ (k : Nat) (y : Node), p^[k] y = rb → RootedTo p' y ra := by
    intro k
    induction k with
    | zero =>
      intro y hk
      subst hk
      exact hrootb
    | succ k ih =>
      intro y hk
      by_cases hyb : y = rb
      · subst hyb
        exact hrootb
      · rw [Function.iterate_succ_apply] at hk
        have hstep : p' y = p y := by rw [hp']; simp only [if_neg hyb]
        have := ih (p y) hk
        rw [← hstep] at this
        exact this.of_parent
  constructor
  · intro z
    obtain ⟨s, hs, k, hk⟩ := h.1 z
    by_cases hsb : s = rb
    · subst hsb
      exact ⟨ra, transfer2 k z hk⟩
    · exact ⟨s, transfer1 k z s hs hk hsb⟩
  · intro z hz
    by_cases hzb : z = rb
    · rw [hzb]
      refine ⟨hmb, ?_⟩
      rw [hpb]
      exact hma
    · have hstep : p' z = p z := by rw [hp']; simp only [if_neg hzb]
      rw [hstep] at hz ⊢
      exact h.2 z hz

/-- Characterization of a successful `find`: the returned node is the root of
`x`, the rank table is untouched, every node keeps its root, and the new
parent map differs from the old one only by re-pointing nodes at their root. -/
theorem UnionFind.find_spec {uf uf₁ : UnionFind} {fuel : Nat} {x r : Node}
    (h : uf.find fuel x = some (uf₁, r)) :
    RootedTo uf.parent x r ∧ uf₁.rank = uf.rank ∧
      (∀ y s, RootedTo uf.parent y s ↔ RootedTo uf₁.parent y s) ∧
      (∀ y, uf₁.parent y = uf.parent y ∨ (uf₁.parent y = r ∧ RootedTo uf.parent y r)) := by
  unfold UnionFind.find at h
  cases hrec : findAux fuel uf.parent x with
  | none => rw [hrec] at h; exact absurd h (by simp)
  | some pr =>
    obtain ⟨p', r'⟩ := pr
    rw [hrec] at h
    have h' := Option.some.inj h
    rw [Prod.mk.injEq] at h'
    obtain ⟨hst, rfl⟩ := h'
    obtain ⟨hroot, hshape⟩ := findAux_spec fuel uf.parent x p' r' hrec
    have hp : uf₁.parent = p' := by rw [← hst]
    have hrk : uf₁.rank = uf.rank := by rw [← hst]
    rw [hp]
    exact ⟨hroot, hrk,
      fun y s => ⟨compress_rootedTo hshape, compress_rootedTo_rev hshape⟩, hshape⟩

/-- A successful `find` preserves well-formedness. -/
theorem PWF.find_preserve {elems : List Node} {uf uf₁ : UnionFind} {fuel : Nat}
    {x r : Node} (h : PWF elems uf.parent) (hf : uf.find fuel x = some (uf₁, r)) :
    PWF elems uf₁.parent := by
  obtain ⟨-, -, hiff, hshape⟩ := UnionFind.find_spec hf
  constructor
  · intro z
    obtain ⟨s, hs⟩ := h.1 z
    exact ⟨s, (hiff z s).mp hs⟩
  · intro z hz
    rcases hshape z with hzz | ⟨hzr, hzroot⟩
    · rw [hzz] at hz ⊢
      exact h.2 z hz
    · rw [hzr] at hz ⊢
      obtain ⟨hr, k, hk⟩ := hzroot
      exact h.chain_mem k z r hr hk (by intro hc; rw [← hc] at hz; exact hz rfl)

/-- A successful `union` preserves well-formedness (finds compress paths, the
final attach hangs one root under another). -/
theorem PWF.union_preserve {elems : List Node} {uf uf' : UnionFind} {fuel : Nat}
    {x y : Node} {b : Bool} (h : PWF elems uf.parent)
    (hx : x ∈ elems) (hy : y ∈ elems)
    (hu : uf.union fuel x y = some (uf', b)) : PWF elems uf'.parent := by
  unfold UnionFind.union at hu
  cases hfx : uf.find fuel x with
  | none => rw [hfx] at hu; exact absurd hu (by simp)
  | some pr₁ =>
    obtain ⟨uf₁, rootX⟩ := pr₁
    rw [hfx] at hu
    dsimp only at hu
    cases hfy : uf₁.find fuel y with
    | none => rw [hfy] at hu; exact absurd hu (by simp)
    | some pr₂ =>
      obtain ⟨uf₂, rootY⟩ := pr₂
      rw [hfy] at hu
      dsimp only at hu
      obtain ⟨hrootX, -, hiff1, -⟩ := UnionFind.find_spec hfx
      obtain ⟨hrootY, -, hiff2, -⟩ := UnionFind.find_spec hfy
      have h₁ : PWF elems uf₁.parent := h.find_preserve hfx
      have h₂ : PWF elems uf₂.parent := h₁.find_preserve hfy
      have hrX2 : RootedTo uf₂.parent x rootX :=
        (hiff2 x rootX).mp ((hiff1 x rootX).mp hrootX)
      have hrY2 : RootedTo uf₂.parent y rootY := (hiff2 y rootY).mp hrootY
      have hmX : rootX ∈ elems := by
        by_cases hxr : x = rootX
        · rw [← hxr]; exact hx
        · obtain ⟨hr, k, hk⟩ := hrX2
          exact (h₂.chain_mem k x rootX hr hk hxr).2
      have hmY : rootY ∈ elems := by
        by_cases hyr : y = rootY
        · rw [← hyr]; exact hy
        · obtain ⟨hr, k, hk⟩ := hrY2
          exact (h₂.chain_mem k y rootY hr hk hyr).2
      by_cases hRR : rootX = rootY
      · rw [if_pos hRR] at hu
        have h' := (Option.some.inj hu)
        rw [Prod.mk.injEq] at h'
        rw [← h'.1]
        exact h₂
      · rw [if_neg hRR] at hu
        by_cases hlt : uf₂.rank rootX < uf₂.rank rootY
        · rw [if_pos hlt] at hu
          have h' := (Option.some.inj hu)
          rw [Prod.mk.injEq] at h'
          have hp : uf'.parent = fun z => if z = rootX then rootY else uf₂.parent z := by
            rw [← h'.1]
          rw [hp]
          exact h₂.attach hrY2.1 hrX2.1 hRR hmY hmX
        · rw [if_neg hlt] at hu
          by_cases hgt : uf₂.rank rootY < uf₂.rank rootX
          · rw [if_pos hgt] at hu
            have h' := (Option.some.inj hu)
            rw [Prod.mk.injEq] at h'
            have hp : uf'.parent = fun z => if z = rootY then rootX else uf₂.parent z := by
              rw [← h'.1]
            rw [hp]
            exact h₂.attach hrX2.1 hrY2.1 (Ne.symm hRR) hmX hmY
          · rw [if_neg hgt] at hu
            have h' := (Option.some.inj hu)
            rw [Prod.mk.injEq] at h'
            have hp : uf'.parent = fun z => if z = rootY then rootX else uf₂.parent z := by
              rw [← h'.1]
            rw [hp]
            exact h₂.attach hrX2.1 hrY2.1 (Ne.symm hRR) hmX hmY

/-- On a well-formed state, `find` with fuel `|elements| + 1` always succeeds. -/
theorem PWF.find_isSome {elems : List Node} {uf : UnionFind}
    (h : PWF elems uf.parent) (x : Node) :
    ∃ uf₁ r, uf.find (elems.length + 1) x = some (uf₁, r) := by
  obtain ⟨k, hk, hroot⟩ := h.depth x
  have hsome := findAux_isSome k (elems.length + 1) uf.parent x hroot (by omega)
  unfold UnionFind.find
  cases hrec : findAux (elems.length + 1) uf.parent x with
  | none => rw [hrec] at hsome; exact absurd hsome (by simp)
  | some pr =>
    obtain ⟨p', r⟩ := pr
    exact ⟨{ parent := p', rank := uf.rank }, r, rfl⟩

/-- On a well-formed state, `union` with fuel `|elements| + 1` always succeeds. -/
theorem PWF.union_isSome {elems : List Node} {uf : UnionFind}
    (h : PWF elems uf.parent) (x y : Node) :
    ∃ uf' b, uf.union (elems.length + 1) x y = some (uf', b) := by
  obtain ⟨uf₁, rootX, hfx⟩ := h.find_isSome x
  obtain ⟨uf₂, rootY, hfy⟩ := (h.find_preserve hfx).find_isSome y
  unfold UnionFind.union
  rw [hfx]
  dsimp only
  rw [hfy]
  dsimp only
  by_cases hRR : rootX = rootY
  · rw [if_pos hRR]
    exact ⟨uf₂, false, rfl⟩
  · rw [if_neg hRR]
    by_cases hlt : uf₂.rank rootX < uf₂.rank rootY
    · rw [if_pos hlt]
      exact ⟨_, true, rfl⟩
    · rw [if_neg hlt]
      by_cases hgt : uf₂.rank rootY < uf₂.rank rootX
      · rw [if_pos hgt]
        exact ⟨_, true, rfl⟩
      · rw [if_neg hgt]
        exact ⟨_, true, rfl⟩

/-- Union-find states reachable from `UnionFind(elements)` by a sequence of
`union` calls on member elements. -/
inductive UFReach (elems : List Node) : UnionFind → Prop where
  | init : UFReach elems UnionFind.init
  | union (uf uf' : UnionFind) (x y : Node) (b : Bool) :
      UFReach elems uf → x ∈ elems → y ∈ elems →
      uf.union (elems.length + 1) x y = some (uf', b) → UFReach elems uf'

theorem UFReach.pwf {elems : List Node} {uf : UnionFind} (h : UFReach elems uf) :
    PWF elems uf.parent := by
  induction h with
  | init => exact ⟨fun x => ⟨x, rfl, 0, rfl⟩, fun x hx => absurd rfl hx⟩
  | union uf uf' x y b hr hx hy hu ih => exact ih.union_preserve hx hy hu

/-- Claim C9: on every union-find state reachable by a sequence of union calls
on the initial element set, and every member element `x`, the result of `find`
is a fixed point of `find`: `find(find(x)) == find(x)`, with the state
unchanged by the second call. -/
theorem find_find_eq_find (elems : List Node) (uf : UnionFind) (h : UFReach elems uf)
    (x : Node) (hx : x ∈ elems) :
    ∃ uf₁ r, uf.find (elems.length + 1) x = some (uf₁, r) ∧
      uf₁.find (elems.length + 1) r = some (uf₁, r) := by
  obtain ⟨uf₁, r, hf⟩ := h.pwf.find_isSome x
  refine ⟨uf₁, r, hf, ?_⟩
  obtain ⟨hroot, -, hiff, -⟩ := UnionFind.find_spec hf
  have hr1 : uf₁.parent r = r := ((hiff x r).mp hroot).1
  unfold UnionFind.find findAux
  rw [if_pos hr1]

theorem find_find_eq_find_witness :
    ∃ uf₁ r, UnionFind.init.find 3 0 = some (uf₁, r) ∧
      uf₁.find 3 r = some (uf₁, r) :=
  find_find_eq_find [0, 1] UnionFind.init UFReach.init 0 (by decide)

/-- Claim C6: `union(x, y)` returns `False` when the two finds return the same
root; otherwise it attaches the lower-rank root under the higher-rank root
(on rank ties it attaches `y`'s root under `x`'s root and increments the rank
of `x`'s root by exactly one) and returns `True`. -/
theorem union_by_rank_spec (fuel : Nat) (uf : UnionFind) (x y : Node)
    (uf₁ uf₂ : UnionFind) (rootX rootY : Node)
    (hx : uf.find fuel x = some (uf₁, rootX))
    (hy : uf₁.find fuel y = some (uf₂, rootY)) :
    (rootX = rootY → uf.union fuel x y = some (uf₂, false)) ∧
    (rootX ≠ rootY → ∃ uf',
      uf.union fuel x y = some (uf', true) ∧
      (uf.rank rootX < uf.rank rootY →
        (∀ z, uf'.parent z = if z = rootX then rootY else uf₂.parent z) ∧
        uf'.rank = uf.rank) ∧
      (uf.rank rootY < uf.rank rootX →
        (∀ z, uf'.parent z = if z = rootY then rootX else uf₂.parent z) ∧
        uf'.rank = uf.rank) ∧
      (uf.rank rootX = uf.rank rootY →
        (∀ z, uf'.parent z = if z = rootY then rootX else uf₂.parent z) ∧
        uf'.rank rootX = uf.rank rootX + 1 ∧
        ∀ z, z ≠ rootX → uf'.rank z = uf.rank z)) := by
  have hrk1 : uf₁.rank = uf.rank := (UnionFind.find_spec hx).2.1
  have hrk2 : uf₂.rank = uf.rank := by rw [(UnionFind.find_spec hy).2.1, hrk1]
  constructor
  · intro hRR
    unfold UnionFind.union
    rw [hx]
    dsimp only
    rw [hy]
    dsimp only
    rw [if_pos hRR]
  · intro hRR
    unfold UnionFind.union
    rw [hx]
    dsimp only
    rw [hy]
    dsimp only
    rw [if_neg hRR, hrk2]
    by_cases hlt : uf.rank rootX < uf.rank rootY
    · rw [if_pos hlt]
      refine ⟨_, rfl, fun _ => ⟨fun z => rfl, rfl⟩, ?_, ?_⟩
      · intro hgt; exact absurd hgt (by omega)
      · intro heq; exact absurd heq (by omega)
    · rw [if_neg hlt]
      by_cases hgt : uf.rank rootY < uf.rank rootX
      · rw [if_pos hgt]
        refine ⟨_, rfl, ?_, fun _ => ⟨fun z => rfl, rfl⟩, ?_⟩
        · intro hlt'; exact absurd hlt' (by omega)
        · intro heq; exact absurd heq (by omega)
      · rw [if_neg hgt]
        refine ⟨_, rfl, ?_, ?_, fun _ => ⟨fun z => rfl, ?_, ?_⟩⟩
        · intro hlt'; exact absurd hlt' (by omega)
        · intro hgt'; exact absurd hgt' (by omega)
        · show (if rootX = rootX then uf.rank rootX + 1 else uf.rank rootX) =
            uf.rank rootX + 1
          rw [if_pos rfl]
        · intro z hz
          show (if z = rootX then uf.rank rootX + 1 else uf.rank z) = uf.rank z
          rw [if_neg hz]

theorem union_by_rank_spec_witness :
    ∃ uf', UnionFind.init.union 1 1 2 = some (uf', true) ∧
      uf'.parent 2 = 1 ∧ uf'.rank 1 = 1 := by
  obtain ⟨uf', hu, -, -, heq⟩ := (union_by_rank_spec 1 UnionFind.init 1 2
    UnionFind.init UnionFind.init 1 2 rfl rfl).2 (by decide)
  obtain ⟨hpar, hrk, -⟩ := heq rfl
  refine ⟨uf', hu, ?_, ?_⟩
  · rw [hpar 2, if_pos rfl]
  · rw [hrk]
    rfl

/-- The three-element chain `parent = {0: 1, 1: 2, 2: 2}` used to exhibit path
compression inside `connected`. -/
def ufChain : UnionFind := ⟨fun n => if n = 0 then 1 else 2, fun _ => 0⟩

/-- Counterexample to claim C7: `connected` is not read-only.  On the chain
`0 → 1 → 2` the call `connected(0, 2)` re-points `parent[0]` from `1` to `2`
by path compression, so the parent mapping of the structure changes. -/
theorem connected_mutates_parent :
    ((ufChain.connected 3 0 2).map fun q => q.1.parent 0) = some 2 ∧
      ufChain.parent 0 = 1 := by
  constructor <;> rfl

/-- Amended claim C7: `connected(x, y)` returns exactly the truth value of
`find(x) == find(y)`, leaves the rank mapping unchanged and every element's
root unchanged; but it is not read-only on the parent mapping, which path
compression may rewrite. -/
theorem connected_spec (fuel : Nat) (uf : UnionFind) (x y : Node)
    (uf₁ uf₂ : UnionFind) (rootX rootY : Node)
    (hx : uf.find fuel x = some (uf₁, rootX))
    (hy : uf₁.find fuel y = some (uf₂, rootY)) :
    uf.connected fuel x y = some (uf₂, rootX == rootY) ∧
    uf₂.rank = uf.rank ∧
    ∀ z s, RootedTo uf.parent z s ↔ RootedTo uf₂.parent z s := by
  obtain ⟨-, hrk1, hiff1, -⟩ := UnionFind.find_spec hx
  obtain ⟨-, hrk2, hiff2, -⟩ := UnionFind.find_spec hy
  refine ⟨?_, by rw [hrk2, hrk1], fun z s => (hiff1 z s).trans (hiff2 z s)⟩
  unfold UnionFind.connected
  rw [hx]
  dsimp only
  rw [hy]

theorem connected_spec_witness :
    UnionFind.init.connected 1 0 0 = some (UnionFind.init, true) ∧
    UnionFind.init.rank = UnionFind.init.rank ∧
    ∀ z s, RootedTo UnionFind.init.parent z s ↔ RootedTo UnionFind.init.parent z s :=
  connected_spec 1 UnionFind.init 0 0 UnionFind.init UnionFind.init 0 0 rfl rfl

/-! ## Walk lemmas shared by the shortest-path and spanning-tree claims -/

theorem IsWalk.append {g : Graph} :
    ∀ {s m t : Node} {es₁ es₂ : List (Node × Node × Int)},
      IsWalk g s es₁ m → IsWalk g m es₂ t → IsWalk g s (es₁ ++ es₂) t := by
  intro s m t es₁
  induction es₁ generalizing s with
  | nil =>
    intro es₂ h₁ h₂
    obtain rfl : s = m := h₁
    exact h₂
  | cons e es ih =>
    intro es₂ h₁ h₂
    obtain ⟨u, v, w⟩ := e
    obtain ⟨rfl, hadj, hrest⟩ := h₁
    exact ⟨rfl, hadj, ih hrest h₂⟩

theorem Reach.self (g : Graph) (s : Node) : Reach g s s := ⟨[], rfl⟩

theorem Reach.step {g : Graph} {s u v : Node} {w : Int}
    (h : Reach g s u) (hadj : (v, w) ∈ adj g u) : Reach g s v := by
  obtain ⟨es, hw⟩ := h
  exact ⟨es ++ [(u, v, w)], hw.append ⟨rfl, hadj, rfl⟩⟩

/-- Under closure, a walk starting at a key stays among keys. -/
theorem IsWalk.end_mem_keys {g : Graph} (hwf : GraphWF g) :
    ∀ {s t : Node} {es : List (Node × Node × Int)},
      IsWalk g s es t → s ∈ keysG g → t ∈ keysG g := by
  intro s t es
  induction es generalizing s with
  | nil =>
    intro h hs
    obtain rfl : s = t := h
    exact hs
  | cons e es ih =>
    intro h hs
    obtain ⟨u, v, w⟩ := e
    obtain ⟨rfl, hadj, hrest⟩ := h
    exact ih hrest (hwf.2 s hs (v, w) hadj)

theorem Reach.mem_keys {g : Graph} (hwf : GraphWF g) {s t : Node}
    (h : Reach g s t) (hs : s ∈ keysG g) : t ∈ keysG g := by
  obtain ⟨es, hw⟩ := h
  exact hw.end_mem_keys hwf hs

/-! ## prim.py -/

/-- Heap entries `(weight, node, parent)` as pushed by `prim`; the initial
entry carries parent `None`. -/
abbrev PEntry := Int × Node × Option Node

/-- Order on parent components.  A `None` parent occurs only in the initial
singleton heap, which is popped before any comparison can happen, so any total
extension is observationally faithful to Python's tuple comparison. -/
def optLe : Option Node → Option Node → Bool
  | none, _ => true
  | some _, none => false
  | some a, some b => decide (a ≤ b)

/-- Python tuple comparison on `(weight, node, parent)` heap entries. -/
def pentryLe (a b : PEntry) : Bool :=
  decide (a.1 < b.1) ||
    (decide (a.1 = b.1) &&
      (decide (a.2.1 < b.2.1) || (decide (a.2.1 = b.2.1) && optLe a.2.2 b.2.2)))

/-- `heapq.heappop` on a multiset of entries modelled as a list: remove and
return a least element (the leftmost one among equals, which all carry the
same data anyway). -/
def popMin {α : Type} (le : α → α → Bool) : List α → Option (α × List α)
  | [] => none
  | e :: es =>
    match popMin le es with
    | none => some (e, [])
    | some (m, rest) => if le e m then some (e, es) else some (m, e :: rest)

theorem popMin_eq_none {α : Type} (le : α → α → Bool) :
    ∀ l : List α, popMin le l = none ↔ l = [] := by
  intro l
  cases l with
  | nil => simp [popMin]
  | cons e es =>
    simp only [iff_false, ne_eq, List.cons_ne_nil, not_false_eq_true, iff_false]
    intro h
    unfold popMin at h
    cases hrec : popMin le es with
    | none => rw [hrec] at h; exact absurd h (by simp)
    | some p =>
      obtain ⟨m, rest⟩ := p
      rw [hrec] at h
      dsimp only at h
      by_cases hle : le e m
      · rw [if_pos hle] at h; exact absurd h (by simp)
      · rw [if_neg hle] at h; exact absurd h (by simp)

/-- The popped entry together with the remaining list is a permutation of the
original heap. -/
theorem popMin_perm {α : Type} (le : α → α → Bool) :
    ∀ (l : List α) (m : α) (rest : List α),
      popMin le l = some (m, rest) → l.Perm (m :: rest) := by
  intro l
  induction l with
  | nil => intro m rest h; exact absurd h (by simp [popMin])
  | cons e es ih =>
    intro m rest h
    unfold popMin at h
    cases hrec : popMin le es with
    | none =>
      rw [hrec] at h
      dsimp only at h
      have h' := Option.some.inj h
      rw [Prod.mk.injEq] at h'
      obtain ⟨rfl, rfl⟩ := h'
      rw [(popMin_eq_none le es).mp hrec]
    | some p =>
      obtain ⟨m', rest'⟩ := p
      rw [hrec] at h
      dsimp only at h
      by_cases hle : le e m'
      · rw [if_pos hle] at h
        have h' := Option.some.inj h
        rw [Prod.mk.injEq] at h'
        obtain ⟨rfl, rfl⟩ := h'
        exact List.Perm.refl _
      · rw [if_neg hle] at h
        have h' := Option.some.inj h
        rw [Prod.mk.injEq] at h'
        obtain ⟨rfl, rfl⟩ := h'
        exact ((ih m' rest' hrec).cons e).trans (List.Perm.swap m' e rest')

/-- The popped entry is a least element of the heap (for a reflexive,
transitive, total comparison). -/
theorem popMin_least {α : Type} (le : α → α → Bool)
    (href : ∀ a, le a a = true)
    (htr : ∀ a b c, le a b = true → le b c = true → le a c = true)
    (htot : ∀ a b, le a b = true ∨ le b a = true) :
    ∀ (l : List α) (m : α) (rest : List α),
      popMin le l = some (m, rest) → ∀ x ∈ l, le m x = true := by
  intro l
  induction l with
  | nil => intro m rest h; exact absurd h (by simp [popMin])
  | cons e es ih =>
    intro m rest h
    unfold popMin at h
    cases hrec : popMin le es with
    | none =>
      rw [hrec] at h
      dsimp only at h
      have h' := Option.some.inj h
      rw [Prod.mk.injEq] at h'
      obtain ⟨rfl, rfl⟩ := h'
      intro x hx
      rcases List.mem_cons.mp hx with hh | hh
      · rw [hh]; exact href _
      · rw [(popMin_eq_none le es).mp hrec] at hh
        exact absurd hh (by simp)
    | some p =>
      obtain ⟨m', rest'⟩ := p
      rw [hrec] at h
      dsimp only at h
      by_cases hle : le e m'
      · rw [if_pos hle] at h
        have h' := Option.some.inj h
        rw [Prod.mk.injEq] at h'
        obtain ⟨rfl, rfl⟩ := h'
        intro x hx
        rcases List.mem_cons.mp hx with hh | hh
        · rw [hh]; exact href _
        · exact htr _ m' x hle (ih m' rest' hrec x hh)
      · rw [if_neg hle] at h
        have h' := Option.some.inj h
        rw [Prod.mk.injEq] at h'
        obtain ⟨rfl, rfl⟩ := h'
        intro x hx
        rcases List.mem_cons.mp hx with hh | hh
        · rw [hh]
          rcases htot e m' with hc | hc
          · exact absurd hc hle
          · exact hc
        · exact ih m' rest' hrec x hh

/-- The state of prim's main loop: the `in_mst` set (as the list of nodes in
insertion order), the accepted edges, and the heap contents. -/
structure PrimState where
  in_mst : List Node
  mst_edges : List (Node × Node × Int)
  heap : List PEntry

/-- The `while heap and len(in_mst) < len(graph)` loop of `prim`, with `fuel`
bounding the iteration count (each iteration pops exactly one entry, so the
total number of pushes bounds it). -/
def primLoop (g : Graph) : Nat → PrimState → PrimState
  | 0, s => s
  | fuel+1, s =>
    if s.in_mst.length < g.length then
      match popMin pentryLe s.heap with
      | none => s
      | some (e, rest) =>
        if e.2.1 ∈ s.in_mst then primLoop g fuel ⟨s.in_mst, s.mst_edges, rest⟩
        else
          primLoop g fuel
            ⟨s.in_mst ++ [e.2.1],
             (match e.2.2 with
              | none => s.mst_edges
              | some p => s.mst_edges ++ [(p, e.2.1, e.1)]),
             rest ++ ((adj g e.2.1).filter
                 (fun vw => !((s.in_mst ++ [e.2.1]).contains vw.1))).map
               (fun vw => (vw.2, vw.1, some e.2.1))⟩
    else s

/-- Fuel sufficient to drain the heap: one initial entry plus one push per
adjacency-list entry. -/
def primFuel (g : Graph) : Nat := 1 + ((keysG g).map (fun u => (adj g u).length)).sum

/-- `prim(graph, start)`: returns `(mst_edges, total_weight)`. -/
def prim (g : Graph) (start : Node) : List (Node × Node × Int) × Int :=
  let s := primLoop g (primFuel g) ⟨[], [], [(0, start, none)]⟩
  (s.mst_edges, wsum s.mst_edges)

/-- Loop invariant of prim's main loop. -/
structure PrimInv (g : Graph) (start : Node) (s : PrimState) : Prop where
  nodup : s.in_mst.Nodup
  sub : ∀ v ∈ s.in_mst, v ∈ keysG g
  reach : ∀ v ∈ s.in_mst, Reach g start v
  hreach : ∀ e ∈ s.heap, Reach g start e.2.1 ∧ e.2.1 ∈ keysG g
  phase : (s.in_mst = [] ∧ s.heap = [(0, start, none)] ∧ s.mst_edges = []) ∨
    (start ∈ s.in_mst ∧ ∀ e ∈ s.heap, ∃ q, e.2.2 = some q ∧ q ∈ s.in_mst ∧
      (e.2.1, e.1) ∈ adj g q)
  frontier : ∀ u ∈ s.in_mst, ∀ vw ∈ adj g u,
    vw.1 ∈ s.in_mst ∨ ∃ e ∈ s.heap, e.2.1 = vw.1
  tree : s.in_mst = start :: s.mst_edges.map (fun e => e.2.1) ∨
    (s.in_mst = [] ∧ s.mst_edges = [])
  srcs : ∀ e ∈ s.mst_edges, e.1 ∈ s.in_mst
  headSrc : ∀ e, s.mst_edges.head? = some e → e.1 = start

theorem primInv_init (g : Graph) (start : Node) (hs : start ∈ keysG g) :
    PrimInv g start ⟨[], [], [(0, start, none)]⟩ where
  nodup := List.nodup_nil
  sub := by intro v hv; exact absurd hv (by simp)
  reach := by intro v hv; exact absurd hv (by simp)
  hreach := by
    intro e he
    have : e = (0, start, none) := by
      rcases List.mem_cons.mp he with h | h
      · exact h
      · exact absurd h (by simp)
    rw [this]
    exact ⟨Reach.self g start, hs⟩
  phase := Or.inl ⟨rfl, rfl, rfl⟩
  frontier := by intro u hu; exact absurd hu (by simp)
  tree := Or.inr ⟨rfl, rfl⟩
  srcs := by intro e he; exact absurd he (by simp)
  headSrc := by intro e he; exact absurd he (by simp)

/-- Both loop-body branches preserve the invariant. -/
theorem primInv_step (g : Graph) (start : Node) (hwf : GraphWF g)
    {s : PrimState} (inv : PrimInv g start s)
    {e : PEntry} {rest : List PEntry} (hpop : popMin pentryLe s.heap = some (e, rest)) :
    (e.2.1 ∈ s.in_mst → PrimInv g start ⟨s.in_mst, s.mst_edges, rest⟩) ∧
    (e.2.1 ∉ s.in_mst → PrimInv g start
      ⟨s.in_mst ++ [e.2.1],
       (match e.2.2 with
        | none => s.mst_edges
        | some p => s.mst_edges ++ [(p, e.2.1, e.1)]),
       rest ++ ((adj g e.2.1).filter
           (fun vw => !((s.in_mst ++ [e.2.1]).contains vw.1))).map
         (fun vw => (vw.2, vw.1, some e.2.1))⟩) := by
  have hperm : s.heap.Perm (e :: rest) := popMin_perm pentryLe s.heap e rest hpop
  have hmem_e : e ∈ s.heap := hperm.symm.subset (List.mem_cons_self e rest)
  have hmem_rest : ∀ x ∈ rest, x ∈ s.heap :=
    fun x hx => hperm.symm.subset (List.mem_cons_of_mem e hx)
  have hheap_cases : ∀ x ∈ s.heap, x = e ∨ x ∈ rest := by
    intro x hx
    exact List.mem_cons.mp (hperm.subset hx)
  constructor
  · -- skip branch
    intro hu
    refine ⟨inv.nodup, inv.sub, inv.reach, ?_, ?_, ?_, inv.tree, inv.srcs, inv.headSrc⟩
    · intro x hx
      exact inv.hreach x (hmem_rest x hx)
    · rcases inv.phase with ⟨hmt, -, -⟩ | ⟨hst, hpar⟩
      · rw [hmt] at hu
        exact absurd hu (by simp)
      · exact Or.inr ⟨hst, fun x hx => hpar x (hmem_rest x hx)⟩
    · intro u hu' vw hvw
      rcases inv.frontier u hu' vw hvw with hin | ⟨x, hx, hxv⟩
      · exact Or.inl hin
      · rcases hheap_cases x hx with rfl | hxr
        · rw [← hxv]
          exact Or.inl hu
        · exact Or.inr ⟨x, hxr, hxv⟩
  · -- visit branch
    intro hu
    obtain ⟨hre, hke⟩ := inv.hreach e hmem_e
    have hsub' : ∀ v ∈ s.in_mst ++ [e.2.1], v ∈ keysG g := by
      intro v hv
      rcases List.mem_append.mp hv with h | h
      · exact inv.sub v h
      · rcases List.mem_cons.mp h with rfl | h
        · exact hke
        · exact absurd h (by simp)
    have hpush_mem : ∀ x ∈ ((adj g e.2.1).filter
        (fun vw => !((s.in_mst ++ [e.2.1]).contains vw.1))).map
          (fun vw => (vw.2, vw.1, some e.2.1)),
        ∃ vw ∈ adj g e.2.1, x = (vw.2, vw.1, some e.2.1) ∧
          vw.1 ∉ s.in_mst ++ [e.2.1] := by
      intro x hx
      obtain ⟨vw, hvw, rfl⟩ := List.mem_map.mp hx
      obtain ⟨hvw', hcond⟩ := List.mem_filter.mp hvw
      refine ⟨vw, hvw', rfl, ?_⟩
      intro hmem
      rw [Bool.not_eq_eq_eq_not, Bool.not_true] at hcond
      have hc2 : (s.in_mst ++ [e.2.1]).contains vw.1 = true := List.elem_iff.mpr hmem
      rw [hcond] at hc2
      exact absurd hc2 (by simp)
    have hphase2 : start ∈ s.in_mst ++ [e.2.1] ∧
        (s.in_mst = [] → e = (0, start, none)) := by
      rcases inv.phase with ⟨hmt, hhp, -⟩ | ⟨hst, -⟩
      · rw [hhp] at hmem_e
        have he' : e = (0, start, none) := by
          rcases List.mem_cons.mp hmem_e with h | h
          · exact h
          · exact absurd h (by simp)
        constructor
        · rw [he']
          exact List.mem_append.mpr (Or.inr (by simp))
        · intro _; exact he'
      · constructor
        · exact List.mem_append.mpr (Or.inl hst)
        · intro hmt
          rw [hmt] at hst
          exact absurd hst (by simp)
    refine ⟨?_, hsub', ?_, ?_, ?_, ?_, ?_, ?_, ?_⟩
    · rw [List.nodup_append]
      exact ⟨inv.nodup, List.nodup_singleton _, by
        intro a ha hb
        rcases List.mem_cons.mp hb with rfl | hb
        · exact hu ha
        · exact absurd hb (by simp)⟩
    · intro v hv
      rcases List.mem_append.mp hv with h | h
      · exact inv.reach v h
      · rcases List.mem_cons.mp h with rfl | h
        · exact hre
        · exact absurd h (by simp)
    · intro x hx
      rcases List.mem_append.mp hx with h | h
      · exact inv.hreach x (hmem_rest x h)
      · obtain ⟨vw, hvw, rfl, -⟩ := hpush_mem x h
        exact ⟨hre.step hvw, hwf.2 e.2.1 hke vw hvw⟩
    · refine Or.inr ⟨hphase2.1, ?_⟩
      intro x hx
      rcases List.mem_append.mp hx with h | h
      · rcases inv.phase with ⟨hmt, hhp, -⟩ | ⟨-, hpar⟩
        · rw [hhp] at hperm
          have : rest = [] := by
            have hlen := hperm.length_eq
            simp only [List.length_cons, List.length_nil] at hlen
            exact List.length_eq_zero.mp (by omega)
          rw [this] at h
          exact absurd h (by simp)
        · obtain ⟨q, hq1, hq2, hq3⟩ := hpar x (hmem_rest x h)
          exact ⟨q, hq1, List.mem_append.mpr (Or.inl hq2), hq3⟩
      · obtain ⟨vw, hvw, rfl, -⟩ := hpush_mem x h
        exact ⟨e.2.1, rfl, List.mem_append.mpr (Or.inr (by simp)), hvw⟩
    · intro u hu' vw hvw
      rcases List.mem_append.mp hu' with h | h
      · rcases inv.frontier u h vw hvw with hin | ⟨x, hx, hxv⟩
        · exact Or.inl (List.mem_append.mpr (Or.inl hin))
        · rcases hheap_cases x hx with rfl | hxr
          · rw [← hxv]
            exact Or.inl (List.mem_append.mpr (Or.inr (by simp)))
          · exact Or.inr ⟨x, List.mem_append.mpr (Or.inl hxr), hxv⟩
      · have hue : u = e.2.1 := by
          rcases List.mem_cons.mp h with rfl | h
          · rfl
          · exact absurd h (by simp)
        subst hue
        by_cases hvin : vw.1 ∈ s.in_mst ++ [e.2.1]
        · exact Or.inl hvin
        · refine Or.inr ⟨(vw.2, vw.1, some e.2.1), ?_, rfl⟩
          refine List.mem_append.mpr (Or.inr ?_)
          refine List.mem_map.mpr ⟨vw, ?_, rfl⟩
          refine List.mem_filter.mpr ⟨hvw, ?_⟩
          have hcf : (s.in_mst ++ [e.2.1]).contains vw.1 = false := by
            cases hcc : (s.in_mst ++ [e.2.1]).contains vw.1 with
            | false => rfl
            | true => exact absurd (List.elem_iff.mp hcc) hvin
          rw [hcf]
          rfl
    · -- tree
      cases hpar : e.2.2 with
      | none =>
        rcases inv.phase with ⟨hmt, hhp, hme⟩ | ⟨-, hp2⟩
        · have he' := (hphase2.2 hmt)
          rw [hmt, hme, he']
          exact Or.inl rfl
        · obtain ⟨q, hq, -, -⟩ := hp2 e hmem_e
          rw [hpar] at hq
          exact absurd hq (by simp)
      | some p =>
        rcases inv.tree with htree | ⟨hmt, hme⟩
        · rw [htree]
          refine Or.inl ?_
          rw [List.map_append]
          rfl
        · rcases inv.phase with ⟨hmt', -, -⟩ | ⟨hst, -⟩
          · have he' := hphase2.2 hmt'
            rw [he'] at hpar
            exact absurd hpar (by simp)
          · rw [hmt] at hst
            exact absurd hst (by simp)
    · -- srcs
      intro x hx
      cases hpar : e.2.2 with
      | none =>
        rw [hpar] at hx
        dsimp only at hx
        exact List.mem_append.mpr (Or.inl (inv.srcs x hx))
      | some p =>
        rw [hpar] at hx
        dsimp only at hx
        rcases List.mem_append.mp hx with h | h
        · exact List.mem_append.mpr (Or.inl (inv.srcs x h))
        · have hxe : x = (p, e.2.1, e.1) := by
            rcases List.mem_cons.mp h with h' | h'
            · exact h'
            · exact absurd h' (by simp)
          rcases inv.phase with ⟨hmt, -, -⟩ | ⟨-, hp2⟩
          · have he' := hphase2.2 hmt
            rw [he'] at hpar
            exact absurd hpar (by simp)
          · obtain ⟨q, hq1, hq2, -⟩ := hp2 e hmem_e
            rw [hpar] at hq1
            have hqp : q = p := Option.some.inj hq1.symm
            rw [hxe]
            exact List.mem_append.mpr (Or.inl (hqp ▸ hq2))
    · -- headSrc
      intro x hx
      cases hpar : e.2.2 with
      | none =>
        rw [hpar] at hx
        dsimp only at hx
        exact inv.headSrc x hx
      | some p =>
        rw [hpar] at hx
        dsimp only at hx
        cases hme : s.mst_edges with
        | nil =>
          rw [hme] at hx
          simp only [List.nil_append, List.head?_cons, Option.some.injEq] at hx
          rcases inv.tree with htree | ⟨hmt, -⟩
          · rw [hme] at htree
            simp only [List.map_nil] at htree
            rcases inv.phase with ⟨hmt', -, -⟩ | ⟨-, hp2⟩
            · have he' := hphase2.2 hmt'
              rw [he'] at hpar
              exact absurd hpar (by simp)
            · obtain ⟨q, hq1, hq2, -⟩ := hp2 e hmem_e
              rw [hpar] at hq1
              have hqp : q = p := Option.some.inj hq1.symm
              rw [htree] at hq2
              have hps : q = start := by
                rcases List.mem_cons.mp hq2 with h' | h'
                · exact h'
                · exact absurd h' (by simp)
              rw [← hx]
              dsimp only
              rw [← hqp]
              exact hps
          · rcases inv.phase with ⟨hmt', -, -⟩ | ⟨hst, -⟩
            · have he' := hphase2.2 hmt'
              rw [he'] at hpar
              exact absurd hpar (by simp)
            · rw [hmt] at hst
              exact absurd hst (by simp)
        | cons e₀ es₀ =>
          rw [hme] at hx
          rw [List.head?_append_of_ne_nil _ (by simp)] at hx
          rw [← hme] at hx
          exact inv.headSrc x hx

theorem primInv_loop (g : Graph) (start : Node) (hwf : GraphWF g) :
    ∀ (fuel : Nat) (s : PrimState), PrimInv g start s →
      PrimInv g start (primLoop g fuel s) := by
  intro fuel
  induction fuel with
  | zero => intro s inv; exact inv
  | succ fuel ih =>
    intro s inv
    unfold primLoop
    by_cases hc : s.in_mst.length < g.length
    · rw [if_pos hc]
      cases hpop : popMin pentryLe s.heap with
      | none => exact inv
      | some p =>
        obtain ⟨e, rest⟩ := p
        dsimp only
        by_cases hu : e.2.1 ∈ s.in_mst
        · rw [if_pos hu]
          exact ih _ ((primInv_step g start hwf inv hpop).1 hu)
        · rw [if_neg hu]
          exact ih _ ((primInv_step g start hwf inv hpop).2 hu)
    · rw [if_neg hc]
      exact inv

/-- Remaining-work potential of the loop: heap entries plus the adjacency
lists of unvisited keys. -/
def primPot (g : Graph) (s : PrimState) : Nat :=
  s.heap.length + (((keysG g).diff s.in_mst).map (fun u => (adj g u).length)).sum

theorem primPot_skip (g : Graph) {s : PrimState} {e : PEntry} {rest : List PEntry}
    (hpop : popMin pentryLe s.heap = some (e, rest))
    (mst' : List (Node × Node × Int)) :
    primPot g ⟨s.in_mst, mst', rest⟩ + 1 = primPot g s := by
  unfold primPot
  have hlen := (popMin_perm pentryLe s.heap e rest hpop).length_eq
  simp only [List.length_cons] at hlen
  dsimp only
  omega

theorem primPot_visit (g : Graph) {s : PrimState} {e : PEntry} {rest : List PEntry}
    (hpop : popMin pentryLe s.heap = some (e, rest))
    (hk : e.2.1 ∈ keysG g) (hu : e.2.1 ∉ s.in_mst)
    (mst' : List (Node × Node × Int)) :
    primPot g ⟨s.in_mst ++ [e.2.1], mst',
      rest ++ ((adj g e.2.1).filter
          (fun vw => !((s.in_mst ++ [e.2.1]).contains vw.1))).map
        (fun vw => (vw.2, vw.1, some e.2.1))⟩ < primPot g s := by
  unfold primPot
  dsimp only
  have hlen := (popMin_perm pentryLe s.heap e rest hpop).length_eq
  simp only [List.length_cons] at hlen
  rw [List.length_append, List.length_map]
  have hfil : ((adj g e.2.1).filter
      (fun vw => !((s.in_mst ++ [e.2.1]).contains vw.1))).length ≤
      (adj g e.2.1).length := List.length_filter_le _ _
  have hdiff : (keysG g).diff (s.in_mst ++ [e.2.1]) =
      ((keysG g).diff s.in_mst).erase e.2.1 := by
    rw [List.diff_append, List.diff_cons, List.diff_nil]
  have hmemd : e.2.1 ∈ (keysG g).diff s.in_mst := List.mem_diff_of_mem hk hu
  have hsum : (((keysG g).diff s.in_mst).map (fun u => (adj g u).length)).sum =
      (adj g e.2.1).length +
      ((((keysG g).diff s.in_mst).erase e.2.1).map (fun u => (adj g u).length)).sum := by
    rw [((List.perm_cons_erase hmemd).map (fun u => (adj g u).length)).sum_eq]
    rw [List.map_cons, List.sum_cons]
  rw [hdiff, hsum]
  omega

/-- With fuel at least the potential, the loop runs to a terminal state:
either the in-tree set covers all keys or the heap is drained. -/
theorem primLoop_drains (g : Graph) (start : Node) (hwf : GraphWF g) :
    ∀ (fuel : Nat) (s : PrimState), PrimInv g start s → primPot g s ≤ fuel →
      (¬ (primLoop g fuel s).in_mst.length < g.length ∨ (primLoop g fuel s).heap = []) := by
  intro fuel
  induction fuel with
  | zero =>
    intro s inv hpot
    right
    have hl : s.heap.length = 0 := by
      unfold primPot at hpot
      omega
    exact List.length_eq_zero.mp hl
  | succ fuel ih =>
    intro s inv hpot
    unfold primLoop
    by_cases hc : s.in_mst.length < g.length
    · rw [if_pos hc]
      cases hpop : popMin pentryLe s.heap with
      | none =>
        right
        exact (popMin_eq_none pentryLe s.heap).mp hpop
      | some p =>
        obtain ⟨e, rest⟩ := p
        dsimp only
        by_cases hu : e.2.1 ∈ s.in_mst
        · rw [if_pos hu]
          refine ih _ ((primInv_step g start hwf inv hpop).1 hu) ?_
          have := primPot_skip g hpop s.mst_edges
          omega
        · rw [if_neg hu]
          refine ih _ ((primInv_step g start hwf inv hpop).2 hu) ?_
          have hk : e.2.1 ∈ keysG g :=
            (inv.hreach e ((popMin_perm pentryLe s.heap e rest hpop).symm.subset
              (List.mem_cons_self e rest))).2
          have := primPot_visit g hpop hk hu
            (match e.2.2 with
             | none => s.mst_edges
             | some p => s.mst_edges ++ [(p, e.2.1, e.1)])
          omega
    · rw [if_neg hc]
      left
      exact hc

/-- On a terminal invariant state, the in-tree list contains exactly the
reachable nodes. -/
theorem primInv_mem_iff_reach (g : Graph) (start : Node) (hwf : GraphWF g)
    (hs : start ∈ keysG g) {s : PrimState} (inv : PrimInv g start s)
    (hterm : ¬ s.in_mst.length < g.length ∨ s.heap = []) :
    ∀ v, v ∈ s.in_mst ↔ Reach g start v := by
  intro v
  constructor
  · exact inv.reach v
  · intro hr
    rcases hterm with hfull | hempty
    · have hv : v ∈ keysG g := hr.mem_keys hwf hs
      have hsub : s.in_mst.toFinset ⊆ (keysG g).toFinset := by
        intro a ha
        rw [List.mem_toFinset] at ha ⊢
        exact inv.sub a ha
      have hcard : (keysG g).toFinset.card ≤ s.in_mst.toFinset.card := by
        rw [List.toFinset_card_of_nodup inv.nodup, List.toFinset_card_of_nodup hwf.1]
        have hkl : (keysG g).length = g.length := List.length_map g Prod.fst
        omega
      have hfe := Finset.eq_of_subset_of_card_le hsub hcard
      have hv2 : v ∈ (keysG g).toFinset := List.mem_toFinset.mpr hv
      rw [← hfe] at hv2
      exact List.mem_toFinset.mp hv2
    · have hst : start ∈ s.in_mst := by
        rcases inv.phase with ⟨-, hh, -⟩ | ⟨h, -⟩
        · rw [hempty] at hh
          exact absurd hh (by simp)
        · exact h
      obtain ⟨es, hw⟩ := hr
      suffices h : ∀ (es : List (Node × Node × Int)) (s0 : Node),
          s0 ∈ s.in_mst → IsWalk g s0 es v → v ∈ s.in_mst from h es start hst hw
      intro es
      induction es with
      | nil =>
        intro s0 h0 hw'
        obtain rfl : s0 = v := hw'
        exact h0
      | cons e' es' ih =>
        intro s0 h0 hw'
        obtain ⟨u, v', w⟩ := e'
        obtain ⟨rfl, hadj, hrest⟩ := hw'
        rcases inv.frontier s0 h0 (v', w) hadj with hin | ⟨x, hx, -⟩
        · exact ih v' hin hrest
        · rw [hempty] at hx
          exact absurd hx (by simp)

/-- The final state of prim's loop: invariant plus exact reachability. -/
theorem prim_run (g : Graph) (start : Node) (hwf : GraphWF g) (hs : start ∈ keysG g) :
    PrimInv g start (primLoop g (primFuel g) ⟨[], [], [(0, start, none)]⟩) ∧
      ∀ v, v ∈ (primLoop g (primFuel g) ⟨[], [], [(0, start, none)]⟩).in_mst ↔
        Reach g start v := by
  have inv0 := primInv_init g start hs
  have hpot : primPot g ⟨[], [], [(0, start, none)]⟩ ≤ primFuel g := by
    unfold primPot primFuel
    dsimp only
    rw [List.diff_nil]
    simp
  have inv := primInv_loop g start hwf (primFuel g) _ inv0
  exact ⟨inv, primInv_mem_iff_reach g start hwf hs inv
    (primLoop_drains g start hwf (primFuel g) _ inv0 hpot)⟩

/-- A node is mentioned by an edge list when it occurs as the source or the
target of one of its edges. -/
def Mentions (es : List (Node × Node × Int)) (v : Node) : Prop :=
  ∃ e ∈ es, e.1 = v ∨ e.2.1 = v

/-- The disconnected scenario graph: nodes `{A,B,C,D}` as `{0,1,2,3}` with
undirected edges only inside `{A,B}` and `{C,D}`. -/
def discGraph : Graph :=
  [(0, [(1, 1)]), (1, [(0, 1)]), (2, [(3, 1)]), (3, [(2, 1)])]

/-- Counterexample to claim C8: on the one-node graph `{A: []}` run from `A`,
the start node is reachable from itself but the returned edge list is empty
and mentions no node at all, so the edge list does not mention exactly the
reachable nodes. -/
theorem prim_mentions_counterexample :
    Reach [(0, [])] 0 0 ∧ ¬ Mentions (prim [(0, [])] 0).1 0 := by
  constructor
  · exact Reach.self _ 0
  · rintro ⟨e, he, -⟩
    have hnil : (prim [(0, ([] : List (Node × Int)))] 0).1 = [] := rfl
    rw [hnil] at he
    exact absurd he (by simp)

/-- Amended claim C8: every node mentioned by the edge list returned by
`prim(graph, start)` is reachable from the start, and as soon as any node
other than the start is reachable, the mentioned nodes are exactly the
reachable ones (when the start is the only reachable node, the list is empty
and mentions nothing); unreachable nodes are silently excluded rather than
raising; in particular on the disconnected scenario graph
`{A,B,C,D}` with edges only inside `{A,B}` and `{C,D}`, `prim` from `A`
returns edges touching only `{A,B}`. -/
theorem prim_mentions_reach (g : Graph) (start : Node) (hwf : GraphWF g)
    (hs : start ∈ keysG g) :
    (∀ v, Mentions (prim g start).1 v → Reach g start v) ∧
    ((∃ v₀, Reach g start v₀ ∧ v₀ ≠ start) →
      ∀ v, Mentions (prim g start).1 v ↔ Reach g start v) ∧
    (∀ e ∈ (prim discGraph 0).1, (e.1 = 0 ∨ e.1 = 1) ∧ (e.2.1 = 0 ∨ e.2.1 = 1)) := by
  obtain ⟨inv, hiff⟩ := prim_run g start hwf hs
  have hprim : (prim g start).1 =
      (primLoop g (primFuel g) ⟨[], [], [(0, start, none)]⟩).mst_edges := rfl
  have hmention : ∀ v, Mentions (prim g start).1 v → Reach g start v := by
    intro v hm
    obtain ⟨e, he, hor⟩ := hm
    rw [hprim] at he
    rcases hor with h1 | h2
    · rw [← h1]
      exact inv.reach _ (inv.srcs e he)
    · rcases inv.tree with htree | ⟨-, hme⟩
      · rw [← h2]
        refine inv.reach _ ?_
        rw [htree]
        exact List.mem_cons_of_mem _ (List.mem_map.mpr ⟨e, he, rfl⟩)
      · rw [hme] at he
        exact absurd he (by simp)
  refine ⟨hmention, ?_, by decide⟩
  rintro ⟨v₀, hv₀, hne₀⟩ v
  refine ⟨hmention v, ?_⟩
  intro hr
  have hv : v ∈ (primLoop g (primFuel g) ⟨[], [], [(0, start, none)]⟩).in_mst :=
    (hiff v).mpr hr
  have hv₀' : v₀ ∈ (primLoop g (primFuel g) ⟨[], [], [(0, start, none)]⟩).in_mst :=
    (hiff v₀).mpr hv₀
  rcases inv.tree with htree | ⟨hmt, -⟩
  · rw [htree] at hv hv₀'
    rcases List.mem_cons.mp hv with hvs | hvt
    · -- v = start: the first accepted edge has source start
      rw [hvs]
      rcases List.mem_cons.mp hv₀' with hv₀s | hv₀t
      · exact absurd hv₀s hne₀
      · obtain ⟨e₀, he₀, -⟩ := List.mem_map.mp hv₀t
        have hnn : (primLoop g (primFuel g)
            ⟨[], [], [(0, start, none)]⟩).mst_edges ≠ [] := by
          intro hc
          rw [hc] at he₀
          exact absurd he₀ (by simp)
        obtain ⟨eh, th, hth⟩ := List.exists_cons_of_ne_nil hnn
        refine ⟨eh, ?_, Or.inl ?_⟩
        · rw [hprim, hth]
          exact List.mem_cons_self _ _
        · exact inv.headSrc eh (by rw [hth]; rfl)
    · obtain ⟨e, he, hev⟩ := List.mem_map.mp hvt
      exact ⟨e, by rw [hprim]; exact he, Or.inr hev⟩
  · rw [hmt] at hv₀'
    exact absurd hv₀' (by simp)

theorem prim_mentions_reach_witness :
    (∀ v, Mentions (prim discGraph 0).1 v → Reach discGraph 0 v) ∧
    ((∃ v₀, Reach discGraph 0 v₀ ∧ v₀ ≠ 0) →
      ∀ v, Mentions (prim discGraph 0).1 v ↔ Reach discGraph 0 v) ∧
    (∀ e ∈ (prim discGraph 0).1, (e.1 = 0 ∨ e.1 = 1) ∧ (e.2.1 = 0 ∨ e.2.1 = 1)) :=
  prim_mentions_reach discGraph 0 ⟨by decide, by decide⟩ (by decide)

/-- Claim C10: the edge list returned by `prim(graph, start)` contains each
reached node other than the start exactly once as a target, never contains
the start as a target, and its length is one less than the number of nodes
reachable from the start, so the accepted edges form a tree over the reached
nodes. -/
theorem prim_tree (g : Graph) (start : Node) (hwf : GraphWF g)
    (hs : start ∈ keysG g) :
    (∀ v, Reach g start v → v ≠ start →
      ((prim g start).1.map (fun e => e.2.1)).count v = 1) ∧
    (∀ e ∈ (prim g start).1, e.2.1 ≠ start) ∧
    (prim g start).1.length + 1 = Set.ncard {v | Reach g start v} := by
  obtain ⟨inv, hiff⟩ := prim_run g start hwf hs
  have hprim : (prim g start).1 =
      (primLoop g (primFuel g) ⟨[], [], [(0, start, none)]⟩).mst_edges := rfl
  have hst : start ∈ (primLoop g (primFuel g) ⟨[], [], [(0, start, none)]⟩).in_mst :=
    (hiff start).mpr (Reach.self g start)
  have htree : (primLoop g (primFuel g) ⟨[], [], [(0, start, none)]⟩).in_mst =
      start :: (primLoop g (primFuel g)
        ⟨[], [], [(0, start, none)]⟩).mst_edges.map (fun e => e.2.1) := by
    rcases inv.tree with h | ⟨hmt, -⟩
    · exact h
    · rw [hmt] at hst
      exact absurd hst (by simp)
  have hnd := inv.nodup
  rw [htree] at hnd
  have htnd : ((primLoop g (primFuel g)
      ⟨[], [], [(0, start, none)]⟩).mst_edges.map (fun e => e.2.1)).Nodup :=
    (List.nodup_cons.mp hnd).2
  have hsnt : start ∉ (primLoop g (primFuel g)
      ⟨[], [], [(0, start, none)]⟩).mst_edges.map (fun e => e.2.1) :=
    (List.nodup_cons.mp hnd).1
  refine ⟨?_, ?_, ?_⟩
  · intro v hr hne
    have hv := (hiff v).mpr hr
    rw [htree] at hv
    rcases List.mem_cons.mp hv with hvs | hvt
    · exact absurd hvs hne
    · rw [hprim]
      exact List.count_eq_one_of_mem htnd hvt
  · intro e he heq
    rw [hprim] at he
    exact hsnt (List.mem_map.mpr ⟨e, he, heq⟩)
  · have hset : {v | Reach g start v} =
        ((primLoop g (primFuel g) ⟨[], [], [(0, start, none)]⟩).in_mst.toFinset : Set Node) := by
      ext v
      simp only [Set.mem_setOf_eq, Finset.coe_sort_coe, Finset.mem_coe, List.mem_toFinset]
      exact (hiff v).symm
    rw [hset, Set.ncard_coe_Finset, List.toFinset_card_of_nodup inv.nodup, htree,
      List.length_cons, List.length_map, hprim]

theorem prim_tree_witness :
    (∀ v, Reach discGraph 0 v → v ≠ 0 →
      ((prim discGraph 0).1.map (fun e => e.2.1)).count v = 1) ∧
    (∀ e ∈ (prim discGraph 0).1, e.2.1 ≠ 0) ∧
    (prim discGraph 0).1.length + 1 = Set.ncard {v | Reach discGraph 0 v} :=
  prim_tree discGraph 0 ⟨by decide, by decide⟩ (by decide)

/-! ## Distance comparison helpers (`none` is the infinity sentinel) -/

/-- Comparison of possibly-infinite distances. -/
def leOpt : Option Int → Option Int → Prop
  | _, none => True
  | none, some _ => False
  | some a, some b => a ≤ b

theorem leOpt_refl (o : Option Int) : leOpt o o := by
  cases o with
  | none => trivial
  | some a => exact le_refl a

theorem leOpt_trans {a b c : Option Int} (h₁ : leOpt a b) (h₂ : leOpt b c) : leOpt a c := by
  cases a with
  | none =>
    cases b with
    | none =>
      cases c with
      | none => trivial
      | some z => exact h₂
    | some y =>
      exact absurd h₁ (by unfold leOpt at h₁ ⊢; exact fun h => h₁)
  | some x =>
    cases c with
    | none => trivial
    | some z =>
      cases b with
      | none => exact absurd h₂ (by unfold leOpt at h₂ ⊢; exact fun h => h₂)
      | some y => exact le_trans h₁ h₂

theorem leOpt_some_iff {x : Int} {o : Option Int} :
    leOpt (some x) o ↔ o = none ∨ ∃ y, o = some y ∧ x ≤ y := by
  cases o with
  | none => simp [leOpt]
  | some y =>
    simp only [leOpt, Option.some.injEq]
    constructor
    · intro h; exact Or.inr ⟨y, rfl, h⟩
    · rintro (h | ⟨z, hz, hle⟩)
      · exact absurd h (by simp)
      · rw [hz]; exact hle

theorem leOpt_none_right {o : Option Int} (h : leOpt o none) : True := trivial

theorem leOpt_of_none {o : Option Int} (h : o = none) : ∀ o', leOpt o' o := by
  intro o'
  rw [h]
  cases o' <;> trivial

theorem ltD_iff {d : Int} {o : Option Int} :
    ltD d o = true ↔ o = none ∨ ∃ e, o = some e ∧ d < e := by
  cases o with
  | none => simp [ltD]
  | some e =>
    simp only [ltD, decide_eq_true_eq, Option.some.injEq]
    constructor
    · intro h; exact Or.inr ⟨e, rfl, h⟩
    · rintro (h | ⟨e', he', hlt⟩)
      · exact absurd h (by simp)
      · rw [he']; exact hlt

theorem ltD_false_iff {d : Int} {o : Option Int} :
    ltD d o = false ↔ ∃ e, o = some e ∧ e ≤ d := by
  cases o with
  | none => simp [ltD]
  | some e =>
    simp only [ltD, decide_eq_false_iff_not, not_lt, Option.some.injEq]
    constructor
    · intro h; exact ⟨e, rfl, h⟩
    · rintro ⟨e', he', hle⟩
      rw [he']; exact hle

/-! ## More walk lemmas -/

theorem wsum_nil : wsum [] = 0 := rfl

theorem wsum_cons (e : Node × Node × Int) (es : List (Node × Node × Int)) :
    wsum (e :: es) = e.2.2 + wsum es := by
  unfold wsum
  rw [List.map_cons, List.sum_cons]

theorem wsum_append (es₁ es₂ : List (Node × Node × Int)) :
    wsum (es₁ ++ es₂) = wsum es₁ + wsum es₂ := by
  unfold wsum
  rw [List.map_append, List.sum_append]

/-- The non-negative-weights precondition of Dijkstra's algorithm. -/
def Nonneg (g : Graph) : Prop := ∀ u, ∀ vw ∈ adj g u, (0 : Int) ≤ vw.2

theorem IsWalk.wsum_nonneg {g : Graph} (hnn : Nonneg g) :
    ∀ {es : List (Node × Node × Int)} {s t : Node}, IsWalk g s es t → 0 ≤ wsum es := by
  intro es
  induction es with
  | nil => intro s t _; rw [wsum_nil]
  | cons e rest ih =>
    intro s t hw
    obtain ⟨u, v, w⟩ := e
    obtain ⟨rfl, hadj, hrest⟩ := hw
    rw [wsum_cons]
    dsimp only
    have h1 : (0 : Int) ≤ w := hnn s (v, w) hadj
    have h2 := ih hrest
    omega

theorem IsWalk.append_inv {g : Graph} :
    ∀ {es₁ es₂ : List (Node × Node × Int)} {s t : Node},
      IsWalk g s (es₁ ++ es₂) t → ∃ m, IsWalk g s es₁ m ∧ IsWalk g m es₂ t := by
  intro es₁
  induction es₁ with
  | nil =>
    intro es₂ s t h
    exact ⟨s, rfl, h⟩
  | cons e es ih =>
    intro es₂ s t h
    obtain ⟨u, v, w⟩ := e
    obtain ⟨rfl, hadj, hrest⟩ := h
    obtain ⟨m, h₁, h₂⟩ := ih hrest
    exact ⟨m, ⟨rfl, hadj, h₁⟩, h₂⟩

theorem IsWalk.verts_mem_keys {g : Graph} (hwf : GraphWF g) :
    ∀ {es : List (Node × Node × Int)} {s t : Node}, IsWalk g s es t → s ∈ keysG g →
      ∀ x ∈ verts s es, x ∈ keysG g := by
  intro es
  induction es with
  | nil =>
    intro s t _ hs x hx
    unfold verts at hx
    rcases List.mem_cons.mp hx with rfl | hx
    · exact hs
    · exact absurd hx (by simp)
  | cons e rest ih =>
    intro s t hw hs x hx
    obtain ⟨u, v, w⟩ := e
    obtain ⟨rfl, hadj, hrest⟩ := hw
    have hv : v ∈ keysG g := hwf.2 s hs (v, w) hadj
    unfold verts at hx
    rcases List.mem_cons.mp hx with rfl | hx
    · exact hs
    · rw [List.map_cons] at hx
      exact ih hrest hv x hx

/-- Any walk in a graph with non-negative weights contains a simple path
between the same endpoints with no greater weight and no greater length. -/
theorem IsWalk.to_simple {g : Graph} (hnn : Nonneg g) :
    ∀ (es : List (Node × Node × Int)) (s t : Node), IsWalk g s es t →
      ∃ es', IsWalk g s es' t ∧ IsSimple s es' ∧ wsum es' ≤ wsum es ∧
        es'.length ≤ es.length := by
  intro es
  induction es with
  | nil =>
    intro s t hw
    exact ⟨[], hw, List.nodup_singleton s, le_refl _, le_refl _⟩
  | cons e rest ih =>
    intro s t hw
    obtain ⟨u, v, w⟩ := e
    obtain ⟨rfl, hadj, hrest⟩ := hw
    obtain ⟨rest', hw', hsimp', hws', hl'⟩ := ih v t hrest
    have hw0 : (0 : Int) ≤ w := hnn s (v, w) hadj
    by_cases hs : s ∈ verts v rest'
    · unfold verts at hs
      rcases List.mem_cons.mp hs with hsv | hs'
      · refine ⟨rest', ?_, ?_, ?_, ?_⟩
        · rw [hsv]; exact hw'
        · unfold IsSimple verts
          unfold IsSimple verts at hsimp'
          rw [hsv]; exact hsimp'
        · rw [wsum_cons]; dsimp only; omega
        · simp only [List.length_cons]; omega
      · obtain ⟨e', he', hes⟩ := List.mem_map.mp hs'
        obtain ⟨p, q, hpq⟩ := List.append_of_mem he'
        rw [hpq] at hw' hsimp' hws' hl'
        obtain ⟨m, hwp, hwq⟩ := hw'.append_inv
        obtain ⟨u', v', w'⟩ := e'
        obtain ⟨hm, hadj', hq⟩ := hwq
        have hvs : v' = s := hes
        rw [hvs] at hq
        refine ⟨q, hq, ?_, ?_, ?_⟩
        · unfold IsSimple
          have hsubl : List.Sublist (verts s q) (verts v (p ++ (u', v', w') :: q)) := by
            unfold verts
            rw [List.map_append, List.map_cons]
            dsimp only
            rw [hvs]
            exact List.Sublist.cons v (List.sublist_append_right _ _)
          exact List.Nodup.sublist hsubl hsimp'
        · have h1 := hwp.wsum_nonneg hnn
          have h2 : wsum (p ++ (u', v', w') :: q) = wsum p + (w' + wsum q) := by
            rw [wsum_append, wsum_cons]
          have h3 : (0 : Int) ≤ w' := hnn u' (v', w') hadj'
          rw [wsum_cons]
          dsimp only
          omega
        · rw [List.length_append, List.length_cons] at hl'
          simp only [List.length_cons]
          omega
    · refine ⟨(s, v, w) :: rest', ⟨rfl, hadj, hw'⟩, ?_, ?_, ?_⟩
      · unfold IsSimple verts
        rw [List.map_cons]
        refine List.nodup_cons.mpr ⟨?_, hsimp'⟩
        unfold verts at hs
        exact hs
      · rw [wsum_cons, wsum_cons]
        dsimp only
        omega
      · simp only [List.length_cons]
        omega

/-- A simple path starting at a key has fewer edges than the graph has keys. -/
theorem IsSimple.length_lt {g : Graph} (hwf : GraphWF g) {s t : Node}
    {es : List (Node × Node × Int)} (hw : IsWalk g s es t) (hsimp : IsSimple s es)
    (hs : s ∈ keysG g) : es.length + 1 ≤ (keysG g).length := by
  have hmem := hw.verts_mem_keys hwf hs
  have hsub : (verts s es).toFinset ⊆ (keysG g).toFinset := by
    intro a ha
    rw [List.mem_toFinset] at ha ⊢
    exact hmem a ha
  have hcard := Finset.card_le_card hsub
  rw [List.toFinset_card_of_nodup hsimp] at hcard
  have hlen : (verts s es).length = es.length + 1 := by
    unfold verts
    rw [List.length_cons, List.length_map]
  rw [hlen] at hcard
  exact hcard.trans (List.toFinset_card_le _)

/-! ## dijkstra.py -/

/-- Heap entries `(distance, node)` with Python tuple comparison. -/
def dentryLe (a b : Int × Node) : Bool :=
  decide (a.1 < b.1) || (decide (a.1 = b.1) && decide (a.2 ≤ b.2))

theorem dentryLe_refl (a : Int × Node) : dentryLe a a = true := by
  unfold dentryLe
  simp

theorem dentryLe_trans (a b c : Int × Node) (h₁ : dentryLe a b = true)
    (h₂ : dentryLe b c = true) : dentryLe a c = true := by
  unfold dentryLe at h₁ h₂ ⊢
  simp only [Bool.or_eq_true, Bool.and_eq_true, decide_eq_true_eq] at h₁ h₂ ⊢
  rcases h₁ with h₁ | ⟨h₁e, h₁n⟩ <;> rcases h₂ with h₂ | ⟨h₂e, h₂n⟩
  · exact Or.inl (by omega)
  · exact Or.inl (by omega)
  · exact Or.inl (by omega)
  · exact Or.inr ⟨h₁e.trans h₂e, h₁n.trans h₂n⟩

theorem dentryLe_total (a b : Int × Node) : dentryLe a b = true ∨ dentryLe b a = true := by
  unfold dentryLe
  simp only [Bool.or_eq_true, Bool.and_eq_true, decide_eq_true_eq]
  rcases lt_trichotomy a.1 b.1 with h | h | h
  · exact Or.inl (Or.inl h)
  · rcases Nat.le_total a.2 b.2 with hn | hn
    · exact Or.inl (Or.inr ⟨h, hn⟩)
    · exact Or.inr (Or.inr ⟨h.symm, hn⟩)
  · exact Or.inr (Or.inl h)

theorem dentryLe_fst {a b : Int × Node} (h : dentryLe a b = true) : a.1 ≤ b.1 := by
  unfold dentryLe at h
  simp only [Bool.or_eq_true, Bool.and_eq_true, decide_eq_true_eq] at h
  omega

/-- The body of dijkstra's inner `for v, weight in graph[u]` loop: skip
visited neighbors; on improvement update `dist[v]`, `prev[v]` and push the new
candidate.  `u` is the extracted node, `d` its popped `current_dist`, and
`visited` the visited set (already including `u`). -/
def dijRelax (u : Node) (d : Int) (visited : List Node)
    (st : (Node → Option Int) × (Node → Option Node) × List (Int × Node))
    (vw : Node × Int) :
    (Node → Option Int) × (Node → Option Node) × List (Int × Node) :=
  if vw.1 ∈ visited then st
  else if ltD (d + vw.2) (st.1 vw.1) then
    (fun x => if x = vw.1 then some (d + vw.2) else st.1 x,
     fun x => if x = vw.1 then some u else st.2.1 x,
     st.2.2 ++ [(d + vw.2, vw.1)])
  else st

/-- The state of dijkstra's main loop. -/
structure DijkState where
  dist : Node → Option Int
  prev : Node → Option Node
  heap : List (Int × Node)
  visited : List Node

/-- The `while heap` loop of `dijkstra`, with fuel bounding the iteration
count (each iteration pops exactly one entry). -/
def dijkstraLoop (g : Graph) : Nat → DijkState → DijkState
  | 0, s => s
  | fuel+1, s =>
    match popMin dentryLe s.heap with
    | none => s
    | some (du, rest) =>
      if du.2 ∈ s.visited then dijkstraLoop g fuel ⟨s.dist, s.prev, rest, s.visited⟩
      else
        dijkstraLoop g fuel
          ⟨((adj g du.2).foldl (dijRelax du.2 du.1 (s.visited ++ [du.2]))
              (s.dist, s.prev, rest)).1,
           ((adj g du.2).foldl (dijRelax du.2 du.1 (s.visited ++ [du.2]))
              (s.dist, s.prev, rest)).2.1,
           ((adj g du.2).foldl (dijRelax du.2 du.1 (s.visited ++ [du.2]))
              (s.dist, s.prev, rest)).2.2,
           s.visited ++ [du.2]⟩

/-- Fuel sufficient to drain the heap. -/
def dijFuel (g : Graph) : Nat := 1 + ((keysG g).map (fun u => (adj g u).length)).sum

/-- `dijkstra(graph, start)`: distances are initialized to infinity except
`dist[start] = 0`, the heap to `[(0, start)]`; returns `(dist, prev)`. -/
def dijkstra (g : Graph) (start : Node) : (Node → Option Int) × (Node → Option Node) :=
  let s := dijkstraLoop g (dijFuel g)
    ⟨fun v => if v = start then some 0 else none, fun _ => none, [(0, start)], []⟩
  (s.dist, s.prev)

theorem leOpt_some_inv {o : Option Int} {x : Int} (h : leOpt o (some x)) :
    ∃ y, o = some y ∧ y ≤ x := by
  cases o with
  | none => exact absurd h (by unfold leOpt at h ⊢; exact fun hc => h)
  | some y => exact ⟨y, rfl, h⟩

/-- Full description of one `dijRelax` step. -/
theorem dijRelax_step_spec (u : Node) (d : Int) (visited : List Node)
    (st : (Node → Option Int) × (Node → Option Node) × List (Int × Node))
    (vw : Node × Int) :
    (∀ v, ((dijRelax u d visited st vw).1 v = st.1 v ∧
           (dijRelax u d visited st vw).2.1 v = st.2.1 v) ∨
      (v = vw.1 ∧ v ∉ visited ∧ (dijRelax u d visited st vw).1 v = some (d + vw.2) ∧
       (dijRelax u d visited st vw).2.1 v = some u)) ∧
    (∀ v, leOpt ((dijRelax u d visited st vw).1 v) (st.1 v)) ∧
    (vw.1 ∉ visited →
      ∃ dv, (dijRelax u d visited st vw).1 vw.1 = some dv ∧ dv ≤ d + vw.2) ∧
    (∃ add, (dijRelax u d visited st vw).2.2 = st.2.2 ++ add ∧ add.length ≤ 1 ∧
      ∀ e ∈ add, e.2 = vw.1 ∧ e.2 ∉ visited ∧ e.1 = d + vw.2) ∧
    ((∀ e ∈ st.2.2, leOpt (st.1 e.2) (some e.1)) →
      ∀ e ∈ (dijRelax u d visited st vw).2.2,
        leOpt ((dijRelax u d visited st vw).1 e.2) (some e.1)) ∧
    ((∀ v dv, v ∉ visited → st.1 v = some dv → ∃ d', (d', v) ∈ st.2.2 ∧ d' ≤ dv) →
      ∀ v dv, v ∉ visited → (dijRelax u d visited st vw).1 v = some dv →
        ∃ d', (d', v) ∈ (dijRelax u d visited st vw).2.2 ∧ d' ≤ dv) := by
  unfold dijRelax
  by_cases hmem : vw.1 ∈ visited
  · rw [if_pos hmem]
    refine ⟨fun v => Or.inl ⟨rfl, rfl⟩, fun v => leOpt_refl _,
      fun hc => absurd hmem hc, ⟨[], (List.append_nil _).symm, by simp, by simp⟩,
      fun h => h, fun h => h⟩
  · rw [if_neg hmem]
    by_cases hlt : ltD (d + vw.2) (st.1 vw.1) = true
    · rw [if_pos hlt]
      dsimp only
      refine ⟨?_, ?_, ?_, ?_, ?_, ?_⟩
      · intro v
        by_cases hv : v = vw.1
        · exact Or.inr ⟨hv, hv ▸ hmem, by rw [if_pos hv], by rw [if_pos hv]⟩
        · exact Or.inl ⟨by rw [if_neg hv], by rw [if_neg hv]⟩
      · intro v
        by_cases hv : v = vw.1
        · rw [if_pos hv, hv]
          rcases ltD_iff.mp hlt with hn | ⟨e, he, hlt'⟩
          · rw [hn]; trivial
          · rw [he]; exact le_of_lt hlt'
        · rw [if_neg hv]; exact leOpt_refl _
      · intro _
        exact ⟨d + vw.2, by rw [if_pos rfl], le_refl _⟩
      · exact ⟨[(d + vw.2, vw.1)], rfl, by simp, by
          intro e he
          rcases List.mem_cons.mp he with rfl | he
          · exact ⟨rfl, hmem, rfl⟩
          · exact absurd he (by simp)⟩
      · intro hlow e he
        rcases List.mem_append.mp he with h | h
        · refine leOpt_trans ?_ (hlow e h)
          by_cases hv : e.2 = vw.1
          · rw [if_pos hv, hv]
            rcases ltD_iff.mp hlt with hn | ⟨x, hx, hlt'⟩
            · rw [hn]; trivial
            · rw [hx]; exact le_of_lt hlt'
          · rw [if_neg hv]; exact leOpt_refl _
        · have he' : e = (d + vw.2, vw.1) := by
            rcases List.mem_cons.mp h with h' | h'
            · exact h'
            · exact absurd h' (by simp)
          rw [he']
          dsimp only
          rw [if_pos rfl]
          exact le_refl _
      · intro hcov v dv hv hdv
        by_cases hveq : v = vw.1
        · rw [if_pos hveq] at hdv
          have hdd : dv = d + vw.2 := (Option.some.inj hdv).symm
          refine ⟨d + vw.2, ?_, by omega⟩
          rw [hveq]
          exact List.mem_append.mpr (Or.inr (by simp))
        · rw [if_neg hveq] at hdv
          obtain ⟨d', hd', hle⟩ := hcov v dv hv hdv
          exact ⟨d', List.mem_append.mpr (Or.inl hd'), hle⟩
    · rw [if_neg hlt]
      refine ⟨fun v => Or.inl ⟨rfl, rfl⟩, fun v => leOpt_refl _, ?_,
        ⟨[], (List.append_nil _).symm, by simp, by simp⟩, fun h => h, fun h => h⟩
      intro _
      obtain ⟨e, he, hle⟩ := ltD_false_iff.mp (Bool.eq_false_iff.mpr hlt)
      exact ⟨e, he, hle⟩

/-- Full description of the inner relaxation loop of `dijkstra` (a fold of
`dijRelax` over the adjacency list). -/
theorem dijRelax_fold_spec (u : Node) (d : Int) (visited : List Node) :
    ∀ (l : List (Node × Int))
      (st : (Node → Option Int) × (Node → Option Node) × List (Int × Node)),
      (∀ v, ((l.foldl (dijRelax u d visited) st).1 v = st.1 v ∧
             (l.foldl (dijRelax u d visited) st).2.1 v = st.2.1 v) ∨
        (v ∉ visited ∧ ∃ w, (v, w) ∈ l ∧
         (l.foldl (dijRelax u d visited) st).1 v = some (d + w) ∧
         (l.foldl (dijRelax u d visited) st).2.1 v = some u)) ∧
      (∀ v, leOpt ((l.foldl (dijRelax u d visited) st).1 v) (st.1 v)) ∧
      (∀ vw ∈ l, vw.1 ∉ visited →
        ∃ dv, (l.foldl (dijRelax u d visited) st).1 vw.1 = some dv ∧ dv ≤ d + vw.2) ∧
      (∃ add, (l.foldl (dijRelax u d visited) st).2.2 = st.2.2 ++ add ∧
        add.length ≤ l.length ∧
        ∀ e ∈ add, e.2 ∉ visited ∧ ∃ w, (e.2, w) ∈ l ∧ e.1 = d + w) ∧
      ((∀ e ∈ st.2.2, leOpt (st.1 e.2) (some e.1)) →
        ∀ e ∈ (l.foldl (dijRelax u d visited) st).2.2,
          leOpt ((l.foldl (dijRelax u d visited) st).1 e.2) (some e.1)) ∧
      ((∀ v dv, v ∉ visited → st.1 v = some dv → ∃ d', (d', v) ∈ st.2.2 ∧ d' ≤ dv) →
        ∀ v dv, v ∉ visited → (l.foldl (dijRelax u d visited) st).1 v = some dv →
          ∃ d', (d', v) ∈ (l.foldl (dijRelax u d visited) st).2.2 ∧ d' ≤ dv) := by
  intro l
  induction l with
  | nil =>
    intro st
    refine ⟨fun v => Or.inl ⟨rfl, rfl⟩, fun v => leOpt_refl _, by simp,
      ⟨[], (List.append_nil _).symm, by simp, by simp⟩, fun h => h, fun h => h⟩
  | cons vw l ih =>
    intro st
    rw [List.foldl_cons]
    obtain ⟨s1, s2, s3, ⟨adds, hadds, haddlen, haddmem⟩, s5, s6⟩ :=
      dijRelax_step_spec u d visited st vw
    obtain ⟨f1, f2, f3, ⟨addf, haddf, haddflen, haddfmem⟩, f5, f6⟩ :=
      ih (dijRelax u d visited st vw)
    refine ⟨?_, ?_, ?_, ?_, ?_, ?_⟩
    · intro v
      rcases f1 v with ⟨h1, h2⟩ | ⟨hnv, w, hw, hd, hp⟩
      · rcases s1 v with ⟨g1, g2⟩ | ⟨hveq, hnv, hd, hp⟩
        · exact Or.inl ⟨h1.trans g1, h2.trans g2⟩
        · refine Or.inr ⟨hnv, vw.2, ?_, h1.trans hd, h2.trans hp⟩
          rw [hveq]
          exact List.mem_cons_self _ _
      · exact Or.inr ⟨hnv, w, List.mem_cons_of_mem _ hw, hd, hp⟩
    · intro v
      exact leOpt_trans (f2 v) (s2 v)
    · intro xw hxw hnm
      rcases List.mem_cons.mp hxw with hh | hxw'
      · obtain ⟨dv, hdv, hle⟩ := s3 (by rw [← hh] at *; exact hnm)
        have hmon := f2 xw.1
        rw [hh, hdv] at hmon
        obtain ⟨dv', hdv', hle'⟩ := leOpt_some_inv hmon
        refine ⟨dv', by rw [hh]; exact hdv', ?_⟩
        have : (vw.2 : Int) = xw.2 := by rw [hh]
        omega
      · exact f3 xw hxw' hnm
    · refine ⟨adds ++ addf, ?_, ?_, ?_⟩
      · rw [haddf, hadds, List.append_assoc]
      · rw [List.length_append, List.length_cons]
        omega
      · intro e he
        rcases List.mem_append.mp he with h | h
        · obtain ⟨he2, hnv, he1⟩ := haddmem e h
          refine ⟨hnv, vw.2, ?_, he1⟩
          rw [he2]
          exact List.mem_cons_self _ _
        · obtain ⟨hnv, w, hw, he1⟩ := haddfmem e h
          exact ⟨hnv, w, List.mem_cons_of_mem _ hw, he1⟩
    · intro hlow
      exact f5 (s5 hlow)
    · intro hcov
      exact f6 (s6 hcov)

/-- Loop invariant of dijkstra's main loop. -/
structure DijkInv (g : Graph) (start : Node) (s : DijkState) : Prop where
  vnodup : s.visited.Nodup
  vkeys : ∀ v ∈ s.visited, v ∈ keysG g
  dsound : ∀ v dv, s.dist v = some dv → ∃ es, IsWalk g start es v ∧ wsum es = dv
  dstart : leOpt (s.dist start) (some 0)
  hkeys : ∀ e ∈ s.heap, e.2 ∈ keysG g
  hsound : ∀ e ∈ s.heap, ∃ es, IsWalk g start es e.2 ∧ wsum es = e.1
  hlow : ∀ e ∈ s.heap, leOpt (s.dist e.2) (some e.1)
  hcover : ∀ v dv, v ∉ s.visited → s.dist v = some dv →
    ∃ d', (d', v) ∈ s.heap ∧ d' ≤ dv
  settled : ∀ u ∈ s.visited, ∃ du, s.dist u = some du ∧
    ∀ es, IsWalk g start es u → du ≤ wsum es
  frontier : ∀ u ∈ s.visited, ∀ vw ∈ adj g u, vw.1 ∈ s.visited ∨
    ∃ du dv, s.dist u = some du ∧ s.dist vw.1 = some dv ∧ dv ≤ du + vw.2
  pnone : ∀ v, s.dist v = none → s.prev v = none

theorem dijkInv_init (g : Graph) (start : Node) (hs : start ∈ keysG g) :
    DijkInv g start ⟨fun v => if v = start then some 0 else none,
      fun _ => none, [(0, start)], []⟩ where
  vnodup := List.nodup_nil
  vkeys := by intro v hv; exact absurd hv (by simp)
  dsound := by
    intro v dv h
    dsimp only at h
    by_cases hv : v = start
    · rw [if_pos hv] at h
      refine ⟨[], ?_, ?_⟩
      · show start = v
        rw [hv]
      · rw [wsum_nil]
        exact Option.some.inj h
    · rw [if_neg hv] at h
      exact absurd h (by simp)
  dstart := by
    dsimp only
    rw [if_pos rfl]
    exact le_refl (0 : Int)
  hkeys := by
    intro e he
    rcases List.mem_cons.mp he with rfl | he
    · exact hs
    · exact absurd he (by simp)
  hsound := by
    intro e he
    rcases List.mem_cons.mp he with rfl | he
    · exact ⟨[], rfl, rfl⟩
    · exact absurd he (by simp)
  hlow := by
    intro e he
    rcases List.mem_cons.mp he with rfl | he
    · dsimp only
      rw [if_pos rfl]
      exact le_refl (0 : Int)
    · exact absurd he (by simp)
  hcover := by
    intro v dv _ h
    dsimp only at h
    by_cases hv : v = start
    · rw [if_pos hv] at h
      refine ⟨0, ?_, ?_⟩
      · rw [hv]
        exact List.mem_cons_self _ _
      · have : (0 : Int) = dv := Option.some.inj h
        omega
    · rw [if_neg hv] at h
      exact absurd h (by simp)
  settled := by intro u hu; exact absurd hu (by simp)
  frontier := by intro u hu; exact absurd hu (by simp)
  pnone := by intro v _; rfl

theorem DijkInv.frontier_path {g : Graph} {start : Node} (hnn : Nonneg g)
    {s : DijkState} (inv : DijkInv g start s) :
    ∀ (es : List (Node × Node × Int)) (u t : Node), u ∈ s.visited →
      IsWalk g u es t → t ∉ s.visited → ∀ du, s.dist u = some du →
      ∃ d' x, (d', x) ∈ s.heap ∧ d' ≤ du + wsum es := by
  intro es
  induction es with
  | nil =>
    intro u t hu hw ht du _
    obtain rfl : u = t := hw
    exact absurd hu ht
  | cons e rest ih =>
    intro u t hu hw ht du hdu
    obtain ⟨u', v, w⟩ := e
    obtain ⟨rfl, hadj, hrest⟩ := hw
    have hwr : (0 : Int) ≤ wsum rest := hrest.wsum_nonneg hnn
    have hw0 : (0 : Int) ≤ w := hnn u (v, w) hadj
    by_cases hv : v ∈ s.visited
    · obtain ⟨dv, hdv, hmin⟩ := inv.settled v hv
      obtain ⟨esu, hwu, hwsu⟩ := inv.dsound u du hdu
      have hwalkv : IsWalk g start (esu ++ [(u, v, w)]) v := hwu.append ⟨rfl, hadj, rfl⟩
      have hdvle : dv ≤ du + w := by
        have hm := hmin _ hwalkv
        rw [wsum_append, wsum_cons, wsum_nil] at hm
        dsimp only at hm
        omega
      obtain ⟨d', x, hx, hle⟩ := ih v t hv hrest ht dv hdv
      refine ⟨d', x, hx, ?_⟩
      rw [wsum_cons]
      dsimp only
      omega
    · rcases inv.frontier u hu (v, w) hadj with hvv | ⟨du', dv, hdu', hdv, hle⟩
      · exact absurd hvv hv
      · have hdd : du' = du := by
          rw [hdu'] at hdu
          exact Option.some.inj hdu
        obtain ⟨d', hd', hdle⟩ := inv.hcover v dv hv hdv
        refine ⟨d', v, hd', ?_⟩
        rw [wsum_cons]
        dsimp only at hle ⊢
        omega

theorem DijkInv.cover {g : Graph} {start : Node} (hnn : Nonneg g)
    {s : DijkState} (inv : DijkInv g start s) :
    ∀ (es : List (Node × Node × Int)) (t : Node), IsWalk g start es t →
      t ∉ s.visited → ∃ d' x, (d', x) ∈ s.heap ∧ d' ≤ wsum es := by
  intro es t hw ht
  have hnn' : (0 : Int) ≤ wsum es := hw.wsum_nonneg hnn
  by_cases hst : start ∈ s.visited
  · obtain ⟨d₀, hd₀, hmin⟩ := inv.settled start hst
    have hd₀0 : d₀ ≤ 0 := by
      have hm := hmin [] rfl
      rw [wsum_nil] at hm
      exact hm
    obtain ⟨d', x, hx, hle⟩ := inv.frontier_path hnn es start t hst hw ht d₀ hd₀
    exact ⟨d', x, hx, by omega⟩
  · obtain ⟨d₀, hd₀, hle0⟩ := leOpt_some_inv inv.dstart
    obtain ⟨d', hd', hdle⟩ := inv.hcover start d₀ hst hd₀
    exact ⟨d', start, hd', by omega⟩

/-- Both loop-body branches of `dijkstra` preserve the invariant. -/
theorem dijkInv_step (g : Graph) (start : Node) (hwf : GraphWF g) (hnn : Nonneg g)
    {s : DijkState} (inv : DijkInv g start s)
    {du : Int × Node} {rest : List (Int × Node)}
    (hpop : popMin dentryLe s.heap = some (du, rest)) :
    (du.2 ∈ s.visited → DijkInv g start ⟨s.dist, s.prev, rest, s.visited⟩) ∧
    (du.2 ∉ s.visited → DijkInv g start
      ⟨((adj g du.2).foldl (dijRelax du.2 du.1 (s.visited ++ [du.2]))
          (s.dist, s.prev, rest)).1,
       ((adj g du.2).foldl (dijRelax du.2 du.1 (s.visited ++ [du.2]))
          (s.dist, s.prev, rest)).2.1,
       ((adj g du.2).foldl (dijRelax du.2 du.1 (s.visited ++ [du.2]))
          (s.dist, s.prev, rest)).2.2,
       s.visited ++ [du.2]⟩) := by
  have hperm : s.heap.Perm (du :: rest) := popMin_perm dentryLe s.heap du rest hpop
  have hmem_e : du ∈ s.heap := hperm.symm.subset (List.mem_cons_self du rest)
  have hmem_rest : ∀ x ∈ rest, x ∈ s.heap :=
    fun x hx => hperm.symm.subset (List.mem_cons_of_mem du hx)
  have hheap_cases : ∀ x ∈ s.heap, x = du ∨ x ∈ rest := by
    intro x hx
    exact List.mem_cons.mp (hperm.subset hx)
  have hleast := popMin_least dentryLe dentryLe_refl dentryLe_trans dentryLe_total
    s.heap du rest hpop
  constructor
  · -- skip branch
    intro hu
    refine ⟨inv.vnodup, inv.vkeys, inv.dsound, inv.dstart, ?_, ?_, ?_, ?_,
      inv.settled, inv.frontier, inv.pnone⟩
    · intro e he
      exact inv.hkeys e (hmem_rest e he)
    · intro e he
      exact inv.hsound e (hmem_rest e he)
    · intro e he
      exact inv.hlow e (hmem_rest e he)
    · intro v dv hv hdv
      obtain ⟨d', hd', hle⟩ := inv.hcover v dv hv hdv
      rcases hheap_cases (d', v) hd' with heq | hin
      · have : v = du.2 := congrArg Prod.snd heq
        rw [this] at hv
        exact absurd hu hv
      · exact ⟨d', hin, hle⟩
  · -- visit branch
    intro hu
    obtain ⟨duv, hduv, hdule⟩ := leOpt_some_inv (inv.hlow du hmem_e)
    obtain ⟨d₀, hd₀, hd₀le⟩ := inv.hcover du.2 duv hu hduv
    have hd₀ge : du.1 ≤ d₀ := dentryLe_fst (hleast (d₀, du.2) hd₀)
    have hdu : s.dist du.2 = some du.1 := by
      have : duv = du.1 := by omega
      rw [← this]
      exact hduv
    have hmin : ∀ es, IsWalk g start es du.2 → du.1 ≤ wsum es := by
      intro es hw
      obtain ⟨d', x, hx, hle⟩ := inv.cover hnn es du.2 hw hu
      have := dentryLe_fst (hleast (d', x) hx)
      omega
    have hukeys : du.2 ∈ keysG g := inv.hkeys du hmem_e
    obtain ⟨esu, hwu, hwsu⟩ := inv.hsound du hmem_e
    -- note: the popped priority is sound and minimal, and equals dist[u]
    obtain ⟨f1, f2, f3, ⟨add, hadd, haddlen, haddmem⟩, f5, f6⟩ :=
      dijRelax_fold_spec du.2 du.1 (s.visited ++ [du.2]) (adj g du.2)
        (s.dist, s.prev, rest)
    have hV' : ∀ v, v ∈ s.visited ++ [du.2] ↔ (v ∈ s.visited ∨ v = du.2) := by
      intro v
      rw [List.mem_append]
      simp
    have hfix : ∀ v, v ∈ s.visited ++ [du.2] →
        ((adj g du.2).foldl (dijRelax du.2 du.1 (s.visited ++ [du.2]))
          (s.dist, s.prev, rest)).1 v = s.dist v ∧
        ((adj g du.2).foldl (dijRelax du.2 du.1 (s.visited ++ [du.2]))
          (s.dist, s.prev, rest)).2.1 v = s.prev v := by
      intro v hv
      rcases f1 v with ⟨h1, h2⟩ | ⟨hnv, -⟩
      · exact ⟨h1, h2⟩
      · exact absurd hv hnv
    have prelow : ∀ e ∈ rest, leOpt (s.dist e.2) (some e.1) :=
      fun e he => inv.hlow e (hmem_rest e he)
    have precov : ∀ v dv, v ∉ s.visited ++ [du.2] → s.dist v = some dv →
        ∃ d', (d', v) ∈ rest ∧ d' ≤ dv := by
      intro v dv hv hdv
      rw [hV'] at hv
      push_neg at hv
      obtain ⟨d', hd', hle⟩ := inv.hcover v dv hv.1 hdv
      rcases hheap_cases (d', v) hd' with heq | hin
      · have : v = du.2 := congrArg Prod.snd heq
        exact absurd this hv.2
      · exact ⟨d', hin, hle⟩
    refine ⟨?_, ?_, ?_, ?_, ?_, ?_, ?_, ?_, ?_, ?_, ?_⟩
    · rw [List.nodup_append]
      refine ⟨inv.vnodup, List.nodup_singleton _, ?_⟩
      intro a ha hb
      rcases List.mem_cons.mp hb with rfl | hb
      · exact hu ha
      · exact absurd hb (by simp)
    · intro v hv
      rcases (hV' v).mp hv with h | h
      · exact inv.vkeys v h
      · rw [h]; exact hukeys
    · -- dsound
      intro v dv hdv
      dsimp only at hdv
      rcases f1 v with ⟨h1, -⟩ | ⟨-, w, hw, hd, -⟩
      · rw [h1] at hdv
        exact inv.dsound v dv hdv
      · rw [hd] at hdv
        have : du.1 + w = dv := Option.some.inj hdv
        refine ⟨esu ++ [(du.2, v, w)], hwu.append ⟨rfl, hw, rfl⟩, ?_⟩
        rw [wsum_append, wsum_cons, wsum_nil]
        dsimp only
        omega
    · -- dstart
      exact leOpt_trans (f2 start) inv.dstart
    · -- hkeys
      intro e he
      dsimp only at he
      rw [hadd] at he
      rcases List.mem_append.mp he with h | h
      · exact inv.hkeys e (hmem_rest e h)
      · obtain ⟨-, w, hw, -⟩ := haddmem e h
        exact hwf.2 du.2 hukeys (e.2, w) hw
    · -- hsound
      intro e he
      dsimp only at he
      rw [hadd] at he
      rcases List.mem_append.mp he with h | h
      · exact inv.hsound e (hmem_rest e h)
      · obtain ⟨-, w, hw, he1⟩ := haddmem e h
        refine ⟨esu ++ [(du.2, e.2, w)], hwu.append ⟨rfl, hw, rfl⟩, ?_⟩
        rw [wsum_append, wsum_cons, wsum_nil]
        dsimp only
        omega
    · -- hlow
      exact f5 prelow
    · -- hcover
      exact f6 precov
    · -- settled
      intro x hx
      dsimp only at hx ⊢
      rcases (hV' x).mp hx with h | h
      · obtain ⟨dx, hdx, hminx⟩ := inv.settled x h
        refine ⟨dx, ?_, hminx⟩
        rw [(hfix x hx).1]
        exact hdx
      · refine ⟨du.1, ?_, ?_⟩
        · rw [(hfix x hx).1, h]
          exact hdu
        · rw [h]
          exact hmin
    · -- frontier
      intro x hx vw hvw
      dsimp only at hx ⊢
      rcases (hV' x).mp hx with h | h
      · rcases inv.frontier x h vw hvw with hin | ⟨dx, dv, hdx, hdv, hle⟩
        · exact Or.inl (List.mem_append.mpr (Or.inl hin))
        · by_cases hvin : vw.1 ∈ s.visited ++ [du.2]
          · exact Or.inl hvin
          · refine Or.inr ⟨dx, ?_⟩
            have hm := f2 vw.1
            dsimp only at hm
            rw [hdv] at hm
            obtain ⟨dv', hdv', hle'⟩ := leOpt_some_inv hm
            refine ⟨dv', ?_, hdv', by omega⟩
            rw [(hfix x hx).1]
            exact hdx
      · by_cases hvin : vw.1 ∈ s.visited ++ [du.2]
        · exact Or.inl hvin
        · obtain ⟨dv, hdv, hle⟩ := f3 vw (h ▸ hvw) hvin
          refine Or.inr ⟨du.1, dv, ?_, hdv, hle⟩
          rw [(hfix x hx).1, h]
          exact hdu
    · -- pnone
      intro v hv
      dsimp only at hv ⊢
      rcases f1 v with ⟨h1, h2⟩ | ⟨-, w, hw, hd, -⟩
      · rw [h2]
        rw [h1] at hv
        exact inv.pnone v hv
      · rw [hd] at hv
        exact absurd hv (by simp)

theorem dijkInv_loop (g : Graph) (start : Node) (hwf : GraphWF g) (hnn : Nonneg g) :
    ∀ (fuel : Nat) (s : DijkState), DijkInv g start s →
      DijkInv g start (dijkstraLoop g fuel s) := by
  intro fuel
  induction fuel with
  | zero => intro s inv; exact inv
  | succ fuel ih =>
    intro s inv
    unfold dijkstraLoop
    cases hpop : popMin dentryLe s.heap with
    | none => exact inv
    | some p =>
      obtain ⟨du, rest⟩ := p
      dsimp only
      by_cases hu : du.2 ∈ s.visited
      · rw [if_pos hu]
        exact ih _ ((dijkInv_step g start hwf hnn inv hpop).1 hu)
      · rw [if_neg hu]
        exact ih _ ((dijkInv_step g start hwf hnn inv hpop).2 hu)

/-- Remaining-work potential of dijkstra's loop. -/
def dijPot (g : Graph) (s : DijkState) : Nat :=
  s.heap.length + (((keysG g).diff s.visited).map (fun u => (adj g u).length)).sum

/-- With fuel at least the potential, the loop drains the heap. -/
theorem dijkLoop_drains (g : Graph) (start : Node) (hwf : GraphWF g) (hnn : Nonneg g) :
    ∀ (fuel : Nat) (s : DijkState), DijkInv g start s → dijPot g s ≤ fuel →
      (dijkstraLoop g fuel s).heap = [] := by
  intro fuel
  induction fuel with
  | zero =>
    intro s inv hpot
    have hl : s.heap.length = 0 := by
      unfold dijPot at hpot
      omega
    exact List.length_eq_zero.mp hl
  | succ fuel ih =>
    intro s inv hpot
    unfold dijkstraLoop
    cases hpop : popMin dentryLe s.heap with
    | none => exact (popMin_eq_none dentryLe s.heap).mp hpop
    | some p =>
      obtain ⟨du, rest⟩ := p
      dsimp only
      have hlen := (popMin_perm dentryLe s.heap du rest hpop).length_eq
      simp only [List.length_cons] at hlen
      by_cases hu : du.2 ∈ s.visited
      · rw [if_pos hu]
        refine ih _ ((dijkInv_step g start hwf hnn inv hpop).1 hu) ?_
        unfold dijPot at hpot ⊢
        dsimp only
        omega
      · rw [if_neg hu]
        refine ih _ ((dijkInv_step g start hwf hnn inv hpop).2 hu) ?_
        obtain ⟨-, -, -, ⟨add, hadd, haddlen, -⟩, -, -⟩ :=
          dijRelax_fold_spec du.2 du.1 (s.visited ++ [du.2]) (adj g du.2)
            (s.dist, s.prev, rest)
        have hukeys : du.2 ∈ keysG g := inv.hkeys du
          ((popMin_perm dentryLe s.heap du rest hpop).symm.subset
            (List.mem_cons_self du rest))
        have hdiff : (keysG g).diff (s.visited ++ [du.2]) =
            ((keysG g).diff s.visited).erase du.2 := by
          rw [List.diff_append, List.diff_cons, List.diff_nil]
        have hmemd : du.2 ∈ (keysG g).diff s.visited := List.mem_diff_of_mem hukeys hu
        have hsum : (((keysG g).diff s.visited).map (fun u => (adj g u).length)).sum =
            (adj g du.2).length +
            ((((keysG g).diff s.visited).erase du.2).map
              (fun u => (adj g u).length)).sum := by
          rw [((List.perm_cons_erase hmemd).map (fun u => (adj g u).length)).sum_eq]
          rw [List.map_cons, List.sum_cons]
        unfold dijPot at hpot ⊢
        dsimp only
        rw [hadd, List.length_append, hdiff]
        rw [hsum] at hpot
        dsimp only
        omega

/-- The value is the least weight over all walks from the source (`none` means
unreachable). -/
def IsLeastDist (g : Graph) (start v : Node) : Option Int → Prop
  | some d => (∃ es, IsWalk g start es v ∧ wsum es = d) ∧
      ∀ es, IsWalk g start es v → d ≤ wsum es
  | none => ¬ Reach g start v

/-- The value is the least weight over all simple paths from the source. -/
def IsLeastSimpleDist (g : Graph) (start v : Node) : Option Int → Prop
  | some d => (∃ es, IsWalk g start es v ∧ IsSimple start es ∧ wsum es = d) ∧
      ∀ es, IsWalk g start es v → IsSimple start es → d ≤ wsum es
  | none => ¬ Reach g start v

/-- With non-negative weights, least over walks and least over simple paths
agree. -/
theorem IsLeastDist.simplify {g : Graph} {start v : Node} {o : Option Int}
    (hnn : Nonneg g) (h : IsLeastDist g start v o) : IsLeastSimpleDist g start v o := by
  cases o with
  | none => exact h
  | some d =>
    obtain ⟨⟨es, hw, hws⟩, hmin⟩ := h
    obtain ⟨es', hw', hsimp', hle', -⟩ := IsWalk.to_simple hnn es start v hw
    refine ⟨⟨es', hw', hsimp', ?_⟩, fun es₂ hw₂ _ => hmin es₂ hw₂⟩
    have hge := hmin es' hw'
    omega

/-- The final distance table of `dijkstra` is least over all walks, and the
predecessor of a node with infinite distance is `None`. -/
theorem dijkstra_least (g : Graph) (start : Node) (hwf : GraphWF g) (hnn : Nonneg g)
    (hs : start ∈ keysG g) :
    (∀ v, IsLeastDist g start v ((dijkstra g start).1 v)) ∧
    (∀ v, (dijkstra g start).1 v = none → (dijkstra g start).2 v = none) := by
  have inv0 := dijkInv_init g start hs
  have hpot : dijPot g ⟨fun v => if v = start then some 0 else none,
      fun _ => none, [(0, start)], []⟩ ≤ dijFuel g := by
    unfold dijPot dijFuel
    dsimp only
    rw [List.diff_nil]
    simp
  have inv := dijkInv_loop g start hwf hnn (dijFuel g) _ inv0
  have hempty := dijkLoop_drains g start hwf hnn (dijFuel g) _ inv0 hpot
  have hd1 : (dijkstra g start).1 = (dijkstraLoop g (dijFuel g)
      ⟨fun v => if v = start then some 0 else none, fun _ => none,
        [(0, start)], []⟩).dist := rfl
  have hd2 : (dijkstra g start).2 = (dijkstraLoop g (dijFuel g)
      ⟨fun v => if v = start then some 0 else none, fun _ => none,
        [(0, start)], []⟩).prev := rfl
  constructor
  · intro v
    rw [hd1]
    cases hdv : (dijkstraLoop g (dijFuel g)
        ⟨fun v => if v = start then some 0 else none, fun _ => none,
          [(0, start)], []⟩).dist v with
    | some dv =>
      refine ⟨inv.dsound v dv hdv, ?_⟩
      intro es hw
      by_cases hvv : v ∈ (dijkstraLoop g (dijFuel g)
          ⟨fun v => if v = start then some 0 else none, fun _ => none,
            [(0, start)], []⟩).visited
      · obtain ⟨dv', hdv', hmin⟩ := inv.settled v hvv
        rw [hdv] at hdv'
        have hdd : dv = dv' := Option.some.inj hdv'
        rw [hdd]
        exact hmin es hw
      · obtain ⟨d', x, hx, -⟩ := inv.cover hnn es v hw hvv
        rw [hempty] at hx
        exact absurd hx (by simp)
    | none =>
      rintro ⟨es, hw⟩
      by_cases hvv : v ∈ (dijkstraLoop g (dijFuel g)
          ⟨fun v => if v = start then some 0 else none, fun _ => none,
            [(0, start)], []⟩).visited
      · obtain ⟨dv', hdv', -⟩ := inv.settled v hvv
        rw [hdv] at hdv'
        exact absurd hdv' (by simp)
      · obtain ⟨d', x, hx, -⟩ := inv.cover hnn es v hw hvv
        rw [hempty] at hx
        exact absurd hx (by simp)
  · intro v hv
    rw [hd1] at hv
    rw [hd2]
    exact inv.pnone v hv

/-- Membership in an adjacency list forces the source to be a dictionary key. -/
theorem mem_keys_of_adj {g : Graph} {u : Node} {vw : Node × Int}
    (h : vw ∈ adj g u) : u ∈ keysG g := by
  unfold adj at h
  induction g with
  | nil => exact absurd h (by simp [List.lookup])
  | cons p t ih =>
    obtain ⟨k, l⟩ := p
    unfold keysG
    rw [List.map_cons]
    by_cases hk : k = u
    · exact List.mem_cons.mpr (Or.inl hk.symm)
    · have hbeq : (u == k) = false := by
        rw [beq_eq_false_iff_ne]
        exact fun hc => hk hc.symm
      rw [show List.lookup u ((k, l) :: t) = List.lookup u t from by
        simp [List.lookup, hbeq]] at h
      exact List.mem_cons_of_mem _ (ih h)

/-- Pointwise non-negativity from the (decidable) key-bounded statement. -/
theorem nonneg_of_ball {g : Graph}
    (h : ∀ u ∈ keysG g, ∀ vw ∈ adj g u, (0 : Int) ≤ vw.2) : Nonneg g :=
  fun u vw hvw => h u (mem_keys_of_adj hvw) vw hvw

/-- Claim C1: on every graph with non-negative edge weights, `dijkstra` maps
each node reachable from the source to the minimum total weight over all
simple paths from the source to it, and leaves every unreachable node with
the infinity sentinel distance and a `None` predecessor. -/
theorem dijkstra_correct (g : Graph) (start : Node) (hwf : GraphWF g)
    (hnn : Nonneg g) (hs : start ∈ keysG g) :
    ∀ v, (Reach g start v →
        ∃ d, (dijkstra g start).1 v = some d ∧ IsLeastSimpleDist g start v (some d)) ∧
      (¬ Reach g start v →
        (dijkstra g start).1 v = none ∧ (dijkstra g start).2 v = none) := by
  obtain ⟨hleast, hprev⟩ := dijkstra_least g start hwf hnn hs
  intro v
  constructor
  · intro hr
    cases hdv : (dijkstra g start).1 v with
    | none =>
      have hl := hleast v
      rw [hdv] at hl
      exact absurd hr hl
    | some d =>
      have hl := hleast v
      rw [hdv] at hl
      exact ⟨d, rfl, hl.simplify hnn⟩
  · intro hr
    cases hdv : (dijkstra g start).1 v with
    | some d =>
      have hl := hleast v
      rw [hdv] at hl
      obtain ⟨⟨es, hw, -⟩, -⟩ := hl
      exact absurd ⟨es, hw⟩ hr
    | none => exact ⟨rfl, hprev v hdv⟩

/-- Scenario 1's graph: nodes `{A,B,C}` as `{0,1,2}`, undirected edges
`(A,B,1)`, `(B,C,2)`, `(A,C,5)`. -/
def ex1Graph : Graph :=
  [(0, [(1, 1), (2, 5)]), (1, [(0, 1), (2, 2)]), (2, [(0, 5), (1, 2)])]

theorem dijkstra_correct_witness :
    ∃ d, (dijkstra ex1Graph 0).1 2 = some d ∧
      IsLeastSimpleDist ex1Graph 0 2 (some d) :=
  (dijkstra_correct ex1Graph 0 ⟨by decide, by decide⟩
      (nonneg_of_ball (by decide)) (by decide) 2).1
    ⟨[(0, 1, 1), (1, 2, 2)], rfl, by decide, rfl, by decide, rfl⟩

/-! ## Bellman-Ford correctness on non-negative graphs (claim C3)

`bellman_ford` runs `len(graph) - 1` passes of `relax` over the flat edge
list.  We show the resulting table is least over all walks, hence (by
uniqueness of the least value) pointwise equal to `dijkstra`'s table, and the
negative-cycle check then finds no relaxable edge. -/

/-- Adding an edge weight to a possibly-infinite distance
(`dist[u] + weight`, infinity absorbing). -/
def addW (o : Option Int) (w : Int) : Option Int := o.map (fun x => x + w)

theorem addW_mono {a b : Option Int} (w : Int) (h : leOpt a b) :
    leOpt (addW a w) (addW b w) := by
  cases a with
  | none =>
    cases b with
    | none => trivial
    | some y => exact absurd h (by unfold leOpt at h ⊢; exact fun hc => h)
  | some x =>
    cases b with
    | none => trivial
    | some y =>
      show x + w ≤ y + w
      have hxy : x ≤ y := h
      omega

/-- A single relaxation never increases any entry of the distance table. -/
theorem relax_mono (dp : (Node → Option Int) × (Node → Option Node))
    (e : Node × Node × Int) (v : Node) : leOpt ((relax dp e).1 v) (dp.1 v) := by
  unfold relax
  cases hdu : dp.1 e.1 with
  | none =>
    dsimp only
    exact leOpt_refl _
  | some du =>
    dsimp only
    by_cases hlt : ltD (du + e.2.2) (dp.1 e.2.1) = true
    · rw [if_pos hlt]
      dsimp only
      by_cases hv : v = e.2.1
      · rw [if_pos hv]
        rcases ltD_iff.mp hlt with hn | ⟨x, hx, hlt'⟩
        · rw [hv, hn]
          trivial
        · rw [hv, hx]
          show du + e.2.2 ≤ x
          omega
      · rw [if_neg hv]
        exact leOpt_refl _
    · rw [if_neg hlt]
      exact leOpt_refl _

/-- Folding relaxations over any edge list never increases any entry. -/
theorem foldl_relax_mono :
    ∀ (l : List (Node × Node × Int)) (dp : (Node → Option Int) × (Node → Option Node))
      (v : Node), leOpt ((l.foldl relax dp).1 v) (dp.1 v) := by
  intro l
  induction l with
  | nil =>
    intro dp v
    exact leOpt_refl _
  | cons e l ih =>
    intro dp v
    rw [List.foldl_cons]
    exact leOpt_trans (ih (relax dp e) v) (relax_mono dp e v)

/-- After relaxing the edge `(u, v, w)` itself, `dist[v] ≤ dist[u] + w`
(with respect to the table before the relaxation). -/
theorem relax_progress (dp : (Node → Option Int) × (Node → Option Node))
    (e : Node × Node × Int) :
    leOpt ((relax dp e).1 e.2.1) (addW (dp.1 e.1) e.2.2) := by
  unfold relax
  cases hdu : dp.1 e.1 with
  | none =>
    dsimp only
    exact leOpt_of_none rfl _
  | some du =>
    dsimp only
    by_cases hlt : ltD (du + e.2.2) (dp.1 e.2.1) = true
    · rw [if_pos hlt]
      dsimp only
      rw [if_pos rfl]
      show du + e.2.2 ≤ du + e.2.2
      exact le_refl _
    · rw [if_neg hlt]
      obtain ⟨x, hx, hle⟩ := ltD_false_iff.mp (Bool.eq_false_iff.mpr hlt)
      rw [hx]
      show x ≤ du + e.2.2
      exact hle

/-- After one full pass over an edge list containing `(u, v, w)`,
`dist[v] ≤` (previous) `dist[u] + w`. -/
theorem foldl_relax_edge :
    ∀ (l : List (Node × Node × Int)) (dp : (Node → Option Int) × (Node → Option Node))
      (e : Node × Node × Int), e ∈ l →
      leOpt ((l.foldl relax dp).1 e.2.1) (addW (dp.1 e.1) e.2.2) := by
  intro l
  induction l with
  | nil =>
    intro dp e he
    exact absurd he (List.not_mem_nil e)
  | cons e₀ l ih =>
    intro dp e he
    rw [List.foldl_cons]
    rcases List.mem_cons.mp he with rfl | he'
    · exact leOpt_trans (foldl_relax_mono l (relax dp e) e.2.1) (relax_progress dp e)
    · exact leOpt_trans (ih (relax dp e₀) e he')
        (addW_mono e.2.2 (relax_mono dp e₀ e.1))

/-- Soundness of a Bellman-Ford distance table: every finite entry is the
weight of some walk from the source. -/
def DPSound (g : Graph) (start : Node) (dist : Node → Option Int) : Prop :=
  ∀ v dv, dist v = some dv → ∃ es, IsWalk g start es v ∧ wsum es = dv

theorem dpInit_sound (g : Graph) (start : Node) : DPSound g start (dpInit start).1 := by
  intro v dv hdv
  unfold dpInit at hdv
  dsimp only at hdv
  by_cases hv : v = start
  · rw [if_pos hv] at hdv
    refine ⟨[], ?_, ?_⟩
    · show start = v
      exact hv.symm
    · rw [wsum_nil]
      exact Option.some.inj hdv
  · rw [if_neg hv] at hdv
    exact absurd hdv (by simp)

theorem relax_sound {g : Graph} {start : Node}
    {dp : (Node → Option Int) × (Node → Option Node)} {e : Node × Node × Int}
    (hadj : (e.2.1, e.2.2) ∈ adj g e.1) (h : DPSound g start dp.1) :
    DPSound g start (relax dp e).1 := by
  intro v dv hdv
  unfold relax at hdv
  cases hdu : dp.1 e.1 with
  | none =>
    rw [hdu] at hdv
    dsimp only at hdv
    exact h v dv hdv
  | some du =>
    rw [hdu] at hdv
    dsimp only at hdv
    by_cases hlt : ltD (du + e.2.2) (dp.1 e.2.1) = true
    · rw [if_pos hlt] at hdv
      dsimp only at hdv
      by_cases hv : v = e.2.1
      · rw [if_pos hv] at hdv
        obtain ⟨es, hw, hws⟩ := h e.1 du hdu
        refine ⟨es ++ [(e.1, e.2.1, e.2.2)], ?_, ?_⟩
        · rw [hv]
          exact hw.append ⟨rfl, hadj, rfl⟩
        · rw [wsum_append, wsum_cons, wsum_nil]
          dsimp only
          have h2 := Option.some.inj hdv
          omega
      · rw [if_neg hv] at hdv
        exact h v dv hdv
    · rw [if_neg hlt] at hdv
      exact h v dv hdv

theorem foldl_relax_sound {g : Graph} {start : Node} :
    ∀ (l : List (Node × Node × Int)), (∀ e ∈ l, (e.2.1, e.2.2) ∈ adj g e.1) →
      ∀ dp, DPSound g start dp.1 → DPSound g start (l.foldl relax dp).1 := by
  intro l
  induction l with
  | nil =>
    intro _ dp h
    exact h
  | cons e l ih =>
    intro hel dp h
    rw [List.foldl_cons]
    exact ih (fun e' he' => hel e' (List.mem_cons_of_mem e he'))
      (relax dp e) (relax_sound (hel e (List.mem_cons_self e l)) h)

theorem iterate_bfPass_sound (g : Graph) (edges : List (Node × Node × Int))
    (start : Node) (hel : ∀ e ∈ edges, (e.2.1, e.2.2) ∈ adj g e.1) :
    ∀ k, DPSound g start ((bfPass edges)^[k] (dpInit start)).1 := by
  intro k
  induction k with
  | zero => exact dpInit_sound g start
  | succ k ih =>
    rw [Function.iterate_succ_apply']
    exact foldl_relax_sound edges hel _ ih

/-- After `k` passes, the table is bounded by the weight of every walk of at
most `k` edges (the classical Bellman-Ford invariant). -/
theorem bf_le_walk (g : Graph) (edges : List (Node × Node × Int)) (start : Node)
    (hsup : ∀ u ∈ keysG g, ∀ vw ∈ adj g u, (u, vw.1, vw.2) ∈ edges) :
    ∀ (k : Nat) (es : List (Node × Node × Int)) (v : Node),
      IsWalk g start es v → es.length ≤ k →
      leOpt (((bfPass edges)^[k] (dpInit start)).1 v) (some (wsum es)) := by
  intro k
  induction k with
  | zero =>
    intro es v hw hlen
    obtain rfl : es = [] := List.length_eq_zero.mp (Nat.le_zero.mp hlen)
    obtain rfl : start = v := hw
    show leOpt ((dpInit start).1 start) (some (wsum []))
    unfold dpInit
    dsimp only
    rw [if_pos rfl, wsum_nil]
    show (0 : Int) ≤ 0
    exact le_refl _
  | succ k ih =>
    intro es v hw hlen
    rcases List.eq_nil_or_concat es with rfl | ⟨es', e, rfl⟩
    · obtain rfl : start = v := hw
      refine leOpt_trans ?_ (ih [] start rfl (Nat.zero_le k))
      rw [Function.iterate_succ_apply']
      unfold bfPass
      exact foldl_relax_mono edges _ start
    · rw [List.concat_eq_append] at hw hlen ⊢
      obtain ⟨m, hw1, hw2⟩ := hw.append_inv
      obtain ⟨u, v', w⟩ := e
      obtain ⟨rfl, hadj, hnil⟩ := hw2
      obtain rfl : v = v' := Eq.symm hnil
      have hedge : (m, v, w) ∈ edges := hsup m (mem_keys_of_adj hadj) (v, w) hadj
      have hlen' : es'.length ≤ k := by
        rw [List.length_append] at hlen
        simp at hlen
        omega
      rw [Function.iterate_succ_apply']
      unfold bfPass
      have hstep := foldl_relax_edge edges ((bfPass edges)^[k] (dpInit start))
        (m, v, w) hedge
      dsimp only at hstep
      refine leOpt_trans hstep (leOpt_trans (addW_mono w (ih es' m hw1 hlen')) ?_)
      rw [wsum_append, wsum_cons, wsum_nil]
      dsimp only
      show wsum es' + w ≤ wsum es' + (w + 0)
      omega

/-- `edges` is the flat edge list of `g`, as `bellmanford.py` builds it by
iterating over all adjacency lists: it holds exactly the edges of the graph. -/
def FlatEdges (g : Graph) (edges : List (Node × Node × Int)) : Prop :=
  (∀ e ∈ edges, (e.2.1, e.2.2) ∈ adj g e.1) ∧
  (∀ u ∈ keysG g, ∀ vw ∈ adj g u, (u, vw.1, vw.2) ∈ edges)

/-- The distance table of `bellman_ford` is least over all walks. -/
theorem bellman_ford_least (g : Graph) (edges : List (Node × Node × Int))
    (start : Node) (hwf : GraphWF g) (hnn : Nonneg g) (hfe : FlatEdges g edges)
    (hs : start ∈ keysG g) :
    ∀ v, IsLeastDist g start v ((bellman_ford g edges start).1 v) := by
  intro v
  have hbf : (bellman_ford g edges start).1
      = ((bfPass edges)^[g.length - 1] (dpInit start)).1 := rfl
  rw [hbf]
  have hsound := iterate_bfPass_sound g edges start hfe.1 (g.length - 1)
  have hmin : ∀ es, IsWalk g start es v →
      leOpt (((bfPass edges)^[g.length - 1] (dpInit start)).1 v) (some (wsum es)) := by
    intro es hw
    obtain ⟨es', hw', hsimp', hwle, -⟩ := IsWalk.to_simple hnn es start v hw
    have hlen := hsimp'.length_lt hwf hw' hs
    have hkeys : (keysG g).length = g.length := by
      unfold keysG
      rw [List.length_map]
    have hb := bf_le_walk g edges start hfe.2 (g.length - 1) es' v hw' (by omega)
    refine leOpt_trans hb ?_
    show wsum es' ≤ wsum es
    exact hwle
  cases hdv : ((bfPass edges)^[g.length - 1] (dpInit start)).1 v with
  | none =>
    intro hr
    obtain ⟨es, hw⟩ := hr
    have hle := hmin es hw
    rw [hdv] at hle
    exact hle
  | some d =>
    refine ⟨hsound v d hdv, fun es hw => ?_⟩
    have hle := hmin es hw
    rw [hdv] at hle
    exact hle

/-- A least distance value is unique. -/
theorem IsLeastDist.agree {g : Graph} {start v : Node} {o₁ o₂ : Option Int}
    (h₁ : IsLeastDist g start v o₁) (h₂ : IsLeastDist g start v o₂) : o₁ = o₂ := by
  cases o₁ with
  | none =>
    cases o₂ with
    | none => rfl
    | some d₂ =>
      obtain ⟨⟨es, hw, -⟩, -⟩ := h₂
      exact absurd ⟨es, hw⟩ h₁
  | some d₁ =>
    cases o₂ with
    | none =>
      obtain ⟨⟨es, hw, -⟩, -⟩ := h₁
      exact absurd ⟨es, hw⟩ h₂
    | some d₂ =>
      obtain ⟨⟨es₁, hw₁, hws₁⟩, hm₁⟩ := h₁
      obtain ⟨⟨es₂, hw₂, hws₂⟩, hm₂⟩ := h₂
      have ha := hm₁ es₂ hw₂
      have hb := hm₂ es₁ hw₁
      have hd : d₁ = d₂ := by omega
      rw [hd]

/-- If the distance table is already least over all walks, the extra
negative-cycle pass finds no relaxable edge. -/
theorem negCheck_false_of_least (g : Graph) (edges : List (Node × Node × Int))
    (start : Node) {dist : Node → Option Int}
    (hel : ∀ e ∈ edges, (e.2.1, e.2.2) ∈ adj g e.1)
    (hleast : ∀ v, IsLeastDist g start v (dist v)) :
    negCheck edges dist = false := by
  unfold negCheck
  rw [List.any_eq_false]
  intro e he
  cases hdu : dist e.1 with
  | none => simp
  | some du =>
    dsimp only
    intro hlt
    have h1 := hleast e.1
    rw [hdu] at h1
    obtain ⟨⟨es, hw, hws⟩, -⟩ := h1
    have hw' : IsWalk g start (es ++ [(e.1, e.2.1, e.2.2)]) e.2.1 :=
      hw.append ⟨rfl, hel e he, rfl⟩
    rcases ltD_iff.mp hlt with hn | ⟨x, hx, hlt'⟩
    · have h2 := hleast e.2.1
      rw [hn] at h2
      exact h2 ⟨_, hw'⟩
    · have h2 := hleast e.2.1
      rw [hx] at h2
      obtain ⟨-, hmin⟩ := h2
      have h3 := hmin _ hw'
      rw [wsum_append, wsum_cons, wsum_nil] at h3
      dsimp only at h3
      omega

/-- Claim C3: on every well-formed graph with non-negative edge weights, with
`edges` the flat edge list of the graph and the source a node of the graph,
`bellman_ford(graph, edges, source)` returns the same distance table as
`dijkstra(graph, source)` and reports `has_negative_cycle = False`. -/
theorem bellman_ford_eq_dijkstra (g : Graph) (edges : List (Node × Node × Int))
    (start : Node) (hwf : GraphWF g) (hnn : Nonneg g) (hfe : FlatEdges g edges)
    (hs : start ∈ keysG g) :
    (∀ v, (bellman_ford g edges start).1 v = (dijkstra g start).1 v) ∧
    (bellman_ford g edges start).2.2 = false := by
  have hb := bellman_ford_least g edges start hwf hnn hfe hs
  have hd := (dijkstra_least g start hwf hnn hs).1
  constructor
  · intro v
    exact IsLeastDist.agree (hb v) (hd v)
  · have hflag : (bellman_ford g edges start).2.2
        = negCheck edges (bellman_ford g edges start).1 := rfl
    rw [hflag]
    exact negCheck_false_of_least g edges start hfe.1 hb

/-- The flat edge list of `ex1Graph`. -/
def ex1Edges : List (Node × Node × Int) :=
  [(0, 1, 1), (0, 2, 5), (1, 0, 1), (1, 2, 2), (2, 0, 5), (2, 1, 2)]

theorem bellman_ford_eq_dijkstra_witness :
    (∀ v, (bellman_ford ex1Graph ex1Edges 0).1 v = (dijkstra ex1Graph 0).1 v) ∧
    (bellman_ford ex1Graph ex1Edges 0).2.2 = false :=
  bellman_ford_eq_dijkstra ex1Graph ex1Edges 0 ⟨by decide, by decide⟩
    (nonneg_of_ball (by decide)) ⟨by decide, by decide⟩ (by decide)

/-! ## kruskal.py: undirected reachability over an edge list

`kruskal(nodes, edges)` works on an undirected graph given as a node list and
a list of `(from, to, weight)` tuples.  `EReach L` is the specification-side
connectivity relation generated by the edge list `L` (each tuple usable in
both directions). -/

/-- One undirected edge of the list joins `x` and `y`. -/
def EAdj (L : List (Node × Node × Int)) (x y : Node) : Prop :=
  ∃ w, (x, y, w) ∈ L ∨ (y, x, w) ∈ L

/-- Connectivity: reflexive-transitive closure of `EAdj L`. -/
inductive EReach (L : List (Node × Node × Int)) : Node → Node → Prop where
  | refl (x : Node) : EReach L x x
  | tail {x y z : Node} : EReach L x y → EAdj L y z → EReach L x z

theorem EAdj.swap {L : List (Node × Node × Int)} {x y : Node}
    (h : EAdj L x y) : EAdj L y x := by
  obtain ⟨w, h | h⟩ := h
  · exact ⟨w, Or.inr h⟩
  · exact ⟨w, Or.inl h⟩

theorem EReach.link {L : List (Node × Node × Int)} {x y z : Node}
    (h₁ : EReach L x y) (h₂ : EReach L y z) : EReach L x z := by
  induction h₂ with
  | refl => exact h₁
  | tail _ a ih => exact EReach.tail ih a

theorem EReach.single {L : List (Node × Node × Int)} {x y : Node}
    (h : EAdj L x y) : EReach L x y := EReach.tail (EReach.refl x) h

theorem EReach.rev {L : List (Node × Node × Int)} {x y : Node}
    (h : EReach L x y) : EReach L y x := by
  induction h with
  | refl => exact EReach.refl _
  | tail _ a ih => exact EReach.link (EReach.single a.swap) ih

theorem EReach.mono {L L' : List (Node × Node × Int)} (hsub : ∀ e ∈ L, e ∈ L')
    {x y : Node} (h : EReach L x y) : EReach L' x y := by
  induction h with
  | refl => exact EReach.refl _
  | tail _ a ih =>
    obtain ⟨w, hm | hm⟩ := a
    · exact EReach.tail ih ⟨w, Or.inl (hsub _ hm)⟩
    · exact EReach.tail ih ⟨w, Or.inr (hsub _ hm)⟩

theorem EReach_nil {x y : Node} (h : EReach [] x y) : x = y := by
  induction h with
  | refl => rfl
  | tail _ a _ =>
    obtain ⟨w, hm | hm⟩ := a
    · exact absurd hm (List.not_mem_nil _)
    · exact absurd hm (List.not_mem_nil _)

theorem EReach_nil_iff {x y : Node} : EReach [] x y ↔ x = y := by
  constructor
  · exact EReach_nil
  · rintro rfl
    exact EReach.refl x

/-- A relation closed under the edges of `L` absorbs connectivity over `L`. -/
theorem EReach.absorb {L : List (Node × Node × Int)} {R : Node → Node → Prop}
    (hrefl : ∀ x, R x x) (hsymm : ∀ {x y : Node}, R x y → R y x)
    (htrans : ∀ {x y z : Node}, R x y → R y z → R x z)
    (hedge : ∀ e ∈ L, R e.1 e.2.1) {x y : Node} (h : EReach L x y) : R x y := by
  induction h with
  | refl => exact hrefl _
  | tail _ a ih =>
    obtain ⟨w, hm | hm⟩ := a
    · exact htrans ih (hedge _ hm)
    · exact htrans ih (hsymm (hedge _ hm))

/-- Appending one edge `(u, v, w)` merges the components of `u` and `v` and
changes nothing else. -/
theorem EReach_snoc {L : List (Node × Node × Int)} {u v : Node} {w : Int}
    {x y : Node} (h : EReach (L ++ [(u, v, w)]) x y) :
    EReach L x y ∨ (EReach L x u ∧ EReach L v y) ∨ (EReach L x v ∧ EReach L u y) := by
  induction h with
  | refl => exact Or.inl (EReach.refl _)
  | @tail b c hprev a ih =>
    have key : EAdj L b c ∨ (b = u ∧ c = v) ∨ (b = v ∧ c = u) := by
      obtain ⟨w', hm | hm⟩ := a
      · rcases List.mem_append.mp hm with hm | hm
        · exact Or.inl ⟨w', Or.inl hm⟩
        · have he := List.mem_singleton.mp hm
          rw [Prod.mk.injEq, Prod.mk.injEq] at he
          exact Or.inr (Or.inl ⟨he.1, he.2.1⟩)
      · rcases List.mem_append.mp hm with hm | hm
        · exact Or.inl ⟨w', Or.inr hm⟩
        · have he := List.mem_singleton.mp hm
          rw [Prod.mk.injEq, Prod.mk.injEq] at he
          exact Or.inr (Or.inr ⟨he.2.1, he.1⟩)
    rcases key with hadj | ⟨hb, hc⟩ | ⟨hb, hc⟩
    · have hbc := EReach.single hadj
      rcases ih with h1 | ⟨h1, h2⟩ | ⟨h1, h2⟩
      · exact Or.inl (h1.link hbc)
      · exact Or.inr (Or.inl ⟨h1, h2.link hbc⟩)
      · exact Or.inr (Or.inr ⟨h1, h2.link hbc⟩)
    · rw [hb] at ih
      rw [hc]
      rcases ih with h1 | ⟨h1, h2⟩ | ⟨h1, h2⟩
      · exact Or.inr (Or.inl ⟨h1, EReach.refl v⟩)
      · exact Or.inr (Or.inl ⟨h1, EReach.refl v⟩)
      · exact Or.inl h1
    · rw [hb] at ih
      rw [hc]
      rcases ih with h1 | ⟨h1, h2⟩ | ⟨h1, h2⟩
      · exact Or.inr (Or.inr ⟨h1, EReach.refl u⟩)
      · exact Or.inl h1
      · exact Or.inr (Or.inr ⟨h1, EReach.refl u⟩)

theorem EReach_snoc_iff {L : List (Node × Node × Int)} {u v : Node} {w : Int}
    {x y : Node} :
    EReach (L ++ [(u, v, w)]) x y ↔
      (EReach L x y ∨ (EReach L x u ∧ EReach L v y) ∨ (EReach L x v ∧ EReach L u y)) := by
  have hL : ∀ e ∈ L, e ∈ L ++ [(u, v, w)] := fun e he => List.mem_append_left _ he
  have hedge : EReach (L ++ [(u, v, w)]) u v :=
    EReach.single ⟨w, Or.inl (List.mem_append_right _ (List.mem_singleton_self _))⟩
  constructor
  · exact EReach_snoc
  · rintro (h | ⟨h1, h2⟩ | ⟨h1, h2⟩)
    · exact h.mono hL
    · exact ((h1.mono hL).link hedge).link (h2.mono hL)
    · exact ((h1.mono hL).link hedge.rev).link (h2.mono hL)

/-! ### Counting equivalence classes on the node list -/

/-- The class of `x` under the relation `R`, restricted to the node list. -/
def eclass (nodes : List Node) (R : Node → Node → Prop) (x : Node) : Set Node :=
  {y | y ∈ nodes ∧ R x y}

/-- The set of classes of members of the node list; its `Set.ncard` is the
number of connected components when `R` is a connectivity relation. -/
def classesOf (nodes : List Node) (R : Node → Node → Prop) : Set (Set Node) :=
  eclass nodes R '' {x | x ∈ nodes}

/-- `R` restricted to the node list is an equivalence. -/
structure IsEquivOn (nodes : List Node) (R : Node → Node → Prop) : Prop where
  refl : ∀ x ∈ nodes, R x x
  symm : ∀ {x y : Node}, R x y → R y x
  trans : ∀ {x y z : Node}, R x y → R y z → R x z

theorem EReach_equivOn (nodes : List Node) (L : List (Node × Node × Int)) :
    IsEquivOn nodes (EReach L) :=
  ⟨fun x _ => EReach.refl x, fun h => h.rev, fun h₁ h₂ => h₁.link h₂⟩

theorem classesOf_finite (nodes : List Node) (R : Node → Node → Prop) :
    (classesOf nodes R).Finite :=
  Set.Finite.image _ (List.finite_toSet nodes)

theorem eclass_mem {nodes : List Node} {R : Node → Node → Prop} {x : Node}
    (hx : x ∈ nodes) : eclass nodes R x ∈ classesOf nodes R :=
  ⟨x, hx, rfl⟩

theorem eclass_eq_iff {nodes : List Node} {R : Node → Node → Prop}
    (hE : IsEquivOn nodes R) {x y : Node} (hx : x ∈ nodes) (hy : y ∈ nodes) :
    eclass nodes R x = eclass nodes R y ↔ R x y := by
  constructor
  · intro h
    have hyy : y ∈ eclass nodes R y := ⟨hy, hE.refl y hy⟩
    rw [← h] at hyy
    exact hyy.2
  · intro h
    ext z
    simp only [eclass, Set.mem_setOf_eq]
    constructor
    · rintro ⟨hz, hxz⟩
      exact ⟨hz, hE.trans (hE.symm h) hxz⟩
    · rintro ⟨hz, hyz⟩
      exact ⟨hz, hE.trans h hyz⟩

theorem classesOf_congr {nodes : List Node} {R R' : Node → Node → Prop}
    (h : ∀ x ∈ nodes, ∀ y ∈ nodes, (R x y ↔ R' x y)) :
    classesOf nodes R = classesOf nodes R' := by
  unfold classesOf
  apply Set.image_congr
  intro x hx
  ext z
  simp only [eclass, Set.mem_setOf_eq]
  constructor
  · rintro ⟨hz, hr⟩
    exact ⟨hz, (h x hx z hz).mp hr⟩
  · rintro ⟨hz, hr⟩
    exact ⟨hz, (h x hx z hz).mpr hr⟩

/-- Under the discrete relation every node is its own class. -/
theorem classesOf_eq_card (nodes : List Node) :
    (classesOf nodes (fun a b => a = b)).ncard = nodes.toFinset.card := by
  have himg : classesOf nodes (fun a b => a = b)
      = (fun x => ({x} : Set Node)) '' {x | x ∈ nodes} := by
    unfold classesOf
    apply Set.image_congr
    intro x hx
    ext z
    simp only [eclass, Set.mem_setOf_eq, Set.mem_singleton_iff]
    constructor
    · rintro ⟨hz, h⟩
      exact h.symm
    · intro h
      exact ⟨h ▸ hx, h.symm⟩
  rw [himg, Set.ncard_image_of_injective _ Set.singleton_injective,
    ← List.coe_toFinset, Set.ncard_coe_Finset]

/-- If all nodes are related there is exactly one class. -/
theorem classesOf_all_one {nodes : List Node} {R : Node → Node → Prop} {x₀ : Node}
    (hne : x₀ ∈ nodes) (hE : IsEquivOn nodes R)
    (hall : ∀ x ∈ nodes, ∀ y ∈ nodes, R x y) :
    (classesOf nodes R).ncard = 1 := by
  have hsingle : classesOf nodes R = {eclass nodes R x₀} := by
    ext s
    constructor
    · rintro ⟨x, hx, rfl⟩
      rw [Set.mem_singleton_iff]
      exact (eclass_eq_iff hE hx hne).mpr (hall x hx x₀ hne)
    · intro h
      rw [Set.mem_singleton_iff] at h
      rw [h]
      exact eclass_mem hne
  rw [hsingle, Set.ncard_singleton]

/-- Conversely, a single class relates all nodes. -/
theorem classesOf_one_all {nodes : List Node} {R : Node → Node → Prop}
    (hE : IsEquivOn nodes R) (h1 : (classesOf nodes R).ncard = 1) :
    ∀ x ∈ nodes, ∀ y ∈ nodes, R x y := by
  obtain ⟨a, ha⟩ := Set.ncard_eq_one.mp h1
  intro x hx y hy
  have h1x : eclass nodes R x ∈ classesOf nodes R := eclass_mem hx
  have h1y : eclass nodes R y ∈ classesOf nodes R := eclass_mem hy
  rw [ha, Set.mem_singleton_iff] at h1x h1y
  exact (eclass_eq_iff hE hx hy).mp (h1x.trans h1y.symm)

/-- A coarser relation has at most as many classes. -/
theorem classesOf_le_of_imp {nodes : List Node} {P Q : Node → Node → Prop}
    (hP : IsEquivOn nodes P) (hQ : IsEquivOn nodes Q)
    (himp : ∀ x ∈ nodes, ∀ y ∈ nodes, P x y → Q x y) :
    (classesOf nodes Q).ncard ≤ (classesOf nodes P).ncard := by
  have himg : classesOf nodes Q
      = (fun s => {y | y ∈ nodes ∧ ∃ x ∈ nodes, x ∈ s ∧ Q x y}) ''
          classesOf nodes P := by
    unfold classesOf
    rw [← Set.image_comp]
    apply Set.image_congr
    intro x hx
    show eclass nodes Q x = {y | y ∈ nodes ∧ ∃ z ∈ nodes, z ∈ eclass nodes P x ∧ Q z y}
    ext y
    simp only [eclass, Set.mem_setOf_eq]
    constructor
    · rintro ⟨hy, hq⟩
      exact ⟨hy, x, hx, ⟨hx, hP.refl x hx⟩, hq⟩
    · rintro ⟨hy, z, hz, ⟨-, hpz⟩, hq⟩
      exact ⟨hy, hQ.trans (himp x hx z hz hpz) hq⟩
  rw [himg]
  exact Set.ncard_image_le (classesOf_finite nodes P)

/-- Merging the classes of two nodes removes at most one class. -/
theorem classesOf_merge_le {nodes : List Node} {P Q : Node → Node → Prop}
    {u v : Node} (hP : IsEquivOn nodes P) (hQ : IsEquivOn nodes Q)
    (hu : u ∈ nodes) (hv : v ∈ nodes)
    (hmerge : ∀ x ∈ nodes, ∀ y ∈ nodes,
      (Q x y ↔ P x y ∨ (P x u ∧ P v y) ∨ (P x v ∧ P u y))) :
    (classesOf nodes P).ncard ≤ (classesOf nodes Q).ncard + 1 := by
  by_cases hPuv : P u v
  · have heq : ∀ x ∈ nodes, ∀ y ∈ nodes, (Q x y ↔ P x y) := by
      intro x hx y hy
      rw [hmerge x hx y hy]
      constructor
      · rintro (h | ⟨h1, h2⟩ | ⟨h1, h2⟩)
        · exact h
        · exact hP.trans h1 (hP.trans hPuv h2)
        · exact hP.trans h1 (hP.trans (hP.symm hPuv) h2)
      · exact Or.inl
    rw [classesOf_congr heq]
    omega
  · have hQu : ∀ x ∈ nodes, (Q x u ↔ P x u ∨ P x v) := by
      intro x hx
      rw [hmerge x hx u hu]
      constructor
      · rintro (h | ⟨h1, -⟩ | ⟨h1, -⟩)
        · exact Or.inl h
        · exact Or.inl h1
        · exact Or.inr h1
      · rintro (h | h)
        · exact Or.inl h
        · exact Or.inr (Or.inr ⟨h, hP.refl u hu⟩)
    have hsub : classesOf nodes P ⊆
        (classesOf nodes Q \ {eclass nodes Q u}) ∪
          {eclass nodes P u, eclass nodes P v} := by
      rintro s ⟨x, hx, rfl⟩
      by_cases hxu : P x u
      · refine Or.inr ?_
        rw [(eclass_eq_iff hP hx hu).mpr hxu]
        exact Set.mem_insert _ _
      · by_cases hxv : P x v
        · refine Or.inr ?_
          rw [(eclass_eq_iff hP hx hv).mpr hxv]
          exact Set.mem_insert_iff.mpr (Or.inr rfl)
        · have hPQ : eclass nodes P x = eclass nodes Q x := by
            ext y
            simp only [eclass, Set.mem_setOf_eq]
            constructor
            · rintro ⟨hy, hp⟩
              exact ⟨hy, (hmerge x hx y hy).mpr (Or.inl hp)⟩
            · rintro ⟨hy, hq⟩
              rcases (hmerge x hx y hy).mp hq with h | ⟨h1, -⟩ | ⟨h1, -⟩
              · exact ⟨hy, h⟩
              · exact absurd h1 hxu
              · exact absurd h1 hxv
          refine Or.inl ⟨?_, ?_⟩
          · rw [hPQ]
            exact eclass_mem hx
          · rw [hPQ, Set.mem_singleton_iff]
            intro hc
            have hQxu := (eclass_eq_iff hQ hx hu).mp hc
            rcases (hQu x hx).mp hQxu with h | h
            · exact hxu h
            · exact hxv h
    have h1 := Set.ncard_le_ncard hsub
      (Set.Finite.union ((classesOf_finite nodes Q).diff _)
        ((Set.finite_singleton _).insert _))
    have h2 := Set.ncard_union_le (classesOf nodes Q \ {eclass nodes Q u})
      {eclass nodes P u, eclass nodes P v}
    have h3 := Set.ncard_diff_singleton_add_one (eclass_mem hu)
      (classesOf_finite nodes Q)
    have h4 := Set.ncard_insert_le (eclass nodes P u) ({eclass nodes P v} : Set (Set Node))
    rw [Set.ncard_singleton] at h4
    omega

/-- Merging the classes of two unrelated nodes removes exactly one class. -/
theorem classesOf_merge_eq {nodes : List Node} {P Q : Node → Node → Prop}
    {u v : Node} (hP : IsEquivOn nodes P) (hQ : IsEquivOn nodes Q)
    (hu : u ∈ nodes) (hv : v ∈ nodes)
    (hmerge : ∀ x ∈ nodes, ∀ y ∈ nodes,
      (Q x y ↔ P x y ∨ (P x u ∧ P v y) ∨ (P x v ∧ P u y)))
    (hnPuv : ¬ P u v) :
    (classesOf nodes Q).ncard + 1 = (classesOf nodes P).ncard := by
  have hQu : ∀ x ∈ nodes, (Q x u ↔ P x u ∨ P x v) := by
    intro x hx
    rw [hmerge x hx u hu]
    constructor
    · rintro (h | ⟨h1, -⟩ | ⟨h1, -⟩)
      · exact Or.inl h
      · exact Or.inl h1
      · exact Or.inr h1
    · rintro (h | h)
      · exact Or.inl h
      · exact Or.inr (Or.inr ⟨h, hP.refl u hu⟩)
  have hPQ : ∀ x ∈ nodes, ¬ P x u → ¬ P x v →
      eclass nodes P x = eclass nodes Q x := by
    intro x hx hxu hxv
    ext y
    simp only [eclass, Set.mem_setOf_eq]
    constructor
    · rintro ⟨hy, hp⟩
      exact ⟨hy, (hmerge x hx y hy).mpr (Or.inl hp)⟩
    · rintro ⟨hy, hq⟩
      rcases (hmerge x hx y hy).mp hq with h | ⟨h1, -⟩ | ⟨h1, -⟩
      · exact ⟨hy, h⟩
      · exact absurd h1 hxu
      · exact absurd h1 hxv
  have hkey : classesOf nodes Q \ {eclass nodes Q u}
      = classesOf nodes P \ {eclass nodes P u, eclass nodes P v} := by
    ext s
    constructor
    · rintro ⟨⟨x, hx, rfl⟩, hne⟩
      rw [Set.mem_singleton_iff] at hne
      have hnq : ¬ Q x u := fun hq => hne ((eclass_eq_iff hQ hx hu).mpr hq)
      have hxu : ¬ P x u := fun hp => hnq ((hQu x hx).mpr (Or.inl hp))
      have hxv : ¬ P x v := fun hp => hnq ((hQu x hx).mpr (Or.inr hp))
      refine ⟨?_, ?_⟩
      · rw [← hPQ x hx hxu hxv]
        exact eclass_mem hx
      · rw [← hPQ x hx hxu hxv, Set.mem_insert_iff, Set.mem_singleton_iff]
        rintro (hc | hc)
        · exact hxu ((eclass_eq_iff hP hx hu).mp hc)
        · exact hxv ((eclass_eq_iff hP hx hv).mp hc)
    · rintro ⟨⟨x, hx, rfl⟩, hne⟩
      rw [Set.mem_insert_iff, Set.mem_singleton_iff] at hne
      have hxu : ¬ P x u := fun hp => hne (Or.inl ((eclass_eq_iff hP hx hu).mpr hp))
      have hxv : ¬ P x v := fun hp => hne (Or.inr ((eclass_eq_iff hP hx hv).mpr hp))
      refine ⟨?_, ?_⟩
      · rw [hPQ x hx hxu hxv]
        exact eclass_mem hx
      · rw [hPQ x hx hxu hxv, Set.mem_singleton_iff]
        intro hc
        rcases (hQu x hx).mp ((eclass_eq_iff hQ hx hu).mp hc) with h | h
        · exact hxu h
        · exact hxv h
  have h2 := Set.ncard_diff_singleton_add_one (eclass_mem hu)
    (classesOf_finite nodes Q)
  have h3 := Set.ncard_diff_singleton_add_one (eclass_mem (R := P) hu)
    (classesOf_finite nodes P)
  have hvmem : eclass nodes P v ∈ classesOf nodes P \ {eclass nodes P u} := by
    refine ⟨eclass_mem hv, ?_⟩
    rw [Set.mem_singleton_iff]
    intro hc
    exact hnPuv (hP.symm ((eclass_eq_iff hP hv hu).mp hc))
  have h4 := Set.ncard_diff_singleton_add_one hvmem
    ((classesOf_finite nodes P).diff _)
  have hdd : (classesOf nodes P \ {eclass nodes P u}) \ {eclass nodes P v}
      = classesOf nodes P \ ({eclass nodes P u, eclass nodes P v} : Set (Set Node)) := by
    rw [Set.diff_diff, Set.singleton_union]
  rw [hdd] at h4
  rw [hkey] at h2
  omega

/-! ### Semantic view of union-find states: the same-root relation -/

/-- Two nodes lie in the same disjoint set: their parent chains share a root. -/
def SameRoot (p : Node → Node) (x y : Node) : Prop :=
  ∃ r, RootedTo p x r ∧ RootedTo p y r

theorem SameRoot.comm {p : Node → Node} {x y : Node} (h : SameRoot p x y) :
    SameRoot p y x := by
  obtain ⟨r, h1, h2⟩ := h
  exact ⟨r, h2, h1⟩

theorem SameRoot.chain {p : Node → Node} {x y z : Node}
    (h₁ : SameRoot p x y) (h₂ : SameRoot p y z) : SameRoot p x z := by
  obtain ⟨r, h1, h2⟩ := h₁
  obtain ⟨s, h3, h4⟩ := h₂
  obtain rfl := h2.unique h3
  exact ⟨r, h1, h4⟩

theorem PWF.sameRoot_refl {elems : List Node} {p : Node → Node}
    (h : PWF elems p) (x : Node) : SameRoot p x x := by
  obtain ⟨r, hr⟩ := h.1 x
  exact ⟨r, hr, hr⟩

theorem PWF.sameRoot_equivOn {elems : List Node} {p : Node → Node}
    (h : PWF elems p) (nodes : List Node) : IsEquivOn nodes (SameRoot p) :=
  ⟨fun x _ => h.sameRoot_refl x, fun h' => h'.comm, fun h₁ h₂ => h₁.chain h₂⟩

theorem sameRoot_congr {p q : Node → Node}
    (h : ∀ z s, RootedTo p z s ↔ RootedTo q z s) (a c : Node) :
    SameRoot p a c ↔ SameRoot q a c :=
  exists_congr fun r => and_congr (h a r) (h c r)

theorem SameRoot.of_rootedTo {p : Node → Node} {x r : Node} (h : RootedTo p x r) :
    SameRoot p x r := ⟨r, h, RootedTo.refl p h.1⟩

/-- Roots of a parent map after hanging the root `rb` under the root `ra`. -/
theorem attach_rootedTo_iff {p : Node → Node} {ra rb : Node}
    (hex : ∀ z, ∃ s, RootedTo p z s) (hra : p ra = ra) (hrb : p rb = rb)
    (hne : rb ≠ ra) :
    ∀ (x r : Node), RootedTo (fun z => if z = rb then ra else p z) x r ↔
      ((RootedTo p x r ∧ r ≠ rb) ∨ (RootedTo p x rb ∧ r = ra)) := by
  set p' := fun z => if z = rb then ra else p z with hp'
  have hra' : p' ra = ra := by
    rw [hp']
    dsimp only
    rw [if_neg (fun hc => hne hc.symm)]
    exact hra
  have t1 : ∀ (k : Nat) (y s : Node), p s = s → s ≠ rb → p^[k] y = s →
      RootedTo p' y s := by
    intro k
    induction k with
    | zero =>
      intro y s hs hsrb hk
      obtain rfl : y = s := hk
      refine ⟨?_, 0, rfl⟩
      rw [hp']
      dsimp only
      rw [if_neg hsrb]
      exact hs
    | succ k ih =>
      intro y s hs hsrb hk
      rw [Function.iterate_succ_apply] at hk
      by_cases hyrb : y = rb
      · exfalso
        rw [hyrb, hrb, Function.iterate_fixed hrb] at hk
        exact hsrb hk.symm
      · have hnext := ih (p y) s hs hsrb hk
        have hpy : p' y = p y := by
          rw [hp']
          dsimp only
          rw [if_neg hyrb]
        exact RootedTo.of_parent (by rw [hpy]; exact hnext)
  have t2 : ∀ (k : Nat) (y : Node), p^[k] y = rb → RootedTo p' y ra := by
    intro k
    induction k with
    | zero =>
      intro y hk
      obtain rfl : rb = y := Eq.symm hk
      refine ⟨hra', 1, ?_⟩
      show p' rb = ra
      rw [hp']
      dsimp only
      rw [if_pos rfl]
    | succ k ih =>
      intro y hk
      rw [Function.iterate_succ_apply] at hk
      by_cases hyrb : y = rb
      · rw [hyrb]
        refine ⟨hra', 1, ?_⟩
        show p' rb = ra
        rw [hp']
        dsimp only
        rw [if_pos rfl]
      · have hnext := ih (p y) hk
        have hpy : p' y = p y := by
          rw [hp']
          dsimp only
          rw [if_neg hyrb]
        exact RootedTo.of_parent (by rw [hpy]; exact hnext)
  intro x r
  constructor
  · intro h
    obtain ⟨s, hs⟩ := hex x
    obtain ⟨hss, k, hk⟩ := hs
    by_cases hsrb : s = rb
    · have h2 : RootedTo p' x ra := t2 k x (by rw [← hsrb]; exact hk)
      have hr : r = ra := RootedTo.unique h h2
      refine Or.inr ⟨⟨hrb, k, ?_⟩, hr⟩
      rw [← hsrb]
      exact hk
    · have h1 : RootedTo p' x s := t1 k x s hss hsrb hk
      have hr : r = s := RootedTo.unique h h1
      subst hr
      exact Or.inl ⟨⟨hss, k, hk⟩, hsrb⟩
  · rintro (⟨hxr, hrrb⟩ | ⟨hxrb, rfl⟩)
    · obtain ⟨hrr, k, hk⟩ := hxr
      exact t1 k x r hrr hrrb hk
    · obtain ⟨-, k, hk⟩ := hxrb
      exact t2 k x hk

/-- Same-root relation after hanging the root `rb` under the root `ra`: the
two classes merge and nothing else changes. -/
theorem attach_sameRoot_iff {p : Node → Node} {ra rb : Node}
    (hex : ∀ z, ∃ s, RootedTo p z s) (hra : p ra = ra) (hrb : p rb = rb)
    (hne : rb ≠ ra) (a c : Node) :
    SameRoot (fun z => if z = rb then ra else p z) a c ↔
      (SameRoot p a c ∨
        ((SameRoot p a ra ∨ SameRoot p a rb) ∧ (SameRoot p c ra ∨ SameRoot p c rb))) := by
  have hiff := attach_rootedTo_iff hex hra hrb hne
  constructor
  · rintro ⟨r, h1, h2⟩
    rcases (hiff a r).mp h1 with ⟨ha, -⟩ | ⟨ha, hr⟩
    · rcases (hiff c r).mp h2 with ⟨hc, -⟩ | ⟨hc, hr⟩
      · exact Or.inl ⟨r, ha, hc⟩
      · rw [hr] at ha
        exact Or.inr ⟨Or.inl (SameRoot.of_rootedTo ha),
          Or.inr (SameRoot.of_rootedTo hc)⟩
    · rw [hr] at h2
      rcases (hiff c ra).mp h2 with ⟨hc, -⟩ | ⟨hc, -⟩
      · exact Or.inr ⟨Or.inr (SameRoot.of_rootedTo ha),
          Or.inl (SameRoot.of_rootedTo hc)⟩
      · exact Or.inr ⟨Or.inr (SameRoot.of_rootedTo ha),
          Or.inr (SameRoot.of_rootedTo hc)⟩
  · have toRa : ∀ z, (SameRoot p z ra ∨ SameRoot p z rb) →
        RootedTo (fun w => if w = rb then ra else p w) z ra := by
      intro z hz
      rcases hz with ⟨r, h1, h2⟩ | ⟨r, h1, h2⟩
      · have hr := h2.unique (RootedTo.refl p hra)
        rw [hr] at h1
        exact (hiff z ra).mpr (Or.inl ⟨h1, fun hc => hne hc.symm⟩)
      · have hr := h2.unique (RootedTo.refl p hrb)
        rw [hr] at h1
        exact (hiff z ra).mpr (Or.inr ⟨h1, rfl⟩)
    rintro (⟨r, h1, h2⟩ | ⟨ha, hc⟩)
    · by_cases hrrb : r = rb
      · subst hrrb
        exact ⟨ra, (hiff a ra).mpr (Or.inr ⟨h1, rfl⟩),
          (hiff c ra).mpr (Or.inr ⟨h2, rfl⟩)⟩
      · exact ⟨r, (hiff a r).mpr (Or.inl ⟨h1, hrrb⟩),
          (hiff c r).mpr (Or.inl ⟨h2, hrrb⟩)⟩
    · exact ⟨ra, toRa a ha, toRa c hc⟩

/-- `connected` on a well-formed state: it preserves well-formedness and every
root, and its Boolean answer is the same-root relation. -/
theorem connected_semantics {elems : List Node} {uf uf₂ : UnionFind} {x y : Node}
    {b : Bool} (h : PWF elems uf.parent)
    (hc : uf.connected (elems.length + 1) x y = some (uf₂, b)) :
    PWF elems uf₂.parent ∧ (∀ z s, RootedTo uf.parent z s ↔ RootedTo uf₂.parent z s) ∧
      (b = true ↔ SameRoot uf.parent x y) := by
  unfold UnionFind.connected at hc
  cases hfx : uf.find (elems.length + 1) x with
  | none =>
    rw [hfx] at hc
    exact absurd hc (by simp)
  | some pr =>
    obtain ⟨uf₁, rootX⟩ := pr
    rw [hfx] at hc
    dsimp only at hc
    cases hfy : uf₁.find (elems.length + 1) y with
    | none =>
      rw [hfy] at hc
      exact absurd hc (by simp)
    | some pr₂ =>
      obtain ⟨uf₂', rootY⟩ := pr₂
      rw [hfy] at hc
      dsimp only at hc
      have h' := Option.some.inj hc
      rw [Prod.mk.injEq] at h'
      obtain ⟨heq, hb⟩ := h'
      subst heq
      obtain ⟨hrX, -, hiff1, -⟩ := UnionFind.find_spec hfx
      obtain ⟨hrY, -, hiff2, -⟩ := UnionFind.find_spec hfy
      have hrYuf : RootedTo uf.parent y rootY := (hiff1 y rootY).mpr hrY
      refine ⟨(h.find_preserve hfx).find_preserve hfy,
        fun z s => (hiff1 z s).trans (hiff2 z s), ?_⟩
      rw [← hb, beq_iff_eq]
      constructor
      · intro hRR
        exact ⟨rootX, hrX, hRR ▸ hrYuf⟩
      · rintro ⟨r, h1, h2⟩
        rw [hrX.unique h1, hrYuf.unique h2]

/-- `connected` cannot run out of fuel on a well-formed state. -/
theorem connected_isSome {elems : List Node} {uf : UnionFind}
    (h : PWF elems uf.parent) (x y : Node) :
    ∃ uf₂ b, uf.connected (elems.length + 1) x y = some (uf₂, b) := by
  obtain ⟨uf₁, rX, hfx⟩ := h.find_isSome x
  obtain ⟨uf₂, rY, hfy⟩ := (h.find_preserve hfx).find_isSome y
  refine ⟨uf₂, rX == rY, ?_⟩
  unfold UnionFind.connected
  rw [hfx]
  dsimp only
  rw [hfy]

/-- `union` on a well-formed state, described through the same-root relation:
a `False` answer leaves the partition unchanged, a `True` answer merges the
classes of the two arguments and changes nothing else. -/
theorem union_sameRoot {elems : List Node} {uf uf' : UnionFind} {x y : Node}
    {b : Bool} (h : PWF elems uf.parent)
    (hu : uf.union (elems.length + 1) x y = some (uf', b)) :
    (b = false → SameRoot uf.parent x y ∧
      ∀ a c, SameRoot uf'.parent a c ↔ SameRoot uf.parent a c) ∧
    (b = true → ¬ SameRoot uf.parent x y ∧
      ∀ a c, SameRoot uf'.parent a c ↔
        (SameRoot uf.parent a c ∨
          (SameRoot uf.parent a x ∧ SameRoot uf.parent y c) ∨
          (SameRoot uf.parent a y ∧ SameRoot uf.parent x c))) := by
  unfold UnionFind.union at hu
  cases hfx : uf.find (elems.length + 1) x with
  | none =>
    rw [hfx] at hu
    exact absurd hu (by simp)
  | some pr =>
    obtain ⟨uf₁, rootX⟩ := pr
    rw [hfx] at hu
    dsimp only at hu
    cases hfy : uf₁.find (elems.length + 1) y with
    | none =>
      rw [hfy] at hu
      exact absurd hu (by simp)
    | some pr₂ =>
      obtain ⟨uf₂, rootY⟩ := pr₂
      rw [hfy] at hu
      dsimp only at hu
      obtain ⟨hrX, -, hiff1, -⟩ := UnionFind.find_spec hfx
      obtain ⟨hrY, -, hiff2, -⟩ := UnionFind.find_spec hfy
      have hiff : ∀ z s, RootedTo uf.parent z s ↔ RootedTo uf₂.parent z s :=
        fun z s => (hiff1 z s).trans (hiff2 z s)
      have h₂ : PWF elems uf₂.parent := (h.find_preserve hfx).find_preserve hfy
      have hrX2 : RootedTo uf₂.parent x rootX := (hiff x rootX).mp hrX
      have hrYuf : RootedTo uf.parent y rootY := (hiff1 y rootY).mpr hrY
      have hrY2 : RootedTo uf₂.parent y rootY := (hiff2 y rootY).mp hrY
      have hSRxy : SameRoot uf.parent x y ↔ rootX = rootY := by
        constructor
        · rintro ⟨r, h1, h2⟩
          rw [hrX.unique h1, hrYuf.unique h2]
        · intro hRR
          exact ⟨rootX, hrX, hRR ▸ hrYuf⟩
      -- same-root through the merged state, shared by the three rank branches
      have mergeCase : ∀ (ra rb : Node), RootedTo uf₂.parent x ra ∨ RootedTo uf₂.parent x rb →
          RootedTo uf₂.parent y ra ∨ RootedTo uf₂.parent y rb →
          (RootedTo uf₂.parent x ra → RootedTo uf₂.parent y rb) →
          (RootedTo uf₂.parent x rb → RootedTo uf₂.parent y ra) →
          uf₂.parent ra = ra → uf₂.parent rb = rb → rb ≠ ra →
          ∀ a c, SameRoot (fun z => if z = rb then ra else uf₂.parent z) a c ↔
            (SameRoot uf.parent a c ∨
              (SameRoot uf.parent a x ∧ SameRoot uf.parent y c) ∨
              (SameRoot uf.parent a y ∧ SameRoot uf.parent x c)) := by
        intro ra rb hxab hyab hxy hyx hpra hprb hne a c
        rw [attach_sameRoot_iff h₂.1 hpra hprb hne a c]
        have hx2 : ∀ z, (SameRoot uf₂.parent z ra ∨ SameRoot uf₂.parent z rb) ↔
            (SameRoot uf₂.parent z x ∨ SameRoot uf₂.parent z y) := by
          intro z
          constructor
          · rintro (⟨r, h1, h2⟩ | ⟨r, h1, h2⟩)
            · obtain rfl := h2.unique (RootedTo.refl _ hpra)
              rcases hxab with hx | hx
              · exact Or.inl ⟨r, h1, hx⟩
              · exact Or.inr ⟨r, h1, hyx hx⟩
            · obtain rfl := h2.unique (RootedTo.refl _ hprb)
              rcases hxab with hx | hx
              · exact Or.inr ⟨r, h1, hxy hx⟩
              · exact Or.inl ⟨r, h1, hx⟩
          · rintro (⟨r, h1, h2⟩ | ⟨r, h1, h2⟩)
            · rcases hxab with hx | hx
              · obtain rfl := h2.unique hx
                exact Or.inl ⟨r, h1, RootedTo.refl _ hpra⟩
              · obtain rfl := h2.unique hx
                exact Or.inr ⟨r, h1, RootedTo.refl _ hprb⟩
            · rcases hyab with hy | hy
              · obtain rfl := h2.unique hy
                exact Or.inl ⟨r, h1, RootedTo.refl _ hpra⟩
              · obtain rfl := h2.unique hy
                exact Or.inr ⟨r, h1, RootedTo.refl _ hprb⟩
        rw [hx2 a, hx2 c]
        have tr : ∀ a c, SameRoot uf₂.parent a c ↔ SameRoot uf.parent a c :=
          fun a c => (sameRoot_congr hiff a c).symm
        rw [tr a c]
        have trx : ∀ z, SameRoot uf₂.parent z x ↔ SameRoot uf.parent z x := fun z => tr z x
        have trY : ∀ z, SameRoot uf₂.parent z y ↔ SameRoot uf.parent z y := fun z => tr z y
        rw [trx a, trY a, trx c, trY c]
        constructor
        · rintro (hac | ⟨(hax | hay), (hcx | hcy)⟩)
          · exact Or.inl hac
          · exact Or.inl (hax.chain hcx.comm)
          · exact Or.inr (Or.inl ⟨hax, hcy.comm⟩)
          · exact Or.inr (Or.inr ⟨hay, hcx.comm⟩)
          · exact Or.inl (hay.chain hcy.comm)
        · rintro (hac | ⟨hax, hyc⟩ | ⟨hay, hxc⟩)
          · exact Or.inl hac
          · exact Or.inr ⟨Or.inl hax, Or.inr hyc.comm⟩
          · exact Or.inr ⟨Or.inr hay, Or.inl hxc.comm⟩
      by_cases hRR : rootX = rootY
      · rw [if_pos hRR] at hu
        have h' := Option.some.inj hu
        rw [Prod.mk.injEq] at h'
        obtain ⟨huf, hb⟩ := h'
        subst huf
        subst hb
        refine ⟨fun _ => ⟨hSRxy.mpr hRR, fun a c => (sameRoot_congr hiff a c).symm⟩,
          fun hb => absurd hb (by simp)⟩
      · rw [if_neg hRR] at hu
        have hnSR : ¬ SameRoot uf.parent x y := fun hsr => hRR (hSRxy.mp hsr)
        have hyX : RootedTo uf₂.parent x rootY → False :=
          fun hc => hRR (hrX2.unique hc)
        have hxY : RootedTo uf₂.parent y rootX → False :=
          fun hc => hRR (hc.unique hrY2)
        by_cases hlt : uf₂.rank rootX < uf₂.rank rootY
        · rw [if_pos hlt] at hu
          have h' := Option.some.inj hu
          rw [Prod.mk.injEq] at h'
          obtain ⟨huf, hb⟩ := h'
          subst hb
          have hp : uf'.parent = fun z => if z = rootX then rootY else uf₂.parent z := by
            rw [← huf]
          refine ⟨fun hb => absurd hb (by simp), fun _ => ⟨hnSR, ?_⟩⟩
          rw [hp]
          exact mergeCase rootY rootX (Or.inr hrX2) (Or.inl hrY2)
            (fun hc => absurd hc hyX) (fun _ => hrY2) hrY2.1 hrX2.1 hRR
        · rw [if_neg hlt] at hu
          by_cases hgt : uf₂.rank rootY < uf₂.rank rootX
          · rw [if_pos hgt] at hu
            have h' := Option.some.inj hu
            rw [Prod.mk.injEq] at h'
            obtain ⟨huf, hb⟩ := h'
            subst hb
            have hp : uf'.parent = fun z => if z = rootY then rootX else uf₂.parent z := by
              rw [← huf]
            refine ⟨fun hb => absurd hb (by simp), fun _ => ⟨hnSR, ?_⟩⟩
            rw [hp]
            exact mergeCase rootX rootY (Or.inl hrX2) (Or.inr hrY2)
              (fun _ => hrY2) (fun hc => absurd hc hyX) hrX2.1 hrY2.1
              (fun hc => hRR hc.symm)
          · rw [if_neg hgt] at hu
            have h' := Option.some.inj hu
            rw [Prod.mk.injEq] at h'
            obtain ⟨huf, hb⟩ := h'
            subst hb
            have hp : uf'.parent = fun z => if z = rootY then rootX else uf₂.parent z := by
              rw [← huf]
            refine ⟨fun hb => absurd hb (by simp), fun _ => ⟨hnSR, ?_⟩⟩
            rw [hp]
            exact mergeCase rootX rootY (Or.inl hrX2) (Or.inr hrY2)
              (fun _ => hrY2) (fun hc => absurd hc hyX) hrX2.1 hrY2.1
              (fun hc => hRR hc.symm)

/-! ### The kruskal embedding -/

/-- The edge loop of `kruskal`: `connected` rejects cycle edges, `union`
merges otherwise, and after an acceptance the loop breaks as soon as
`len(mst_edges) == len(nodes) - 1` (Python integers, hence the `Int`
comparison).  `find`-style calls get fuel `|nodes| + 1`, which never runs out
on well-formed states. -/
def kruskalLoop (nodes : List Node) :
    List (Node × Node × Int) → UnionFind → List (Node × Node × Int) →
    Option (List (Node × Node × Int) × UnionFind)
  | [], uf, mst => some (mst, uf)
  | e :: rest, uf, mst =>
    match uf.connected (nodes.length + 1) e.1 e.2.1 with
    | none => none
    | some (uf₁, b) =>
      if b then kruskalLoop nodes rest uf₁ mst
      else
        match uf₁.union (nodes.length + 1) e.1 e.2.1 with
        | none => none
        | some (uf₂, _) =>
          if ((mst.length : Int) + 1) = (nodes.length : Int) - 1 then
            some (mst ++ [e], uf₂)
          else kruskalLoop nodes rest uf₂ (mst ++ [e])

/-- The comparison of `sorted(edges, key=lambda e: e[2])`: by weight. -/
def edgeLe (a b : Node × Node × Int) : Bool := decide (a.2.2 ≤ b.2.2)

/-- `kruskal(nodes, edges)`: sort the edges by weight (Python's stable
`sorted` with key `e[2]`), run the loop from the fresh union-find on the
nodes, and return the accepted edges with their total weight. -/
def kruskal (nodes : List Node) (edges : List (Node × Node × Int)) :
    Option (List (Node × Node × Int) × Int) :=
  match kruskalLoop nodes (edges.mergeSort edgeLe) UnionFind.init [] with
  | none => none
  | some (mst, _) => some (mst, wsum mst)

/-- Loop invariant: the union-find partition is exactly connectivity over the
accepted edges, and each accepted prefix of length `j` has merged exactly `j`
classes. -/
structure KInv (nodes : List Node) (uf : UnionFind)
    (mst : List (Node × Node × Int)) : Prop where
  pwf : PWF nodes uf.parent
  charac : ∀ x ∈ nodes, ∀ y ∈ nodes, (SameRoot uf.parent x y ↔ EReach mst x y)
  hist : ∀ j ≤ mst.length,
    (classesOf nodes (EReach (mst.take j))).ncard + j = nodes.toFinset.card

/-- Master run of the kruskal loop: it never errors, preserves the invariant,
accepts a weight-sorted subsequence of the remaining edges, stops either at
`|V| - 1` accepted edges or after connecting the endpoints of every remaining
edge, and for every remaining edge either all accepted edges weigh no more
than it, or its endpoints were already connected by an accepted prefix whose
edges weigh no more than it while all later accepted edges weigh no less. -/
theorem kruskalLoop_spec (nodes : List Node) :
    ∀ (rem : List (Node × Node × Int)) (uf : UnionFind)
      (mst : List (Node × Node × Int)),
      KInv nodes uf mst →
      (∀ e ∈ rem, e.1 ∈ nodes ∧ e.2.1 ∈ nodes) →
      rem.Pairwise (fun a b => a.2.2 ≤ b.2.2) →
      (∀ a ∈ mst, ∀ r ∈ rem, a.2.2 ≤ r.2.2) →
      ∃ mst' uf₂,
        kruskalLoop nodes rem uf mst = some (mst', uf₂) ∧
        KInv nodes uf₂ mst' ∧
        (∃ acc, mst' = mst ++ acc ∧ acc.Sublist rem) ∧
        ((mst'.length : Int) = (nodes.length : Int) - 1 ∨
          ∀ s ∈ rem, EReach mst' s.1 s.2.1) ∧
        (∀ s ∈ rem, (∀ e ∈ mst', e.2.2 ≤ s.2.2) ∨
          ∃ m, m ≤ mst'.length ∧ EReach (mst'.take m) s.1 s.2.1 ∧
            (∀ e ∈ mst'.take m, e.2.2 ≤ s.2.2) ∧
            (∀ e ∈ mst'.drop m, s.2.2 ≤ e.2.2)) := by
  intro rem
  induction rem with
  | nil =>
    intro uf mst hinv hrem hpair hwle
    refine ⟨mst, uf, rfl, hinv, ⟨[], by simp, List.nil_sublist _⟩,
      Or.inr ?_, ?_⟩
    · intro s hs
      exact absurd hs (List.not_mem_nil s)
    · intro s hs
      exact absurd hs (List.not_mem_nil s)
  | cons e rest ih =>
    intro uf mst hinv hrem hpair hwle
    obtain ⟨eu, ev, ew⟩ := e
    obtain ⟨heu, hev⟩ := hrem (eu, ev, ew) (List.mem_cons_self _ _)
    obtain ⟨uf₂c, bc, hc⟩ := connected_isSome hinv.pwf eu ev
    obtain ⟨hpwf₂c, hiffc, hbc⟩ := connected_semantics hinv.pwf hc
    have hrem' : ∀ e ∈ rest, e.1 ∈ nodes ∧ e.2.1 ∈ nodes :=
      fun e' he' => hrem e' (List.mem_cons_of_mem _ he')
    have hpair' := hpair.of_cons
    have hhead := (List.pairwise_cons.mp hpair).1
    by_cases hb : bc = true
    · -- edge rejected: endpoints already in the same set
      have hSR : SameRoot uf.parent eu ev := hbc.mp hb
      have hinv' : KInv nodes uf₂c mst :=
        { pwf := hpwf₂c
          charac := fun x hx y hy =>
            (sameRoot_congr hiffc x y).symm.trans (hinv.charac x hx y hy)
          hist := hinv.hist }
      have hwle' : ∀ a ∈ mst, ∀ r ∈ rest, a.2.2 ≤ r.2.2 :=
        fun a ha r hr => hwle a ha r (List.mem_cons_of_mem _ hr)
      obtain ⟨mst', uf₂, hrun, hinv'', ⟨acc, haccE, haccS⟩, hfin, hproc⟩ :=
        ih uf₂c mst hinv' hrem' hpair' hwle'
      have hreachE : EReach mst eu ev := (hinv.charac eu heu ev hev).mp hSR
      have hmono : ∀ e' ∈ mst, e' ∈ mst' := by
        intro e' he'
        rw [haccE]
        exact List.mem_append_left _ he'
      refine ⟨mst', uf₂, ?_, hinv'', ⟨acc, haccE, haccS.cons _⟩, ?_, ?_⟩
      · unfold kruskalLoop
        dsimp only
        rw [hc]
        dsimp only
        rw [if_pos hb]
        exact hrun
      · rcases hfin with h | h
        · exact Or.inl h
        · refine Or.inr ?_
          intro s hs
          rcases List.mem_cons.mp hs with rfl | hs'
          · exact hreachE.mono hmono
          · exact h s hs'
      · intro s hs
        rcases List.mem_cons.mp hs with rfl | hs'
        · right
          refine ⟨mst.length, ?_, ?_, ?_, ?_⟩
          · rw [haccE, List.length_append]
            omega
          · rw [haccE, List.take_left]
            exact hreachE
          · rw [haccE, List.take_left]
            intro e' he'
            exact hwle e' he' (eu, ev, ew) (List.mem_cons_self _ _)
          · rw [haccE, List.drop_left]
            intro e' he'
            exact hhead e' (haccS.mem he')
        · exact hproc s hs'
    · -- edge accepted
      have hbf : bc = false := Bool.eq_false_iff.mpr hb
      have hnSR : ¬ SameRoot uf.parent eu ev := fun hsr => hb (hbc.mpr hsr)
      have hnSR₂ : ¬ SameRoot uf₂c.parent eu ev :=
        fun hsr => hnSR ((sameRoot_congr hiffc eu ev).mpr hsr)
      obtain ⟨uf₃, bu, hu⟩ := hpwf₂c.union_isSome eu ev
      obtain ⟨hufalse, hutrue⟩ := union_sameRoot hpwf₂c hu
      cases bu with
      | false => exact absurd (hufalse rfl).1 hnSR₂
      | true =>
      obtain ⟨-, hmerge⟩ := hutrue rfl
      have hpwf₃ : PWF nodes uf₃.parent := hpwf₂c.union_preserve heu hev hu
      have charac₂ : ∀ x ∈ nodes, ∀ y ∈ nodes,
          (SameRoot uf₂c.parent x y ↔ EReach mst x y) :=
        fun x hx y hy => (sameRoot_congr hiffc x y).symm.trans (hinv.charac x hx y hy)
      have charac₃ : ∀ x ∈ nodes, ∀ y ∈ nodes,
          (SameRoot uf₃.parent x y ↔ EReach (mst ++ [(eu, ev, ew)]) x y) := by
        intro a ha c hc'
        rw [hmerge a c, EReach_snoc_iff, charac₂ a ha c hc', charac₂ a ha eu heu,
          charac₂ ev hev c hc', charac₂ a ha ev hev, charac₂ eu heu c hc']
      have hist₃ : ∀ j ≤ (mst ++ [(eu, ev, ew)]).length,
          (classesOf nodes (EReach ((mst ++ [(eu, ev, ew)]).take j))).ncard + j
            = nodes.toFinset.card := by
        intro j hj
        rw [List.length_append] at hj
        simp only [List.length_cons, List.length_nil] at hj
        by_cases hjle : j ≤ mst.length
        · rw [List.take_append_of_le_length hjle]
          exact hinv.hist j hjle
        · have hj' : j = mst.length + 1 := by omega
          subst hj'
          have hfull : (mst ++ [(eu, ev, ew)]).take (mst.length + 1)
              = mst ++ [(eu, ev, ew)] := by
            have hl : (mst ++ [(eu, ev, ew)]).length = mst.length + 1 := by simp
            rw [← hl, List.take_length]
          rw [hfull]
          have hcount₂ : (classesOf nodes (SameRoot uf₂c.parent)).ncard + mst.length
              = nodes.toFinset.card := by
            rw [classesOf_congr charac₂]
            have hh := hinv.hist mst.length (le_refl _)
            rw [List.take_length] at hh
            exact hh
          have hstep := classesOf_merge_eq (hpwf₂c.sameRoot_equivOn nodes)
            (hpwf₃.sameRoot_equivOn nodes) heu hev
            (fun x _ y _ => hmerge x y) hnSR₂
          have hEq : (classesOf nodes (EReach (mst ++ [(eu, ev, ew)]))).ncard
              = (classesOf nodes (SameRoot uf₃.parent)).ncard := by
            rw [classesOf_congr (fun x hx y hy => (charac₃ x hx y hy).symm)]
          omega
      have hinv₃ : KInv nodes uf₃ (mst ++ [(eu, ev, ew)]) :=
        { pwf := hpwf₃, charac := charac₃, hist := hist₃ }
      have hedgeE : EReach (mst ++ [(eu, ev, ew)]) eu ev :=
        EReach.single ⟨ew, Or.inl (List.mem_append_right _ (List.mem_singleton_self _))⟩
      have htakeW : ∀ e' ∈ mst ++ [(eu, ev, ew)], e'.2.2 ≤ ew := by
        intro e' he'
        rcases List.mem_append.mp he' with h | h
        · exact hwle e' h (eu, ev, ew) (List.mem_cons_self _ _)
        · rw [List.mem_singleton.mp h]
      by_cases hbreak : ((mst.length : Int) + 1) = (nodes.length : Int) - 1
      · -- break: |V| - 1 edges accepted
        refine ⟨mst ++ [(eu, ev, ew)], uf₃, ?_, hinv₃,
          ⟨[(eu, ev, ew)], rfl, (List.nil_sublist rest).cons₂ _⟩, Or.inl ?_, ?_⟩
        · unfold kruskalLoop
          dsimp only
          rw [hc]
          dsimp only
          rw [hbf, if_neg Bool.false_ne_true, hu]
          dsimp only
          rw [if_pos hbreak]
        · rw [List.length_append]
          simp only [List.length_cons, List.length_nil]
          push_cast
          omega
        · intro s hs
          rcases List.mem_cons.mp hs with rfl | hs'
          · right
            refine ⟨(mst ++ [(eu, ev, ew)]).length, le_refl _, ?_, ?_, ?_⟩
            · rw [List.take_length]
              exact hedgeE
            · rw [List.take_length]
              exact htakeW
            · rw [List.drop_length]
              intro e' he'
              exact absurd he' (List.not_mem_nil _)
          · left
            intro e' he'
            rcases List.mem_append.mp he' with h | h
            · exact hwle e' h s (List.mem_cons_of_mem _ hs')
            · rw [List.mem_singleton.mp h]
              exact hhead s hs'
      · -- no break: recurse
        have hwle₃ : ∀ a ∈ mst ++ [(eu, ev, ew)], ∀ r ∈ rest, a.2.2 ≤ r.2.2 := by
          intro a ha r hr
          rcases List.mem_append.mp ha with h | h
          · exact hwle a h r (List.mem_cons_of_mem _ hr)
          · rw [List.mem_singleton.mp h]
            exact hhead r hr
        obtain ⟨mst', uf₂, hrun, hinv'', ⟨acc, haccE, haccS⟩, hfin, hproc⟩ :=
          ih uf₃ (mst ++ [(eu, ev, ew)]) hinv₃ hrem' hpair' hwle₃
        have hmono : ∀ e' ∈ mst ++ [(eu, ev, ew)], e' ∈ mst' := by
          intro e' he'
          rw [haccE]
          exact List.mem_append_left _ he'
        refine ⟨mst', uf₂, ?_, hinv'', ⟨(eu, ev, ew) :: acc, ?_, haccS.cons₂ _⟩, ?_, ?_⟩
        · unfold kruskalLoop
          dsimp only
          rw [hc]
          dsimp only
          rw [hbf, if_neg Bool.false_ne_true, hu]
          dsimp only
          rw [if_neg hbreak]
          exact hrun
        · rw [haccE, List.append_assoc]
          rfl
        · rcases hfin with h | h
          · exact Or.inl h
          · refine Or.inr ?_
            intro s hs
            rcases List.mem_cons.mp hs with rfl | hs'
            · exact hedgeE.mono hmono
            · exact h s hs'
        · intro s hs
          rcases List.mem_cons.mp hs with rfl | hs'
          · right
            refine ⟨(mst ++ [(eu, ev, ew)]).length, ?_, ?_, ?_, ?_⟩
            · rw [haccE]
              simp only [List.length_append, List.length_cons, List.length_nil]
              omega
            · rw [haccE, List.take_left]
              exact hedgeE
            · rw [haccE, List.take_left]
              exact htakeW
            · rw [haccE, List.drop_left]
              intro e' he'
              exact hhead e' (haccS.mem he')
          · exact hproc s hs'

/-! ### Top-level analysis of kruskal -/

theorem sameRoot_id (x y : Node) : SameRoot (fun z : Node => z) x y ↔ x = y := by
  constructor
  · rintro ⟨r, ⟨-, k, hk⟩, ⟨-, l, hl⟩⟩
    have hid : ∀ (m : Nat) (z : Node), (fun z : Node => z)^[m] z = z := by
      intro m z
      rw [show (fun z : Node => z) = id from rfl, Function.iterate_id]
      rfl
    rw [hid] at hk hl
    rw [hk, hl]
  · rintro rfl
    exact ⟨x, ⟨rfl, 0, rfl⟩, ⟨rfl, 0, rfl⟩⟩

/-- Appending `L₂` lowers the class count by at most `|L₂|`. -/
theorem classesOf_append_le (nodes : List Node) :
    ∀ (L₂ L₁ : List (Node × Node × Int)),
      (∀ e ∈ L₂, e.1 ∈ nodes ∧ e.2.1 ∈ nodes) →
      (classesOf nodes (EReach L₁)).ncard ≤
        (classesOf nodes (EReach (L₁ ++ L₂))).ncard + L₂.length := by
  intro L₂
  induction L₂ with
  | nil =>
    intro L₁ _
    rw [List.append_nil]
    omega
  | cons e L₂' ih =>
    intro L₁ hep
    obtain ⟨eu, ev, ew⟩ := e
    obtain ⟨heu, hev⟩ := hep (eu, ev, ew) (List.mem_cons_self _ _)
    have h1 : (classesOf nodes (EReach L₁)).ncard ≤
        (classesOf nodes (EReach (L₁ ++ [(eu, ev, ew)]))).ncard + 1 :=
      classesOf_merge_le (EReach_equivOn nodes L₁) (EReach_equivOn nodes _)
        heu hev (fun x _ y _ => EReach_snoc_iff)
    have h2 := ih (L₁ ++ [(eu, ev, ew)])
      (fun e' he' => hep e' (List.mem_cons_of_mem _ he'))
    rw [List.append_assoc, List.singleton_append] at h2
    simp only [List.length_cons]
    omega

/-- Pointwise weight domination gives total weight domination. -/
theorem wsum_le_of_pointwise :
    ∀ (L₁ L₂ : List (Node × Node × Int)), L₁.length = L₂.length →
      (∀ (i : Nat) (h₁ : i < L₁.length) (h₂ : i < L₂.length),
        L₁[i].2.2 ≤ L₂[i].2.2) →
      wsum L₁ ≤ wsum L₂ := by
  intro L₁
  induction L₁ with
  | nil =>
    intro L₂ hlen _
    have h0 : L₂ = [] := List.length_eq_zero.mp hlen.symm
    rw [h0]
  | cons a L ih =>
    intro L₂ hlen hpt
    cases L₂ with
    | nil => exact absurd hlen (by simp)
    | cons b L₂' =>
      rw [wsum_cons, wsum_cons]
      have h0 : a.2.2 ≤ b.2.2 := by
        have hq := hpt 0 (by simp) (by simp)
        simpa using hq
      have hrest : wsum L ≤ wsum L₂' := by
        refine ih L₂' (by simpa using hlen) ?_
        intro i h₁ h₂
        have hq := hpt (i + 1) (by simp; omega) (by simp; omega)
        simpa using hq
      exact add_le_add h0 hrest

/-- Full run of `kruskal`: it returns, the accepted edges come from the input,
each accepted prefix of length `j` leaves `|V| - j` components, the accepted
edges span exactly the components of the input, and every input edge is either
no lighter than every accepted edge or already spanned by a prefix of lighter
accepted edges followed only by heavier ones. -/
theorem kruskal_run (nodes : List Node) (edges : List (Node × Node × Int))
    (hnd : nodes.Nodup) (hep : ∀ e ∈ edges, e.1 ∈ nodes ∧ e.2.1 ∈ nodes) :
    ∃ mst,
      kruskal nodes edges = some (mst, wsum mst) ∧
      (∀ e ∈ mst, e ∈ edges) ∧
      (∀ j ≤ mst.length,
        (classesOf nodes (EReach (mst.take j))).ncard + j = nodes.length) ∧
      (∀ x ∈ nodes, ∀ y ∈ nodes, (EReach mst x y ↔ EReach edges x y)) ∧
      ((classesOf nodes (EReach edges)).ncard + mst.length = nodes.length) ∧
      (∀ s ∈ edges, (∀ e ∈ mst, e.2.2 ≤ s.2.2) ∨
        ∃ m, m ≤ mst.length ∧ EReach (mst.take m) s.1 s.2.1 ∧
          (∀ e ∈ mst.take m, e.2.2 ≤ s.2.2) ∧
          (∀ e ∈ mst.drop m, s.2.2 ≤ e.2.2)) := by
  have hNcard : nodes.toFinset.card = nodes.length := List.toFinset_card_of_nodup hnd
  have hinv₀ : KInv nodes UnionFind.init [] :=
    { pwf := ⟨fun x => ⟨x, rfl, 0, rfl⟩, fun x hx => absurd rfl hx⟩
      charac := fun x _ y _ => (sameRoot_id x y).trans EReach_nil_iff.symm
      hist := by
        intro j hj
        have hj0 : j = 0 := Nat.le_zero.mp hj
        subst hj0
        rw [show (List.take 0 ([] : List (Node × Node × Int))) = [] from rfl,
          classesOf_congr (fun x _ y _ => EReach_nil_iff), classesOf_eq_card]
        omega }
  have htr : ∀ a b c : Node × Node × Int,
      edgeLe a b = true → edgeLe b c = true → edgeLe a c = true := by
    intro a b c h1 h2
    unfold edgeLe at h1 h2 ⊢
    rw [decide_eq_true_eq] at h1 h2 ⊢
    omega
  have htot : ∀ a b : Node × Node × Int, (edgeLe a b || edgeLe b a) = true := by
    intro a b
    unfold edgeLe
    rw [Bool.or_eq_true, decide_eq_true_eq, decide_eq_true_eq]
    exact Int.le_total _ _
  have hpairS : (edges.mergeSort edgeLe).Pairwise (fun a b => a.2.2 ≤ b.2.2) := by
    have hP := List.sorted_mergeSort htr htot edges
    exact hP.imp (fun h => of_decide_eq_true h)
  obtain ⟨mst, uf₂, hrun, hinv, ⟨acc, haccE, haccS⟩, hfin, hproc⟩ :=
    kruskalLoop_spec nodes (edges.mergeSort edgeLe) UnionFind.init [] hinv₀
      (fun e he => hep e (List.mem_mergeSort.mp he)) hpairS
      (fun a ha => absurd ha (List.not_mem_nil a))
  have hsub : ∀ e ∈ mst, e ∈ edges := by
    intro e he
    rw [haccE, List.nil_append] at he
    exact List.mem_mergeSort.mp (haccS.mem he)
  have hist' : ∀ j ≤ mst.length,
      (classesOf nodes (EReach (mst.take j))).ncard + j = nodes.length := by
    intro j hj
    have hh := hinv.hist j hj
    rw [hNcard] at hh
    exact hh
  have hcharacE : ∀ x ∈ nodes, ∀ y ∈ nodes, (EReach mst x y ↔ EReach edges x y) := by
    rcases hfin with hbr | hall
    · have hcnt := hist' mst.length (le_refl _)
      rw [List.take_length] at hcnt
      have hlen : mst.length + 1 = nodes.length := by omega
      have hone : (classesOf nodes (EReach mst)).ncard = 1 := by omega
      have hallm := classesOf_one_all (EReach_equivOn nodes mst) hone
      intro x hx y hy
      exact ⟨fun h => h.mono hsub, fun _ => hallm x hx y hy⟩
    · intro x hx y hy
      constructor
      · exact fun h => h.mono hsub
      · intro h
        exact h.absorb (fun z => EReach.refl z) (fun h' => h'.rev)
          (fun h1 h2 => h1.link h2)
          (fun e he => hall e (List.mem_mergeSort.mpr he))
  have hcountE : (classesOf nodes (EReach edges)).ncard + mst.length = nodes.length := by
    have hcnt := hist' mst.length (le_refl _)
    rw [List.take_length] at hcnt
    rw [← classesOf_congr hcharacE]
    exact hcnt
  have hkr : kruskal nodes edges = some (mst, wsum mst) := by
    unfold kruskal
    rw [hrun]
  refine ⟨mst, hkr, hsub, hist', hcharacE, hcountE, ?_⟩
  intro s hs
  exact hproc s (List.mem_mergeSort.mpr hs)

/-- Claim C5: on every graph given as a duplicate-free node list and an edge
list over those nodes, `kruskal(nodes, edges)` returns without error a list of
accepted input edges whose count is `|V|` minus the number of connected
components (a spanning forest of the components, also when the graph is
disconnected), together with its total weight; and when the graph is
connected, that total weight is minimal among all spanning trees
(edge selections of size `|V| - 1` connecting all nodes). -/
theorem kruskal_correct (nodes : List Node) (edges : List (Node × Node × Int))
    (hnd : nodes.Nodup) (hep : ∀ e ∈ edges, e.1 ∈ nodes ∧ e.2.1 ∈ nodes) :
    ∃ mst, kruskal nodes edges = some (mst, wsum mst) ∧
      (∀ e ∈ mst, e ∈ edges) ∧
      ((mst.length : Int) + ((classesOf nodes (EReach edges)).ncard : Int)
        = (nodes.length : Int)) ∧
      (∀ x ∈ nodes, ∀ y ∈ nodes, (EReach mst x y ↔ EReach edges x y)) ∧
      ((∀ x ∈ nodes, ∀ y ∈ nodes, EReach edges x y) →
        ∀ T, (∀ e ∈ T, e ∈ edges) →
          ((T.length : Int) = (nodes.length : Int) - 1) →
          (∀ x ∈ nodes, ∀ y ∈ nodes, EReach T x y) →
          wsum mst ≤ wsum T) := by
  obtain ⟨mst, hkr, hsub, hhist, hcharac, hcount, hproc⟩ :=
    kruskal_run nodes edges hnd hep
  refine ⟨mst, hkr, hsub, by omega, hcharac, ?_⟩
  intro hconn T hTsub hTlen hTspan
  have hn1 : 1 ≤ nodes.length := by omega
  obtain ⟨x₀, hx₀⟩ := @List.exists_mem_of_length_pos Node nodes (by omega)
  have hc1 : (classesOf nodes (EReach edges)).ncard = 1 :=
    classesOf_all_one hx₀ (EReach_equivOn nodes edges) hconn
  have hk : mst.length + 1 = nodes.length := by omega
  have hpermT := List.mergeSort_perm T edgeLe
  have hTlen' : (T.mergeSort edgeLe).length = T.length := hpermT.length_eq
  have hTsort : (T.mergeSort edgeLe).Pairwise (fun a b => a.2.2 ≤ b.2.2) := by
    have htr : ∀ a b c : Node × Node × Int,
        edgeLe a b = true → edgeLe b c = true → edgeLe a c = true := by
      intro a b c h1 h2
      unfold edgeLe at h1 h2 ⊢
      rw [decide_eq_true_eq] at h1 h2 ⊢
      omega
    have htot : ∀ a b : Node × Node × Int, (edgeLe a b || edgeLe b a) = true := by
      intro a b
      unfold edgeLe
      rw [Bool.or_eq_true, decide_eq_true_eq, decide_eq_true_eq]
      exact Int.le_total _ _
    exact (List.sorted_mergeSort htr htot T).imp (fun h => of_decide_eq_true h)
  have hklen : (T.mergeSort edgeLe).length = mst.length := by omega
  have hpt : ∀ (i : Nat) (h₁ : i < mst.length) (h₂ : i < (T.mergeSort edgeLe).length),
      mst[i].2.2 ≤ (T.mergeSort edgeLe)[i].2.2 := by
    intro i h₁ h₂
    by_contra hcon
    push_neg at hcon
    have hSw : ∀ s ∈ (T.mergeSort edgeLe).take (i + 1),
        s.2.2 ≤ (T.mergeSort edgeLe)[i].2.2 := by
      intro s hsS
      obtain ⟨j, hj, hjs⟩ := List.mem_iff_getElem.mp hsS
      have hjlt : j < i + 1 := by
        rw [List.length_take] at hj
        omega
      have hgj : ((T.mergeSort edgeLe).take (i + 1))[j] = (T.mergeSort edgeLe)[j] :=
        List.getElem_take _
      rcases Nat.lt_or_ge j i with hji | hji
      · have hle := List.pairwise_iff_getElem.mp hTsort j i (by omega) h₂ hji
        rw [← hjs, hgj]
        exact hle
      · have hje : j = i := by omega
        subst hje
        rw [← hjs, hgj]
    have hA : ∃ s ∈ (T.mergeSort edgeLe).take (i + 1),
        ¬ EReach (mst.take i) s.1 s.2.1 := by
      by_contra hAll
      push_neg at hAll
      have himp : ∀ x ∈ nodes, ∀ y ∈ nodes,
          EReach ((T.mergeSort edgeLe).take (i + 1)) x y →
          EReach (mst.take i) x y := by
        intro x _ y _ hxy
        exact hxy.absorb (fun z => EReach.refl z) (fun h => h.rev)
          (fun h1 h2 => h1.link h2) (fun e he => hAll e he)
      have hle1 := classesOf_le_of_imp (EReach_equivOn nodes _)
        (EReach_equivOn nodes (mst.take i)) himp
      have hFc := hhist i (by omega)
      have hdropEp : ∀ e ∈ (T.mergeSort edgeLe).drop (i + 1),
          e.1 ∈ nodes ∧ e.2.1 ∈ nodes := by
        intro e he
        exact hep e (hTsub e (List.mem_mergeSort.mp (List.mem_of_mem_drop he)))
      have happ := classesOf_append_le nodes ((T.mergeSort edgeLe).drop (i + 1))
        ((T.mergeSort edgeLe).take (i + 1)) hdropEp
      rw [List.take_append_drop] at happ
      have hTc : (classesOf nodes (EReach (T.mergeSort edgeLe))).ncard = 1 := by
        refine classesOf_all_one hx₀ (EReach_equivOn _ _) ?_
        intro x hx y hy
        exact (hTspan x hx y hy).mono (fun e he => List.mem_mergeSort.mpr he)
      have hdlen := List.length_drop (i + 1) (T.mergeSort edgeLe)
      omega
    obtain ⟨s, hsS, hsNF⟩ := hA
    have hsw : s.2.2 < mst[i].2.2 :=
      lt_of_le_of_lt (hSw s hsS) hcon
    have hsE : s ∈ edges :=
      hTsub s (List.mem_mergeSort.mp (List.mem_of_mem_take hsS))
    rcases hproc s hsE with hall | ⟨m, hm, hreach, htakeW, hdropW⟩
    · have := hall mst[i] (List.getElem_mem h₁)
      omega
    · rcases le_or_lt m i with hmi | hmi
      · have hsubm : ∀ e ∈ mst.take m, e ∈ mst.take i := by
          intro e he
          have hmm : mst.take m = (mst.take i).take m := by
            rw [List.take_take]
            congr 1
            omega
          rw [hmm] at he
          exact List.mem_of_mem_take he
        exact hsNF (hreach.mono hsubm)
      · have hlt : i < (mst.take m).length := by
          rw [List.length_take]
          omega
        have hgm : (mst.take m)[i] = mst[i] := List.getElem_take _
        have hmem : mst[i] ∈ mst.take m := by
          rw [← hgm]
          exact List.getElem_mem hlt
        have := htakeW _ hmem
        omega
  have hwT : wsum (T.mergeSort edgeLe) = wsum T := by
    unfold wsum
    exact (hpermT.map (fun e => e.2.2)).sum_eq
  calc wsum mst ≤ wsum (T.mergeSort edgeLe) :=
        wsum_le_of_pointwise mst (T.mergeSort edgeLe) (by omega) hpt
    _ = wsum T := hwT

/-- Scenario: the triangle `{A,B,C}` with edges `(A,B,1)`, `(B,C,2)`,
`(A,C,5)`. -/
theorem kruskal_correct_witness :
    ∃ mst, kruskal [0, 1, 2] [(0, 1, (1 : Int)), (1, 2, 2), (0, 2, 5)]
        = some (mst, wsum mst) ∧
      (∀ e ∈ mst, e ∈ [(0, 1, (1 : Int)), (1, 2, 2), (0, 2, 5)]) ∧
      ((mst.length : Int) +
          ((classesOf [0, 1, 2]
            (EReach [(0, 1, (1 : Int)), (1, 2, 2), (0, 2, 5)])).ncard : Int)
        = (([0, 1, 2] : List Node).length : Int)) ∧
      (∀ x ∈ ([0, 1, 2] : List Node), ∀ y ∈ ([0, 1, 2] : List Node),
        (EReach mst x y ↔ EReach [(0, 1, (1 : Int)), (1, 2, 2), (0, 2, 5)] x y)) ∧
      ((∀ x ∈ ([0, 1, 2] : List Node), ∀ y ∈ ([0, 1, 2] : List Node),
          EReach [(0, 1, (1 : Int)), (1, 2, 2), (0, 2, 5)] x y) →
        ∀ T, (∀ e ∈ T, e ∈ [(0, 1, (1 : Int)), (1, 2, 2), (0, 2, 5)]) →
          ((T.length : Int) = (([0, 1, 2] : List Node).length : Int) - 1) →
          (∀ x ∈ ([0, 1, 2] : List Node), ∀ y ∈ ([0, 1, 2] : List Node), EReach T x y) →
          wsum mst ≤ wsum T) :=
  kruskal_correct [0, 1, 2] [(0, 1, (1 : Int)), (1, 2, 2), (0, 2, 5)]
    (by decide) (by decide)

end AlgoSpec
